import Mathlib

/-!
# caxa stub (`src/binary.go`): cache resolution, extraction and launch

A shallow embedding of the Go stub.  Go strings are lists of characters
(`Str`); every separator, dot and brace the program inspects is ASCII, so
bytes and characters coincide where it matters.  The host is POSIX:
`filepath.Separator` is `/`, `filepath.FromSlash` is the identity and
`filepath.Join`/`filepath.Dir` agree with their `path` counterparts.

The operating system is an explicit file-system value `FS`, a table from
canonical locations to directories, files and symbolic links, that is threaded
through every call.  Path resolution walks the elements of a path from the
root, which is also the working directory, and expands up to forty symbolic
links.  Permission bits are recorded but never checked, a trailing separator
is not told apart from none, and there are no disk-full or permission-denied
failures.

The decoding of gzip and tar is not modelled: a `Reader` is the sequence of
results the tar reader delivers, and `tar.Next.deliverable` says which results
the reader of `archive/tar` can deliver.  Writes to standard error (the
progress message with its ticker, the diagnostic print of `untar`) are left
out.

The embedded file system is a field of `Stub`; `data` is the one the
`go:embed` directive of the source produces, and the statements about `main`
are made for the stub as built, whose embedded file system is `data b` for some
contents `b` of `build.tar.gz`.  `Untar` and `untar` are functions of their
reader and are described for every reader.
-/

set_option autoImplicit false

/-- Go strings. -/
abbrev Str := List Char

namespace strings

/-- Go `strings.HasPrefix`. -/
def HasPrefix : Str → Str → Bool
  | _, [] => true
  | [], _ :: _ => false
  | c :: s, d :: p => c == d && HasPrefix s p

/-- Go `strings.Contains`: `sub` occurs in `s` as a contiguous block. -/
def Contains : Str → Str → Bool
  | [], sub => sub.isEmpty
  | c :: s, sub => HasPrefix (c :: s) sub || Contains s sub

/-- Go `strings.Split s sep` for a one-character separator: the pieces between
consecutive separators, empty pieces included; never the empty list. -/
def Split (sep : Char) : Str → List Str
  | [] => [[]]
  | c :: s =>
    if c = sep then [] :: Split sep s
    else
      match Split sep s with
      | [] => [[c]]
      | h :: t => (c :: h) :: t

/-- Go `strings.HasSuffix`. -/
def HasSuffix (s suffix : Str) : Bool := HasPrefix s.reverse suffix.reverse

/-- Go `strings.Join elems sep` for a one-character separator. -/
def Join (sep : Char) : List Str → Str
  | [] => []
  | [a] => a
  | a :: b :: rest => a ++ sep :: Join sep (b :: rest)

end strings

/-- Source: `validRelPath` (binary.go, lines 287-292). -/
def validRelPath (p : Str) : Bool :=
  if p == [] || strings.Contains p ['\\'] || strings.HasPrefix p ['/']
      || strings.Contains p ['.', '.', '/'] then
    false
  else
    true

namespace path

/-- One element of `path.Clean` against the stack `acc` (top first): empty and
`.` elements are dropped, a `..` removes the element before it, is dropped at
the root of a rooted path and is kept at the front of a relative one. -/
def cleanStep (rooted : Bool) (acc : List Str) (seg : Str) : List Str :=
  if seg = [] ∨ seg = ['.'] then acc
  else if seg = ['.', '.'] then
    match acc with
    | [] => if rooted then [] else [seg]
    | top :: acc1 => if top = ['.', '.'] then seg :: top :: acc1 else acc1
  else seg :: acc

/-- The elements that remain of a path after `path.Clean`. -/
def cleanSegs (rooted : Bool) (segs : List Str) : List Str :=
  (segs.foldl (cleanStep rooted) []).reverse

/-- Go `path.Clean`, from its documented rules. -/
def Clean (s : Str) : Str :=
  let rooted := strings.HasPrefix s ['/']
  let body := strings.Join '/' (cleanSegs rooted (strings.Split '/' s))
  if rooted then '/' :: body
  else if body = [] then ['.']
  else body

/-- Go `path.Join`: empty elements are ignored, the rest is joined with `/` and
cleaned; the result is empty when every element is. -/
def Join (elem : List Str) : Str :=
  match elem.filter (fun e => e ≠ []) with
  | [] => []
  | es => Clean (strings.Join '/' es)

/-- Go `path.IsAbs`. -/
def IsAbs (s : Str) : Bool := strings.HasPrefix s ['/']

end path

namespace filepath

/-- Go `filepath.FromSlash` on a POSIX host. -/
def FromSlash (s : Str) : Str := s

/-- Go `filepath.Join` on a POSIX host. -/
def Join (elem : List Str) : Str := path.Join elem

/-- Go `filepath.Dir`: everything up to the last separator, cleaned. -/
def Dir (s : Str) : Str :=
  path.Clean ((s.reverse.dropWhile (fun c => c ≠ '/')).reverse)

end filepath

namespace strconv

/-- The decimal digit `d`. -/
def digitChar (d : Nat) : Char := Char.ofNat (48 + d)

/-- Digits of `n`, most significant first, pushed in front of `acc`. -/
def itoaAux : Nat → Nat → Str → Str
  | 0, _, acc => acc
  | fuel + 1, n, acc =>
    if n < 10 then digitChar n :: acc
    else itoaAux fuel (n / 10) (digitChar (n % 10) :: acc)

/-- Go `strconv.Itoa` on a non-negative integer.  The loop counter it is
applied to starts at zero and only grows; the wrap of a 64-bit `int` after
`2^63` attempts is outside the model. -/
def Itoa (n : Nat) : Str := itoaAux (n + 1) n []

end strconv

/-! ## The file system -/

/-- The error numbers the model can produce. -/
inductive Errno
  | ENOENT | ENOTDIR | EEXIST | EISDIR | ENOTEMPTY | ELOOP | EBUSY
  deriving DecidableEq, Repr

deriving instance DecidableEq for Except

/-- Go `time.Time`, as seconds; `0` is the zero time. -/
abbrev Time := Int

/-- A file-system object. -/
inductive Node
  | dir
  | file (perm : Nat) (content : List Nat) (modTime : Time)
  | symlink (target : Str)
  deriving DecidableEq, Repr

/-- Go `FileInfo.IsDir`. -/
def Node.IsDir : Node → Bool
  | .dir => true
  | _ => false

/-- A canonical location: the names from the root down. -/
abbrev Loc := List Str

/-- The file system: the objects below the root, by canonical location.  The
root itself is always a directory. -/
abbrev FS := List (Loc × Node)

/-- First binding of `p` in the table. -/
def FS.get : FS → Loc → Option Node
  | [], _ => none
  | (q, n) :: rest, p => if q = p then some n else FS.get rest p

/-- The object at `p`, the root included. -/
def FS.node (fs : FS) (p : Loc) : Option Node :=
  if p = [] then some Node.dir else fs.get p

/-- Remove every binding of `p`. -/
def FS.erase (fs : FS) (p : Loc) : FS := fs.filter (fun e => e.1 ≠ p)

/-- Bind `p` to `n`, replacing what was there. -/
def FS.set (fs : FS) (p : Loc) (n : Node) : FS := (p, n) :: fs.erase p

/-- Some object lies directly inside `p`. -/
def FS.hasChild (fs : FS) (p : Loc) : Bool :=
  fs.any (fun e => decide (e.1 ≠ []) && decide (e.1.dropLast = p))

/-- The elements of a path name; empty elements and `.` do not move. -/
def comps (name : Str) : List Str :=
  (strings.Split '/' name).filter (fun c => c ≠ [] ∧ c ≠ ['.'])

/-- A symbolic-link target that starts at the root. -/
def isAbsTarget (t : Str) : Bool := strings.HasPrefix t ['/']

/-- One pass of path resolution from directory `cur` over the remaining
elements.  `..` moves to the parent, a directory is entered, anything else may
only be the last element.  A symbolic link is expanded through `k` unless it is
the last element and `followLast` is off.  The result is the location reached
and the object there, `none` when only the last element is missing. -/
def walkStep (fs : FS) (followLast : Bool)
    (k : Loc → List Str → Except Errno (Loc × Option Node)) :
    Loc → List Str → Except Errno (Loc × Option Node)
  | cur, [] => .ok (cur, fs.node cur)
  | cur, c :: rest =>
    if c = ['.', '.'] then walkStep fs followLast k cur.dropLast rest
    else
      match fs.node (cur ++ [c]) with
      | none => if rest = [] then .ok (cur ++ [c], none) else .error .ENOENT
      | some .dir => walkStep fs followLast k (cur ++ [c]) rest
      | some (.file perm content modTime) =>
        if rest = [] then .ok (cur ++ [c], some (.file perm content modTime))
        else .error .ENOTDIR
      | some (.symlink t) =>
        if rest = [] ∧ followLast = false then .ok (cur ++ [c], some (.symlink t))
        else k (if isAbsTarget t then [] else cur) (comps t ++ rest)

/-- Path resolution that expands at most `n` symbolic links. -/
def walkN (fs : FS) (followLast : Bool) : Nat → Loc → List Str → Except Errno (Loc × Option Node)
  | 0 => fun _ _ => .error .ELOOP
  | n + 1 => walkStep fs followLast (walkN fs followLast n)

/-- The number of symbolic links one resolution may expand. -/
def maxSymlinks : Nat := 40

/-- Resolve path elements from the root. -/
def resolve (fs : FS) (followLast : Bool) (cs : List Str) : Except Errno (Loc × Option Node) :=
  walkN fs followLast (maxSymlinks + 1) [] cs

namespace os

/-- Stat on path elements. -/
def statC (fs : FS) (followLast : Bool) (cs : List Str) : Except Errno Node :=
  match resolve fs followLast cs with
  | .ok (_, some n) => .ok n
  | .ok (_, none) => .error .ENOENT
  | .error e => .error e

/-- Go `os.Stat`: follows symbolic links. -/
def Stat (fs : FS) (name : Str) : Except Errno Node := statC fs true (comps name)

/-- Go `os.Lstat`: does not follow a final symbolic link. -/
def Lstat (fs : FS) (name : Str) : Except Errno Node := statC fs false (comps name)

/-- Go `os.Mkdir` on path elements: the parent must exist, the name must not. -/
def mkdirC (fs : FS) (cs : List Str) : Except Errno FS :=
  match resolve fs false cs with
  | .ok (p, none) => .ok (fs.set p .dir)
  | .ok (_, some _) => .error .EEXIST
  | .error e => .error e

/-- Go `os.MkdirAll` on path elements, following the library: done when the
path already is a directory, otherwise the parent is made first and then the
directory itself; a failed `Mkdir` is forgiven when the directory is there. -/
def mkdirAllC (fs : FS) : Nat → List Str → Except Errno FS
  | 0, _ => .error .ELOOP
  | fuel + 1, cs =>
    match statC fs true cs with
    | .ok n => if n.IsDir then .ok fs else .error .ENOTDIR
    | .error _ =>
      match (if 1 < cs.length then mkdirAllC fs fuel cs.dropLast else .ok fs) with
      | .error e => .error e
      | .ok fs1 =>
        match mkdirC fs1 cs with
        | .ok fs2 => .ok fs2
        | .error e =>
          match statC fs1 false cs with
          | .ok n => if n.IsDir then .ok fs1 else .error e
          | .error _ => .error e

/-- Go `os.MkdirAll`. -/
def MkdirAll (fs : FS) (name : Str) : Except Errno FS :=
  mkdirAllC fs ((comps name).length + 1) (comps name)

/-- Go `os.OpenFile(name, O_RDWR|O_CREATE|O_TRUNC, perm)` followed by the write
of `content` and `Close`: a missing file is created with `perm`, an existing
one is truncated and keeps its permission bits; a directory cannot be opened
for writing.  The final symbolic link is followed. -/
def OpenFile (fs : FS) (name : Str) (perm : Nat) (content : List Nat) (now : Time) :
    Except Errno FS :=
  match resolve fs true (comps name) with
  | .ok (p, none) => .ok (fs.set p (.file perm content now))
  | .ok (p, some (.file oldPerm _ _)) => .ok (fs.set p (.file oldPerm content now))
  | .ok (_, some .dir) => .error .EISDIR
  | .ok (_, some (.symlink _)) => .error .ELOOP
  | .error e => .error e

/-- Go `os.Chtimes` with both times equal; the caller ignores its error, so a
failure leaves the file system as it is. -/
def Chtimes (fs : FS) (name : Str) (modTime : Time) : FS :=
  match resolve fs true (comps name) with
  | .ok (p, some (.file perm content _)) => fs.set p (.file perm content modTime)
  | _ => fs

/-- Go `os.Remove`: unlinks a file or a symbolic link, removes an empty
directory. -/
def Remove (fs : FS) (name : Str) : Except Errno FS :=
  match resolve fs false (comps name) with
  | .ok (_, none) => .error .ENOENT
  | .ok (p, some .dir) =>
    if p = [] then .error .EBUSY
    else if fs.hasChild p then .error .ENOTEMPTY
    else .ok (fs.erase p)
  | .ok (p, some _) => .ok (fs.erase p)
  | .error e => .error e

/-- Go `os.Symlink oldname newname`: `newname` must not exist, its parent must,
and the target must not be empty. -/
def Symlink (fs : FS) (oldname newname : Str) : Except Errno FS :=
  if oldname = [] then .error .ENOENT
  else
    match resolve fs false (comps newname) with
    | .ok (p, none) => .ok (fs.set p (.symlink oldname))
    | .ok (_, some _) => .error .EEXIST
    | .error e => .error e

end os

/-! ## The extractor (`untar`) -/

namespace tar

/-- Go `tar.TypeSymlink`. -/
def TypeSymlink : Char := '2'

/-- Go `tar.TypeDir`. -/
def TypeDir : Char := '5'

/-- Go `tar.TypeReg`. -/
def TypeReg : Char := '0'

/-- Go `tar.TypeLink`, a hard link. -/
def TypeLink : Char := '1'

/-- The fields of Go `tar.Header` the extractor reads; `Size` and `Mode` are
of type `int64`. -/
structure Header where
  Name : Str
  Linkname : Str
  Size : Int
  Mode : Int
  Typeflag : Char
  ModTime : Time
  deriving DecidableEq, Repr

/-- Go `fs.FileMode(h.Mode)`: the conversion of the `int64` field to the 32-bit
`FileMode` keeps the low 32 bits. -/
def Header.fileMode (h : Header) : Nat := (h.Mode % 4294967296).toNat

/-- The file-type part of `Header.FileInfo().Mode()`: the type bits come from
the legacy bits of the converted `Mode` (everything above its low twelve bits)
and from the type flag. -/
inductive ModeType
  | regular | dir | other
  deriving DecidableEq, Repr

/-- Go `Header.FileInfo().Mode()`, reduced to what the `switch` of `untar`
asks of it.  The directory bit comes from the legacy mode `040000` or from
`TypeDir`; another type bit comes from the legacy modes of pipes, links,
devices and sockets or from the type flags of symbolic links, character and
block devices and pipes.  `IsRegular` holds when no type bit is set, and
`IsDir`, which the `switch` asks next, when the directory bit is set. -/
def Header.modeType (h : Header) : ModeType :=
  let legacy := h.fileMode / 4096 * 4096
  let dirBit := decide (legacy = 0o40000) || decide (h.Typeflag = TypeDir)
  let otherBit :=
    decide (legacy = 0o10000) || decide (legacy = 0o120000) || decide (legacy = 0o60000)
      || decide (legacy = 0o20000) || decide (legacy = 0o140000)
      || decide (h.Typeflag = TypeSymlink) || decide (h.Typeflag = '3')
      || decide (h.Typeflag = '4') || decide (h.Typeflag = '6')
  if !dirBit && !otherBit then ModeType.regular
  else if dirBit then ModeType.dir
  else ModeType.other

/-- Go `FileMode.Perm`: the low nine bits. -/
def Header.perm (h : Header) : Nat := h.fileMode % 512

/-- Go `tar.isHeaderOnlyType`: the type flags of entries that have no data
section even when the header states a size (hard and symbolic links, character
and block devices, directories and pipes). -/
def isHeaderOnlyType (flag : Char) : Bool :=
  flag == TypeLink || flag == TypeSymlink || flag == '3' || flag == '4' || flag == TypeDir
    || flag == '6'

/-- What one call of `tr.Next()` and the reads that follow it deliver: a
header with the bytes `io.Copy` obtains for it and whether that copy ends in an
error, or a tar error.  The end of the list is `io.EOF`. -/
inductive Next
  | entry (f : Header) (body : List Nat) (copyErr : Bool)
  | err
  deriving DecidableEq, Repr

/-- The results the reader of Go `archive/tar` can deliver.  An entry with a
header-only type flag has no data: the copy yields no byte and no error,
whatever `Size` says.  Any other entry yields exactly `Size` bytes without an
error, or fewer bytes together with an error (`io.ErrUnexpectedEOF` when the
stream ends early, or the error of the decompressor). -/
def Next.deliverable : Next → Bool
  | .err => true
  | .entry f body copyErr =>
    if isHeaderOnlyType f.Typeflag then body.isEmpty && !copyErr
    else if copyErr then decide ((body.length : Int) < f.Size)
    else decide ((body.length : Int) = f.Size)

end tar

/-- The `io.Reader` handed to `Untar`, after decoding: either `gzip.NewReader`
rejects it, or it is a gzip stream that yields a sequence of tar results. -/
inductive Reader
  | notGzip
  | gzip (items : List tar.Next)
  deriving DecidableEq, Repr

/-- The errors `untar` returns, one constructor per `return` of the source. -/
inductive UntarError
  | requiresGzip
  | tarError
  | invalidName (name : Str)
  | mkdirAll (e : Errno)
  | openFile (e : Errno)
  | writing (abs : Str)
  | onlyWrote (n : Int) (abs : Str) (size : Int)
  | makingDirectory (abs : Str) (e : Errno)
  | unlink (abs : Str) (e : Errno)
  | makingSymlink (abs : Str) (e : Errno)
  | unsupported (name : Str)
  deriving DecidableEq, Repr

/-- The state of the extraction loop: the file system and the `madeDir` set. -/
structure UntarState where
  fs : FS
  madeDir : List Str
  deriving DecidableEq, Repr

/-- Source: the `mode.IsRegular()` case of `untar` (lines 199-245).  The
diagnostic print and the counters that feed only the disabled log are left
out. -/
def untarRegular (t0 : Time) (abs : Str) (f : tar.Header) (body : List Nat) (copyErr : Bool)
    (st : UntarState) : UntarState × Option UntarError :=
  let dir := filepath.Dir abs
  let made : Except Errno UntarState :=
    if st.madeDir.contains dir then .ok st
    else
      match os.MkdirAll st.fs (filepath.Dir abs) with
      | .error e => .error e
      | .ok fs1 => .ok { fs := fs1, madeDir := dir :: st.madeDir }
  match made with
  | .error e => (st, some (.mkdirAll e))
  | .ok st1 =>
    match os.OpenFile st1.fs abs f.perm body t0 with
    | .error e => (st1, some (.openFile e))
    | .ok fs2 =>
      let st2 : UntarState := { st1 with fs := fs2 }
      if copyErr then (st2, some (.writing abs))
      else if (body.length : Int) ≠ f.Size then (st2, some (.onlyWrote body.length abs f.Size))
      else
        let modTime := if f.ModTime > t0 then t0 else f.ModTime
        if modTime ≠ 0 then ({ st2 with fs := os.Chtimes fs2 abs modTime }, none)
        else (st2, none)

/-- Source: the `f.Typeflag == tar.TypeSymlink` case of `untar` (lines 251-268). -/
def untarSymlink (abs : Str) (f : tar.Header) (st : UntarState) : UntarState × Option UntarError :=
  match os.MkdirAll st.fs (filepath.Dir abs) with
  | .error e => (st, some (.makingDirectory abs e))
  | .ok fs1 =>
    let removed : Except Errno FS :=
      match os.Lstat fs1 abs with
      | .ok _ => os.Remove fs1 abs
      | .error _ => .ok fs1
    match removed with
    | .error e => ({ st with fs := fs1 }, some (.unlink abs e))
    | .ok fs2 =>
      match os.Symlink fs2 f.Linkname abs with
      | .error e => ({ st with fs := fs2 }, some (.makingSymlink abs e))
      | .ok fs3 => ({ st with fs := fs3 }, none)

/-- Source: the body of the `for` loop of `untar` for one header (lines
190-271). -/
def untarEntry (dir : Str) (t0 : Time) (f : tar.Header) (body : List Nat) (copyErr : Bool)
    (st : UntarState) : UntarState × Option UntarError :=
  if !validRelPath f.Name then (st, some (.invalidName f.Name))
  else
    let rel := filepath.FromSlash f.Name
    let abs := filepath.Join [dir, rel]
    match f.modeType with
    | .regular => untarRegular t0 abs f body copyErr st
    | .dir =>
      match os.MkdirAll st.fs abs with
      | .error e => (st, some (.mkdirAll e))
      | .ok fs1 => ({ fs := fs1, madeDir := abs :: st.madeDir }, none)
    | .other =>
      if f.Typeflag = tar.TypeSymlink then untarSymlink abs f st
      else (st, some (.unsupported f.Name))

/-- Source: the `for` loop of `untar` (lines 181-272). -/
def untarLoop (dir : Str) (t0 : Time) : List tar.Next → UntarState → UntarState × Option UntarError
  | [], st => (st, none)
  | .err :: _, st => (st, some .tarError)
  | .entry f body copyErr :: rest, st =>
    match untarEntry dir t0 f body copyErr st with
    | (st1, some e) => (st1, some e)
    | (st1, none) => untarLoop dir t0 rest st1

/-- Source: `untar` (lines 163-274).  `t0` is `time.Now()` at entry.  The
result is the file system as the call leaves it and the error, if any. -/
def untar (r : Reader) (dir : Str) (t0 : Time) (fs : FS) : FS × Option UntarError :=
  match r with
  | .notGzip => (fs, some .requiresGzip)
  | .gzip items =>
    let res := untarLoop dir t0 items { fs := fs, madeDir := [] }
    (res.1.fs, res.2)

/-- Source: `Untar` (lines 159-161). -/
def Untar (r : Reader) (dir : Str) (t0 : Time) (fs : FS) : FS × Option UntarError :=
  untar r dir t0 fs

/-- Source: `validRelativeDir` (lines 276-285); not called by the stub. -/
def validRelativeDir (dir : Str) : Bool :=
  if strings.Contains dir ['\\'] || path.IsAbs dir then false
  else
    let dir := path.Clean dir
    if strings.HasPrefix dir ['.', '.', '/'] || strings.HasSuffix dir ['/', '.', '.']
        || dir == ['.', '.'] then false
    else true

/-! ## The attempt loop of `main` -/

/-- Go `embed.FS`: the files compiled into the binary, by name. -/
abbrev EmbedFS := List (Str × Reader)

/-- Go `embed.FS.Open`. -/
def EmbedFS.Open : EmbedFS → Str → Option Reader
  | [], _ => none
  | (n, r) :: rest, name => if n = name then some r else EmbedFS.Open rest name

/-- Source: `//go:embed build.tar.gz` and `var data embed.FS` (lines 22-23):
the embedded file system holds exactly the file `build.tar.gz`, whose contents
are fixed when the stub is built. -/
def data (buildTarGz : Reader) : EmbedFS := [("build.tar.gz".toList, buildTarGz)]

/-- What the stub is built and started with: the temporary directory of the
host, the three link-time strings, the embedded file system and the clock. -/
structure Stub where
  TempDir : Str
  Identifier : Str
  Command : Str
  UncompressionMessage : Str
  embedded : EmbedFS
  now : Time
  deriving DecidableEq, Repr

/-- The `log.Fatalf` calls of the attempt loop, by source line. -/
inductive FatalError
  | statApplicationDirectory (e : Errno)
  | applicationDirectoryNotDir
  | statLock (e : Errno)
  | lockNotDir
  | createLock (e : Errno)
  | openEmbedded
  | uncompress (e : UntarError)
  deriving DecidableEq, Repr

/-- How the attempt loop ends: the cache hit of line 58, the completed
extraction of line 108, a fatal exit, or still looping when the fuel of the
model is used up.  Each carries the attempt index and the file system left
behind. -/
inductive Resolution
  | reused (extractionAttempt : Nat) (applicationDirectory : Str) (fs : FS)
  | extracted (extractionAttempt : Nat) (applicationDirectory : Str) (fs : FS)
  | fatal (e : FatalError) (extractionAttempt : Nat) (fs : FS)
  | looping
  deriving DecidableEq, Repr

/-- Source: line 35, the lock directory of an attempt. -/
def lockPath (s : Stub) (extractionAttempt : Nat) : Str :=
  path.Join [s.TempDir, "caxa/locks".toList, s.Identifier, strconv.Itoa extractionAttempt]

/-- Source: line 36, the application directory of an attempt. -/
def applicationDirectoryPath (s : Stub) (extractionAttempt : Nat) : Str :=
  path.Join [s.TempDir, "caxa/applications".toList, s.Identifier, strconv.Itoa extractionAttempt]

/-- Source: lines 61-109, the branch taken when the application directory does
not exist.  The progress message and its ticker only write to standard error
and are left out. -/
def extractAttempt (s : Stub) (extractionAttempt : Nat) (fs : FS) : Resolution :=
  let lock := lockPath s extractionAttempt
  let applicationDirectory := applicationDirectoryPath s extractionAttempt
  match os.MkdirAll fs lock with
  | .error e => .fatal (.createLock e) extractionAttempt fs
  | .ok fs1 =>
    match s.embedded.Open "nodejsdata.tar.gz".toList with
    | none => .fatal .openEmbedded extractionAttempt fs1
    | some embeddedDataReader =>
      match Untar embeddedDataReader applicationDirectory s.now fs1 with
      | (fs2, some e) => .fatal (.uncompress e) extractionAttempt fs2
      | (fs2, none) =>
        match os.Remove fs2 lock with
        | .ok fs3 => .extracted extractionAttempt applicationDirectory fs3
        | .error _ => .extracted extractionAttempt applicationDirectory fs2

/-- Source: one iteration of the `for` loop of `main` (lines 35-109); `none` is
the `continue` of line 54. -/
def attemptStep (s : Stub) (extractionAttempt : Nat) (fs : FS) : Option Resolution :=
  let lock := lockPath s extractionAttempt
  let applicationDirectory := applicationDirectoryPath s extractionAttempt
  match os.Stat fs applicationDirectory with
  | .error e =>
    if e ≠ .ENOENT then some (.fatal (.statApplicationDirectory e) extractionAttempt fs)
    else some (extractAttempt s extractionAttempt fs)
  | .ok applicationDirectoryFileInfo =>
    if !applicationDirectoryFileInfo.IsDir then
      some (.fatal .applicationDirectoryNotDir extractionAttempt fs)
    else
      match os.Stat fs lock with
      | .error e =>
        if e ≠ .ENOENT then some (.fatal (.statLock e) extractionAttempt fs)
        else some (.reused extractionAttempt applicationDirectory fs)
      | .ok lockFileInfo =>
        if !lockFileInfo.IsDir then some (.fatal .lockNotDir extractionAttempt fs)
        else none

/-- Source: the `for` loop of `main` (lines 34-110), started at
`extractionAttempt`; `fuel` bounds the number of iterations. -/
def attemptLoop (s : Stub) : Nat → Nat → FS → Resolution
  | 0, _, _ => .looping
  | fuel + 1, extractionAttempt, fs =>
    match attemptStep s extractionAttempt fs with
    | some r => r
    | none => attemptLoop s fuel (extractionAttempt + 1) fs

/-- The application directory of attempt `n` exists and is a directory. -/
def appIsDir (s : Stub) (fs : FS) (n : Nat) : Prop :=
  ∃ info, os.Stat fs (applicationDirectoryPath s n) = .ok info ∧ info.IsDir = true

/-- The application directory of attempt `n` does not exist. -/
def appAbsent (s : Stub) (fs : FS) (n : Nat) : Prop :=
  os.Stat fs (applicationDirectoryPath s n) = .error .ENOENT

/-- The lock directory of attempt `n` exists and is a directory. -/
def lockIsDir (s : Stub) (fs : FS) (n : Nat) : Prop :=
  ∃ info, os.Stat fs (lockPath s n) = .ok info ∧ info.IsDir = true

/-- The lock directory of attempt `n` does not exist. -/
def lockAbsent (s : Stub) (fs : FS) (n : Nat) : Prop :=
  os.Stat fs (lockPath s n) = .error .ENOENT

/-- Attempt `n` has both its application directory and its lock directory. -/
def occupied (s : Stub) (fs : FS) (n : Nat) : Prop := appIsDir s fs n ∧ lockIsDir s fs n

/-- Attempt `n` can be settled on: its application directory does not exist,
or it is a directory without a lock directory. -/
def resolvable (s : Stub) (fs : FS) (n : Nat) : Prop :=
  appAbsent s fs n ∨ (appIsDir s fs n ∧ lockAbsent s fs n)

/-! ## The launcher (lines 111-128) -/

/-- The class `\s` of Go regular expressions: tab, line feed, form feed,
carriage return and space. -/
def isSpace (c : Char) : Bool :=
  c == '\t' || c == '\n' || c == Char.ofNat 12 || c == '\r' || c == ' '

namespace applicationDirectoryPlaceholderRegexp

/-- A match of `\{\{\s*caxa\s*\}\}` at the start of `s`, as its length.  The
character after each `\s*` is not a space, so the longest run of spaces is the
only one that can match. -/
def matchLen (s : Str) : Option Nat :=
  match s with
  | '{' :: '{' :: r1 =>
    match r1.dropWhile isSpace with
    | 'c' :: 'a' :: 'x' :: 'a' :: r2 =>
      match r2.dropWhile isSpace with
      | '}' :: '}' :: _ =>
        some (2 + (r1.takeWhile isSpace).length + 4 + (r2.takeWhile isSpace).length + 2)
      | _ => none
    | _ => none
  | _ => none

/-- The scan of `ReplaceAllLiteralString`: `skip` characters of a match are
still to be passed over; otherwise a match at the current position is replaced
by `repl` and any other character is copied. -/
def replaceGo (repl : Str) : Nat → Str → Str
  | _, [] => []
  | skip + 1, _ :: s => replaceGo repl skip s
  | 0, c :: s =>
    match matchLen (c :: s) with
    | some n => repl ++ replaceGo repl (n - 1) s
    | none => c :: replaceGo repl 0 s

/-- Go `Regexp.ReplaceAllLiteralString` for the placeholder expression:
the leftmost matches, none overlapping, are replaced by `repl` verbatim. -/
def ReplaceAllLiteralString (src repl : Str) : Str := replaceGo repl 0 src

end applicationDirectoryPlaceholderRegexp

/-- Source: lines 111-116.  `strings.Split(Command, " ")` and the expansion of
every part. -/
def expandedCommand (Command applicationDirectory : Str) : List Str :=
  (strings.Split ' ' Command).map
    (fun commandPart =>
      applicationDirectoryPlaceholderRegexp.ReplaceAllLiteralString commandPart applicationDirectory)

/-- Go `exec.Cmd`: the program and its arguments. -/
structure Cmd where
  name : Str
  arg : List Str
  deriving DecidableEq, Repr

/-- Source: line 118.  `args` is `os.Args[1:]`. -/
def command (Command applicationDirectory : Str) (args : List Str) : Cmd :=
  let expanded := expandedCommand Command applicationDirectory
  { name := expanded.headD [], arg := expanded.tail ++ args }

/-- The argument vector the child is started with. -/
def Cmd.argv (c : Cmd) : List Str := c.name :: c.arg

/-- How the child ends. -/
inductive ChildOutcome
  | exited (code : Nat)
  | signaled (signal : Nat)
  | notStarted
  deriving DecidableEq, Repr

/-- The error of Go `exec.Cmd.Run`: an `*exec.ExitError` with its
`ExitCode()`, or any other error. -/
inductive RunError
  | exitError (exitCode : Int)
  | other
  deriving DecidableEq, Repr

/-- Go `exec.Cmd.Run`: `nil` when the child exits with status zero; an
`*exec.ExitError` when it exits with another status or is terminated by a
signal, in which case `ExitCode()` is `-1`; another error when the child
could not be started. -/
def Run : ChildOutcome → Option RunError
  | .exited 0 => none
  | .exited (c + 1) => some (.exitError (Int.ofNat (c + 1)))
  | .signaled _ => some (.exitError (-1))
  | .notStarted => some .other

/-- How the stub itself ends: `os.Exit(code)` (or the return from `main`,
code zero) without a diagnostic, or `log.Fatalf`, which prints a line and
exits with status one. -/
inductive StubExit
  | exit (code : Int)
  | fatalRun
  deriving DecidableEq, Repr

/-- Source: lines 122-128. -/
def finish (err : Option RunError) : StubExit :=
  match err with
  | some (.exitError exitCode) => .exit exitCode
  | some .other => .fatalRun
  | none => .exit 0

/-- Source: lines 111-128, the launch once the application directory is
known; `child` is the host running the command. -/
def launch (Command applicationDirectory : Str) (args : List Str) (child : Cmd → ChildOutcome) :
    StubExit :=
  finish (Run (child (command Command applicationDirectory args)))

/-- How a run of `main` ends: the child was launched from the resolved
application directory and the stub ended as `exit` says, or the attempt loop
ended in a fatal error, or the loop is still running when the fuel of the
model is used up. -/
inductive MainResult
  | launched (exit : StubExit) (applicationDirectory : Str) (fs : FS)
  | fatal (e : FatalError) (extractionAttempt : Nat) (fs : FS)
  | looping
  deriving DecidableEq, Repr

/-- Source: `main` (lines 31-129): the attempt loop, then the launch from the
application directory the loop ended with. The name carries the file of the
source, since a bare `main` is the entry point of a Lean program. -/
def binary.main (s : Stub) (fuel : Nat) (args : List Str) (child : Cmd → ChildOutcome) (fs : FS) :
    MainResult :=
  match attemptLoop s fuel 0 fs with
  | .reused _ applicationDirectory fs1 =>
    .launched (launch s.Command applicationDirectory args child) applicationDirectory fs1
  | .extracted _ applicationDirectory fs1 =>
    .launched (launch s.Command applicationDirectory args child) applicationDirectory fs1
  | .fatal e extractionAttempt fs1 => .fatal e extractionAttempt fs1
  | .looping => .looping

/-! ## Concrete inputs used by the worked examples -/

/-- A file system that consists of the given directories. -/
def dirsOf (ps : List (List String)) : FS :=
  ps.map (fun p => (p.map String.toList, Node.dir))

/-- A header of the given type with no payload. -/
def plainHeader (name linkname : String) (typeflag : Char) : tar.Header :=
  { Name := name.toList, Linkname := linkname.toList, Size := 0, Mode := 0o755,
    Typeflag := typeflag, ModTime := 0 }

/-- The stub of the end-to-end example of the specification: identity `app-v1`,
the two-token command, temporary directory `/tmp`, with the given embedded
file system. -/
def exampleStub (embedded : EmbedFS) : Stub :=
  { TempDir := "/tmp".toList, Identifier := "app-v1".toList,
    Command := "\x7b\x7bcaxa\x7d\x7d/bin/run \x7b\x7bcaxa\x7d\x7d/data".toList,
    UncompressionMessage := [], embedded := embedded, now := 1000 }

/-- A host on which the command `/tmp/caxa/applications/app-v1/0/bin/run` with
the arguments `/tmp/caxa/applications/app-v1/0/data` and `--flag` exits with
code 3 and nothing else can be started. -/
def exampleChild (c : Cmd) : ChildOutcome :=
  if c.argv = ["/tmp/caxa/applications/app-v1/0/bin/run".toList,
      "/tmp/caxa/applications/app-v1/0/data".toList, "--flag".toList] then .exited 3
  else .notStarted

/-- Attempt 0 of `app-v1` has a lock directory and no application directory. -/
def fsLockOnly : FS :=
  dirsOf [["tmp"], ["tmp", "caxa"], ["tmp", "caxa", "locks"], ["tmp", "caxa", "locks", "app-v1"],
    ["tmp", "caxa", "locks", "app-v1", "0"]]

/-- Attempt 0 of `app-v1` has both directories, attempt 1 has neither. -/
def fsLockAndApp : FS :=
  dirsOf [["tmp"], ["tmp", "caxa"], ["tmp", "caxa", "locks"], ["tmp", "caxa", "locks", "app-v1"],
    ["tmp", "caxa", "locks", "app-v1", "0"], ["tmp", "caxa", "applications"],
    ["tmp", "caxa", "applications", "app-v1"], ["tmp", "caxa", "applications", "app-v1", "0"]]

/-- The placeholder with the space runs `w1` and `w2` inside its braces. -/
def marker (w1 w2 : Str) : Str :=
  ['{', '{'] ++ w1 ++ ['c', 'a', 'x', 'a'] ++ w2 ++ ['}', '}']

/-- Every character of `w` is in the class `\s`. -/
def allSpace (w : Str) : Prop := ∀ c ∈ w, isSpace c = true

/-- A plain path element: not empty, not `.`, not `..`, without a separator. -/
def normal (x : Str) : Prop := x ≠ [] ∧ x ≠ ['.'] ∧ x ≠ ['.', '.'] ∧ '/' ∉ x

/-- Every directory above `cs` exists: the proper prefixes of `cs` are
directories. -/
def dirChain (fs : FS) (cs : Loc) : Prop :=
  ∀ q, q <+: cs → q ≠ cs → fs.node q = some Node.dir

/-- The location `cs` and everything above it are directories. -/
def dirPath (fs : FS) (cs : Loc) : Prop :=
  ∀ q, q <+: cs → fs.node q = some Node.dir

/-- No symbolic link lies on the way to `cs`, `cs` included. -/
def noLinkWay (fs : FS) (cs : Loc) : Prop :=
  ∀ q, q <+: cs → ∀ t, fs.node q ≠ some (Node.symlink t)

/-- The file system has only grown from `fs` to `fs1`: every object of `fs`
is in `fs1`, unchanged. -/
def keeps (fs fs1 : FS) : Prop := ∀ q, fs.node q ≠ none → fs1.node q = fs.node q

/-- From `fs` to `fs1` objects change only at locations in `R`: no directory
is changed, and what is new is a file or a directory. -/
def changesWithin (R : Loc → Prop) (fs fs1 : FS) : Prop :=
  ∀ q, fs1.node q = fs.node q ∨
    (R q ∧ fs.node q ≠ some Node.dir ∧ (∀ t, fs1.node q ≠ some (Node.symlink t)) ∧
      fs1.node q ≠ none)

/-- Nothing but directories lies above `cs`: every proper prefix of `cs` is
free or a directory. -/
def clearAbove (fs : FS) (cs : Loc) : Prop :=
  ∀ q, q <+: cs → q ≠ cs → fs.node q = none ∨ fs.node q = some Node.dir

/-- The location `cs` is not the root and is free or holds something
`os.Remove` removes: a file, a symbolic link or an empty directory. -/
def replaceable (fs : FS) (cs : Loc) : Prop :=
  cs ≠ [] ∧ (fs.node cs = some Node.dir → fs.hasChild cs = false)

/-- The location an entry is written to: the elements of
`filepath.Join(dir, rel)` of lines 193-194. -/
def entryLoc (dir : Str) (f : tar.Header) : Loc :=
  comps (filepath.Join [dir, filepath.FromSlash f.Name])

/-- The headers of the entries of an archive, in order. -/
def headers : List tar.Next → List tar.Header
  | [] => []
  | .entry f _ _ :: rest => f :: headers rest
  | .err :: rest => headers rest

/-- A result of the tar reader that `untar` can extract by itself: an entry
with a name that passes `validRelPath` which is a regular file whose copy
yields the declared number of bytes without an error, or a directory, or an
entry of another type with the type flag of a symbolic link and a target that
is not empty. -/
def soundEntry : tar.Next → Bool
  | .err => false
  | .entry f body copyErr =>
    validRelPath f.Name &&
      (match f.modeType with
        | .regular => !copyErr && decide ((body.length : Int) = f.Size)
        | .dir => true
        | .other => decide (f.Typeflag = tar.TypeSymlink) && decide (f.Linkname ≠ []))

/-- The entry `f` is not in the way of the entry `g`: when `f` is a symbolic
link its location is neither the location of `g` nor above it, and when `f` is
a regular file its location is not above the location of `g` and is the
location of `g` only when `g` is a regular file too. -/
def compatible (dir : Str) (f g : tar.Header) : Bool :=
  (decide (f.modeType ≠ .other) || !(entryLoc dir f).isPrefixOf (entryLoc dir g)) &&
    (decide (f.modeType ≠ .regular) || !(entryLoc dir f).isPrefixOf (entryLoc dir g) ||
      (decide (entryLoc dir f = entryLoc dir g) && decide (g.modeType = .regular)))

/-- An archive every entry of which can be extracted by itself and in which
no two different entries are in each other's way. -/
def extractable (dir : Str) (items : List tar.Next) : Bool :=
  items.all soundEntry &&
    (headers items).all (fun f =>
      (headers items).all (fun g => decide (f = g) || compatible dir f g))

/-- The file system has room for the entry `f`: nothing but directories lies
above its location, and the location is free or holds a directory for a
directory entry, a file for a regular file, and something `os.Remove` removes
for a symbolic link. -/
def slot (fs : FS) (dir : Str) (f : tar.Header) : Prop :=
  clearAbove fs (entryLoc dir f) ∧
    (f.modeType = .dir →
      fs.node (entryLoc dir f) = none ∨ fs.node (entryLoc dir f) = some Node.dir) ∧
    (f.modeType = .regular →
      fs.node (entryLoc dir f) = none ∨
        ∃ perm content modTime, fs.node (entryLoc dir f) = some (Node.file perm content modTime)) ∧
    (f.modeType = .other → replaceable fs (entryLoc dir f))

/-- The file system has room for every entry of the archive. -/
def fits (fs : FS) (dir : Str) (items : List tar.Next) : Prop :=
  ∀ f ∈ headers items, slot fs dir f

/-- The entry `f` is in place: its location holds a directory, a file, or the
symbolic link with the declared target. -/
def written (fs : FS) (dir : Str) (f : tar.Header) : Prop :=
  match f.modeType with
  | .dir => fs.node (entryLoc dir f) = some Node.dir
  | .regular => ∃ perm content modTime,
      fs.node (entryLoc dir f) = some (Node.file perm content modTime)
  | .other => fs.node (entryLoc dir f) = some (Node.symlink f.Linkname)

/-- The symbolic link of the entry `f` is in place below directories. -/
def linked (fs : FS) (dir : Str) (f : tar.Header) : Prop :=
  dirChain fs (entryLoc dir f) ∧ fs.node (entryLoc dir f) = some (Node.symlink f.Linkname)

/-- From `fs` to `fs1` every location above `L` has become or stayed a
directory and nothing has changed off the way to `L`. -/
def writesAt (L : Loc) (fs fs1 : FS) : Prop :=
  (∀ q, q <+: L → q ≠ L → fs1.node q = some Node.dir) ∧
    (∀ q, ¬ q <+: L → fs1.node q = fs.node q)

/-- Some placeholder occurs in `t`. -/
def hasMarker (t : Str) : Prop :=
  ∃ a w1 w2 b, allSpace w1 ∧ allSpace w2 ∧ t = a ++ marker w1 w2 ++ b

/-- The directory entries `.` and `bin`, as the builder writes them first. -/
def dirEntries : List tar.Next :=
  [.entry (plainHeader "." "" tar.TypeDir) [] false,
    .entry (plainHeader "bin" "" tar.TypeDir) [] false]

/-- A regular file `bin/run` that declares 100 bytes in a stream that ends
after 50 of them: the copy yields the 50 bytes and an error. -/
def shortFile : tar.Next :=
  .entry { Name := "bin/run".toList, Linkname := [], Size := 100, Mode := 0o755,
           Typeflag := tar.TypeReg, ModTime := 0 } (List.replicate 50 0) true

/-- A hard-link entry `bin/h` whose header states a size of 100 bytes: it has
no data section, so the copy yields no byte and no error, and its mode has no
type bit, so `untar` takes it for a regular file. -/
def sizedHardLink : tar.Next :=
  .entry { Name := "bin/h".toList, Linkname := "bin/run".toList, Size := 100, Mode := 0o644,
           Typeflag := tar.TypeLink, ModTime := 0 } [] false

/-- The destination `/dest` with the directory `bin` in it. -/
def fsDest : FS := dirsOf [["dest", "bin"], ["dest"]]

/-- A symbolic-link entry `l` with the relative target `target`. -/
def linkEntry : tar.Next :=
  .entry (plainHeader "l" "target" tar.TypeSymlink) [] false

/-- A directory entry `d` followed by a symbolic-link entry of the same name
with the relative target `t`. -/
def dirThenLinkArchive : Reader :=
  .gzip [.entry (plainHeader "d" "" tar.TypeDir) [] false,
    .entry (plainHeader "d" "t" tar.TypeSymlink) [] false]

/-- An archive with the directories `.` and `bin`, the three-byte file
`bin/run` and the symbolic link `bin/l` with the relative target `target`. -/
def linkArchive : List tar.Next :=
  dirEntries ++
    [.entry { Name := "bin/run".toList, Linkname := [], Size := 3, Mode := 0o755,
              Typeflag := tar.TypeReg, ModTime := 500 } [35, 33, 10] false,
      .entry (plainHeader "bin/l" "target" tar.TypeSymlink) [] false]

/-- The destination `/dest` holds the directory `l` with a file in it. -/
def fsOccupiedLink : FS :=
  [(["dest".toList, "l".toList, "x".toList], Node.file 0o644 [] 0),
    (["dest".toList, "l".toList], Node.dir), (["dest".toList], Node.dir)]

/-- An archive as the builder writes it: the directory `.`, the directory
`bin` and the three-byte file `bin/run`. -/
def builtArchive : Reader :=
  .gzip [.entry (plainHeader "." "" tar.TypeDir) [] false,
    .entry (plainHeader "bin" "" tar.TypeDir) [] false,
    .entry { Name := "bin/run".toList, Linkname := [], Size := 3, Mode := 0o755,
             Typeflag := tar.TypeReg, ModTime := 500 } [35, 33, 10] false]

/-- The file system `Untar` leaves when it extracts `builtArchive` into the
application directory of attempt 0 of `app-v1` on an empty file system: a host
that holds the cached application directory and no lock. -/
def fsAfterBuilt : FS :=
  (["tmp", "caxa", "applications", "app-v1", "0", "bin", "run"].map String.toList,
      Node.file 0o755 [35, 33, 10] 500) ::
    dirsOf [["tmp", "caxa", "applications", "app-v1", "0", "bin"],
      ["tmp", "caxa", "applications", "app-v1", "0"], ["tmp", "caxa", "applications", "app-v1"],
      ["tmp", "caxa", "applications"], ["tmp", "caxa"], ["tmp"]]

/-! ## Invocations that run side by side

Each invocation of the stub is cut at its system calls: one step is one call
of the attempt loop or the extraction of one archive entry, and steps of
different invocations interleave on the shared file system. -/

/-- How an invocation ends, without the file system. -/
inductive Ending
  | reused (extractionAttempt : Nat) (applicationDirectory : Str)
  | extracted (extractionAttempt : Nat) (applicationDirectory : Str)
  | fatal (e : FatalError) (extractionAttempt : Nat)
  deriving DecidableEq, Repr

/-- Where an invocation stands: before the `Stat` of the application directory
(line 37), before the `Stat` of the lock (line 45), before `MkdirAll` of the
lock (line 80), before the open of the embedded archive (line 95), inside the
loop of `untar` with the entries still to come and the `madeDir` set, before
the `Remove` of the lock (line 105), or at its end. -/
inductive Proc
  | statApp (extractionAttempt : Nat)
  | statLock (extractionAttempt : Nat)
  | mkdirLock (extractionAttempt : Nat)
  | openData (extractionAttempt : Nat)
  | extracting (extractionAttempt : Nat) (items : List tar.Next) (madeDir : List Str)
  | removeLock (extractionAttempt : Nat)
  | done (e : Ending)
  deriving DecidableEq, Repr

/-- One step of an invocation on the shared file system. -/
def step (s : Stub) (p : Proc) (fs : FS) : Proc × FS :=
  match p with
  | .statApp n =>
    match os.Stat fs (applicationDirectoryPath s n) with
    | .error e =>
      if e ≠ .ENOENT then (.done (.fatal (.statApplicationDirectory e) n), fs)
      else (.mkdirLock n, fs)
    | .ok info =>
      if !info.IsDir then (.done (.fatal .applicationDirectoryNotDir n), fs)
      else (.statLock n, fs)
  | .statLock n =>
    match os.Stat fs (lockPath s n) with
    | .error e =>
      if e ≠ .ENOENT then (.done (.fatal (.statLock e) n), fs)
      else (.done (.reused n (applicationDirectoryPath s n)), fs)
    | .ok info =>
      if !info.IsDir then (.done (.fatal .lockNotDir n), fs)
      else (.statApp (n + 1), fs)
  | .mkdirLock n =>
    match os.MkdirAll fs (lockPath s n) with
    | .error e => (.done (.fatal (.createLock e) n), fs)
    | .ok fs1 => (.openData n, fs1)
  | .openData n =>
    match s.embedded.Open "nodejsdata.tar.gz".toList with
    | none => (.done (.fatal .openEmbedded n), fs)
    | some .notGzip => (.done (.fatal (.uncompress .requiresGzip) n), fs)
    | some (.gzip items) => (.extracting n items [], fs)
  | .extracting n [] _ => (.removeLock n, fs)
  | .extracting n (.err :: _) _ => (.done (.fatal (.uncompress .tarError) n), fs)
  | .extracting n (.entry f body copyErr :: rest) madeDir =>
    match untarEntry (applicationDirectoryPath s n) s.now f body copyErr
        { fs := fs, madeDir := madeDir } with
    | (st1, some e) => (.done (.fatal (.uncompress e) n), st1.fs)
    | (st1, none) => (.extracting n rest st1.madeDir, st1.fs)
  | .removeLock n =>
    match os.Remove fs (lockPath s n) with
    | .ok fs1 => (.done (.extracted n (applicationDirectoryPath s n)), fs1)
    | .error _ => (.done (.extracted n (applicationDirectoryPath s n)), fs)
  | .done e => (.done e, fs)

/-- Two invocations and the file system they share. -/
structure Pair where
  first : Proc
  second : Proc
  fs : FS
  deriving DecidableEq, Repr

/-- Run a schedule: `false` lets the first invocation take a step, `true` the
second. -/
def runPair (s : Stub) : List Bool → Pair → Pair
  | [], c => c
  | false :: sched, c =>
    runPair s sched { c with first := (step s c.first c.fs).1, fs := (step s c.first c.fs).2 }
  | true :: sched, c =>
    runPair s sched { c with second := (step s c.second c.fs).1, fs := (step s c.second c.fs).2 }

/-- Run one invocation alone for `k` steps. -/
def runSolo (s : Stub) : Nat → Proc → FS → Proc × FS
  | 0, p, fs => (p, fs)
  | k + 1, p, fs => runSolo s k (step s p fs).1 (step s p fs).2

/-- The ending and the file system of a resolution of the attempt loop. -/
def Resolution.ending : Resolution → Option (Ending × FS)
  | .reused n app fs => some (.reused n app, fs)
  | .extracted n app fs => some (.extracted n app, fs)
  | .fatal e n fs => some (.fatal e n, fs)
  | .looping => none

/-- Two invocations, both about to start on the file system `fs`. -/
def Pair.start (fs : FS) : Pair := { first := .statApp 0, second := .statApp 0, fs := fs }

/-- Two invocations, both about to start on an empty file system. -/
def pairAtStart : Pair := Pair.start []

/-- The invocation has made the lock directory of attempt `n` and not removed
it: it stands before the open of the embedded archive, inside `untar` or before
the removal of the lock, or it has died after the lock was made. -/
def Proc.holdsLock : Proc → Nat → Bool
  | .openData m, n => decide (m = n)
  | .extracting m _ _, n => decide (m = n)
  | .removeLock m, n => decide (m = n)
  | .done (.fatal .openEmbedded m), n => decide (m = n)
  | .done (.fatal (.uncompress _) m), n => decide (m = n)
  | _, _ => false

/-- The invocation has entered `Untar`: it is inside the loop of `untar`, past
it, or has ended with a completed extraction or an error of `Untar`. -/
def Proc.extracts : Proc → Bool
  | .extracting _ _ _ => true
  | .removeLock _ => true
  | .done (.extracted _ _) => true
  | .done (.fatal (.uncompress _) _) => true
  | _ => false

/-! ## Theorems -/

/-! ### Path validation -/

/-- C1: `validRelPath` accepts the names `..` and `a/..`, whose last segment is
`..`, and `untar` then writes for such an entry: a symbolic-link entry named
`..`, extracted into `/tmp/caxa/applications/id/0` on an empty file system,
is not rejected and leaves a symbolic link at `/tmp/caxa/applications/id`,
outside the destination directory. -/
theorem validRelPath_accepts_trailing_dotdot :
    validRelPath "..".toList = true ∧ validRelPath "a/..".toList = true ∧
    untar
      (.gzip [.entry
        { Name := "..".toList, Linkname := "/etc".toList, Size := 0, Mode := 0o777,
          Typeflag := tar.TypeSymlink, ModTime := 0 } [] false])
      "/tmp/caxa/applications/id/0".toList 0 [] =
    ([(["tmp".toList, "caxa".toList, "applications".toList, "id".toList],
        Node.symlink "/etc".toList),
      (["tmp".toList, "caxa".toList, "applications".toList], Node.dir),
      (["tmp".toList, "caxa".toList], Node.dir),
      (["tmp".toList], Node.dir)], none) := by
  refine ⟨by decide, by decide, by decide⟩

theorem validRelPath_eq_false_iff (p : Str) :
    validRelPath p = false ↔
      (p = [] ∨ strings.Contains p ['\\'] = true ∨ strings.HasPrefix p ['/'] = true
        ∨ strings.Contains p ['.', '.', '/'] = true) := by
  unfold validRelPath
  by_cases h1 : p = []
  · simp [h1]
  · cases h2 : strings.Contains p ['\\'] <;> cases h3 : strings.HasPrefix p ['/'] <;>
      cases h4 : strings.Contains p ['.', '.', '/'] <;> simp [h1]

theorem untarLoop_invalid_name (dir : Str) (t0 : Time) (f : tar.Header) (body : List Nat)
    (copyErr : Bool) (rest : List tar.Next) (st : UntarState)
    (h : validRelPath f.Name = false) :
    untarLoop dir t0 (.entry f body copyErr :: rest) st = (st, some (.invalidName f.Name)) := by
  have he : untarEntry dir t0 f body copyErr st = (st, some (.invalidName f.Name)) := by
    simp [untarEntry, h]
  simp [untarLoop, he]


theorem validRelativeDir_rejects_dotdot :
    validRelativeDir "..".toList = false ∧ validRelativeDir "a/../..".toList = false := by
  refine ⟨by decide, by decide⟩

/-! ### The embedded archive -/

theorem attemptLoop_succ (s : Stub) (fuel k : Nat) (fs : FS) :
    attemptLoop s (fuel + 1) k fs =
      match attemptStep s k fs with
      | some r => r
      | none => attemptLoop s fuel (k + 1) fs := rfl

theorem attemptStep_of_appAbsent {s : Stub} {fs : FS} {k : Nat}
    (h : os.Stat fs (applicationDirectoryPath s k) = .error .ENOENT) :
    attemptStep s k fs = some (extractAttempt s k fs) := by
  simp [attemptStep, h]

theorem extractAttempt_of_open_none {s : Stub} {fs fs1 : FS} {k : Nat}
    (hmk : os.MkdirAll fs (lockPath s k) = .ok fs1)
    (hopen : s.embedded.Open "nodejsdata.tar.gz".toList = none) :
    extractAttempt s k fs = .fatal .openEmbedded k fs1 := by
  unfold extractAttempt
  simp only [hmk, hopen]

theorem open_nodejsdata_data (buildTarGz : Reader) :
    (data buildTarGz).Open "nodejsdata.tar.gz".toList = none := by
  have h : ("build.tar.gz".toList = "nodejsdata.tar.gz".toList) = False := by
    simp
  simp [data, EmbedFS.Open]

theorem extractAttempt_data_ne_extracted (s : Stub) (buildTarGz : Reader)
    (h : s.embedded = data buildTarGz) (k : Nat) (fs : FS) (n : Nat) (app : Str) (fs1 : FS) :
    extractAttempt s k fs ≠ .extracted n app fs1 := by
  unfold extractAttempt
  simp only [h, open_nodejsdata_data]
  split <;> simp

theorem attemptStep_data_ne_extracted (s : Stub) (buildTarGz : Reader)
    (h : s.embedded = data buildTarGz) (k : Nat) (fs : FS) (n : Nat) (app : Str) (fs1 : FS) :
    attemptStep s k fs ≠ some (.extracted n app fs1) := by
  intro hr
  unfold attemptStep at hr
  simp only [] at hr
  split at hr
  · split at hr
    · cases hr
    · injection hr with hr
      exact extractAttempt_data_ne_extracted s buildTarGz h k fs n app fs1 hr
  · split at hr
    · cases hr
    · split at hr
      · split at hr <;> cases hr
      · split at hr <;> cases hr

theorem attemptLoop_data_ne_extracted (s : Stub) (buildTarGz : Reader)
    (h : s.embedded = data buildTarGz) (n : Nat) (app : Str) (fs1 : FS) :
    ∀ fuel k fs, attemptLoop s fuel k fs ≠ .extracted n app fs1 := by
  intro fuel
  induction fuel with
  | zero => intro k fs hr; cases hr
  | succ fuel ih =>
    intro k fs hr
    unfold attemptLoop at hr
    split at hr
    · rename_i r hstep
      subst hr
      exact attemptStep_data_ne_extracted s buildTarGz h k fs n app fs1 hstep
    · exact ih _ _ hr

/-- C10: the embedded file system holds `build.tar.gz`, but the stub opens
`nodejsdata.tar.gz`.  Whatever the contents of `build.tar.gz`, the open fails,
the attempt loop never completes an extraction, and on an empty file system
the run ends in the fatal embedded-data error at attempt 0 with the lock
directory left behind. -/
theorem embedded_archive_never_opened (tmp identifier cmd msg : Str) (now : Time)
    (buildTarGz : Reader) (fuel k : Nat) (fs : FS) :
    (data buildTarGz).Open "build.tar.gz".toList = some buildTarGz ∧
    (data buildTarGz).Open "nodejsdata.tar.gz".toList = none ∧
    (∀ n app fs1,
      attemptLoop
        { TempDir := tmp, Identifier := identifier, Command := cmd, UncompressionMessage := msg,
          embedded := data buildTarGz, now := now } fuel k fs ≠ .extracted n app fs1) ∧
    attemptLoop (exampleStub (data buildTarGz)) 1 0 [] =
      .fatal .openEmbedded 0 (fsLockOnly.reverse) := by
  refine ⟨by simp [data, EmbedFS.Open], open_nodejsdata_data buildTarGz, ?_, ?_⟩
  · intro n app fs1
    exact attemptLoop_data_ne_extracted _ buildTarGz rfl n app fs1 fuel k fs
  · have hp1 : applicationDirectoryPath (exampleStub (data buildTarGz)) 0
        = applicationDirectoryPath (exampleStub []) 0 := rfl
    have hp2 : lockPath (exampleStub (data buildTarGz)) 0 = lockPath (exampleStub []) 0 := rfl
    have hstat : os.Stat [] (applicationDirectoryPath (exampleStub (data buildTarGz)) 0)
        = .error .ENOENT := by rw [hp1]; decide
    have hmk : os.MkdirAll [] (lockPath (exampleStub (data buildTarGz)) 0)
        = .ok fsLockOnly.reverse := by rw [hp2]; decide
    have hopen : (exampleStub (data buildTarGz)).embedded.Open "nodejsdata.tar.gz".toList
        = none := open_nodejsdata_data buildTarGz
    rw [attemptLoop_succ, attemptStep_of_appAbsent hstat,
      extractAttempt_of_open_none hmk hopen]


/-! ### The attempt loop -/

theorem attemptStep_of_occupied {s : Stub} {fs : FS} {i : Nat} (h : occupied s fs i) :
    attemptStep s i fs = none := by
  obtain ⟨⟨ai, ha, hai⟩, ⟨li, hl, hli⟩⟩ := h
  simp [attemptStep, ha, hai, hl, hli]

theorem not_appIsDir_of_appAbsent {s : Stub} {fs : FS} {n : Nat} (h : appAbsent s fs n) :
    ¬ appIsDir s fs n := by
  rintro ⟨info, hi, _⟩
  unfold appAbsent at h
  rw [h] at hi
  cases hi

theorem not_lockIsDir_of_lockAbsent {s : Stub} {fs : FS} {n : Nat} (h : lockAbsent s fs n) :
    ¬ lockIsDir s fs n := by
  rintro ⟨info, hi, _⟩
  unfold lockAbsent at h
  rw [h] at hi
  cases hi

theorem not_resolvable_of_occupied {s : Stub} {fs : FS} {i : Nat} (h : occupied s fs i) :
    ¬ resolvable s fs i := by
  obtain ⟨ha, hl⟩ := h
  rintro (h1 | ⟨_, h2⟩)
  · exact not_appIsDir_of_appAbsent h1 ha
  · exact not_lockIsDir_of_lockAbsent h2 hl

theorem attemptStep_none {s : Stub} {fs : FS} {k : Nat} (h : attemptStep s k fs = none) :
    occupied s fs k := by
  unfold attemptStep at h
  simp only [] at h
  split at h
  · split at h <;> cases h
  · rename_i info hi
    split at h
    · cases h
    · rename_i hdir
      split at h
      · split at h <;> cases h
      · rename_i linfo hl
        split at h
        · cases h
        · rename_i hldir
          exact ⟨⟨info, hi, by simpa using hdir⟩, ⟨linfo, hl, by simpa using hldir⟩⟩

theorem attemptLoop_inv {s : Stub} {fs : FS} {r : Resolution} :
    ∀ fuel k, attemptLoop s fuel k fs = r → r ≠ .looping →
      ∃ m, k ≤ m ∧ (∀ i, k ≤ i → i < m → occupied s fs i) ∧ attemptStep s m fs = some r := by
  intro fuel
  induction fuel with
  | zero => intro k h hr; exact absurd h.symm hr
  | succ fuel ih =>
    intro k h hr
    rw [attemptLoop_succ] at h
    split at h
    · rename_i r1 hstep
      subst h
      exact ⟨k, le_refl _, fun i h1 h2 => by omega, hstep⟩
    · rename_i hnone
      obtain ⟨m, hm1, hm2, hm3⟩ := ih (k + 1) h hr
      refine ⟨m, by omega, fun i hi1 hi2 => ?_, hm3⟩
      rcases Nat.lt_or_eq_of_le hi1 with hlt | heq
      · exact hm2 i (by omega) hi2
      · subst heq; exact attemptStep_none hnone

theorem attemptLoop_skip {s : Stub} {fs : FS} (fuel : Nat) :
    ∀ m k, (∀ i, k ≤ i → i < k + m → occupied s fs i) →
      attemptLoop s (fuel + m) k fs = attemptLoop s fuel (k + m) fs := by
  intro m
  induction m with
  | zero => intro k _; rfl
  | succ m ih =>
    intro k h
    have e : fuel + (m + 1) = (fuel + m) + 1 := by omega
    rw [e, attemptLoop_succ, attemptStep_of_occupied (h k (le_refl _) (by omega))]
    simp only []
    rw [ih (k + 1) (fun i h1 h2 => h i (by omega) (by omega))]
    congr 1
    omega

/-- With every attempt below `m` occupied, a loop of more than `m` iterations
ends as the iteration of attempt `m` does, if that iteration ends the loop. -/
theorem attemptLoop_at {s : Stub} {fs : FS} {m fuel : Nat} {r : Resolution}
    (hocc : ∀ i, i < m → occupied s fs i) (hf : m < fuel)
    (hstep : attemptStep s m fs = some r) : attemptLoop s fuel 0 fs = r := by
  obtain ⟨d, hd⟩ : ∃ d, fuel = (d + 1) + m := ⟨fuel - m - 1, by omega⟩
  rw [hd, attemptLoop_skip (d + 1) m 0 (fun i _ hi => hocc i (by omega))]
  simp only [Nat.zero_add]
  rw [attemptLoop_succ, hstep]

theorem attemptStep_reused {s : Stub} {fs : FS} {n : Nat} (ha : appIsDir s fs n)
    (hl : lockAbsent s fs n) :
    attemptStep s n fs = some (.reused n (applicationDirectoryPath s n) fs) := by
  obtain ⟨ai, ha1, ha2⟩ := ha
  have h2 : os.Stat fs (lockPath s n) = .error .ENOENT := hl
  simp [attemptStep, ha1, ha2, h2]

theorem attemptStep_reused_inv {s : Stub} {fs fs1 : FS} {m n : Nat} {app : Str}
    (h : attemptStep s m fs = some (.reused n app fs1)) :
    n = m ∧ app = applicationDirectoryPath s m ∧ fs1 = fs ∧ appIsDir s fs m ∧
      lockAbsent s fs m := by
  unfold attemptStep at h
  simp only [] at h
  split at h
  · rename_i e he
    split at h
    · injection h with h; cases h
    · injection h with h
      exfalso
      revert h
      unfold extractAttempt
      simp only []
      split
      · intro h; cases h
      · split
        · intro h; cases h
        · split
          · intro h; cases h
          · split <;> (intro h; cases h)
  · rename_i info hi
    split at h
    · injection h with h; cases h
    · rename_i hdir
      split at h
      · rename_i e he
        split at h
        · injection h with h; cases h
        · rename_i hne
          have he2 : e = Errno.ENOENT := by simpa using hne
          subst he2
          injection h with h
          injection h with h1 h2 h3
          exact ⟨h1.symm, h2.symm, h3.symm, ⟨info, hi, by simpa using hdir⟩, he⟩
      · split at h
        · injection h with h; cases h
        · cases h

theorem extractAttempt_fatal_inv {s : Stub} {fs fs1 : FS} {m n : Nat} {err : FatalError}
    (h : extractAttempt s m fs = .fatal err n fs1)
    (herr : err = .openEmbedded ∨ ∃ e, err = .uncompress e) :
    n = m ∧ ∃ fsL, os.MkdirAll fs (lockPath s m) = .ok fsL ∧
      ((err = .openEmbedded ∧ s.embedded.Open "nodejsdata.tar.gz".toList = none ∧ fs1 = fsL) ∨
        ∃ r e, err = .uncompress e ∧ s.embedded.Open "nodejsdata.tar.gz".toList = some r ∧
          Untar r (applicationDirectoryPath s m) s.now fsL = (fs1, some e)) := by
  unfold extractAttempt at h
  simp only [] at h
  split at h
  · injection h with h1 h2 h3
    subst h1
    rcases herr with h | ⟨e, h⟩ <;> cases h
  · rename_i fsL hmk
    split at h
    · rename_i hopen
      injection h with h1 h2 h3
      exact ⟨h2.symm, fsL, hmk, Or.inl ⟨h1.symm, hopen, h3.symm⟩⟩
    · rename_i r hopen
      split at h
      · rename_i fs2 e hun
        injection h with h1 h2 h3
        subst h3
        exact ⟨h2.symm, fsL, hmk, Or.inr ⟨r, e, h1.symm, hopen, hun⟩⟩
      · split at h <;> cases h

theorem attemptStep_fatal_inv {s : Stub} {fs fs1 : FS} {m n : Nat} {err : FatalError}
    (h : attemptStep s m fs = some (.fatal err n fs1))
    (herr : err = .openEmbedded ∨ ∃ e, err = .uncompress e) :
    appAbsent s fs m ∧ extractAttempt s m fs = .fatal err n fs1 := by
  unfold attemptStep at h
  simp only [] at h
  split at h
  · rename_i e he
    split at h
    · injection h with h
      injection h with h1
      subst h1
      rcases herr with h | ⟨e, h⟩ <;> cases h
    · rename_i hne
      have he2 : e = Errno.ENOENT := by simpa using hne
      subst he2
      injection h with h
      exact ⟨he, h⟩
  · split at h
    · injection h with h
      injection h with h1
      subst h1
      rcases herr with h | ⟨e, h⟩ <;> cases h
    · split at h
      · split at h
        · injection h with h
          injection h with h1
          subst h1
          rcases herr with h | ⟨e, h⟩ <;> cases h
        · injection h with h
          cases h
      · split at h
        · injection h with h
          injection h with h1
          subst h1
          rcases herr with h | ⟨e, h⟩ <;> cases h
        · cases h

/-- The attempt at which a loop that ended with the fatal error of the open of
the embedded archive stood, and what it had done there. -/
theorem attemptLoop_openEmbedded_inv {s : Stub} {fs fs1 : FS} {fuel n : Nat}
    (h : attemptLoop s fuel 0 fs = .fatal .openEmbedded n fs1) :
    appAbsent s fs n ∧ (∀ i, i < n → occupied s fs i) ∧
      os.MkdirAll fs (lockPath s n) = .ok fs1 := by
  obtain ⟨m, -, hocc, hstep⟩ := attemptLoop_inv fuel 0 h (by simp)
  obtain ⟨habs, hex⟩ := attemptStep_fatal_inv hstep (Or.inl rfl)
  obtain ⟨hnm, fsL, hmk, hcase⟩ := extractAttempt_fatal_inv hex (Or.inl rfl)
  subst hnm
  rcases hcase with ⟨_, _, h3⟩ | ⟨r, e, h1, _, _⟩
  · subst h3
    exact ⟨habs, fun i hi => hocc i (Nat.zero_le _) hi, hmk⟩
  · cases h1

theorem attemptLoop_reused_inv {s : Stub} {fs fs1 : FS} {fuel n : Nat} {app : Str}
    (h : attemptLoop s fuel 0 fs = .reused n app fs1) :
    appIsDir s fs n ∧ lockAbsent s fs n ∧ (∀ i, i < n → occupied s fs i) ∧
      app = applicationDirectoryPath s n ∧ fs1 = fs := by
  obtain ⟨m, -, hocc, hstep⟩ := attemptLoop_inv fuel 0 h (by simp)
  obtain ⟨hnm, happ, hfs, ha, hl⟩ := attemptStep_reused_inv hstep
  subst hnm
  exact ⟨ha, hl, fun i hi => hocc i (Nat.zero_le _) hi, happ, hfs⟩

/-- The extraction branch of the stub as built: the lock directory is made and
the open of the embedded archive fails. -/
theorem extractAttempt_data {s : Stub} {b : Reader} (hb : s.embedded = data b) (n : Nat)
    (fs : FS) :
    extractAttempt s n fs =
      match os.MkdirAll fs (lockPath s n) with
      | .error e => .fatal (.createLock e) n fs
      | .ok fsL => .fatal .openEmbedded n fsL := by
  unfold extractAttempt
  simp only [hb, open_nodejsdata_data]

theorem MkdirAll_of_isDir {fs : FS} {name : Str} {info : Node}
    (h : os.Stat fs name = .ok info) (hd : info.IsDir = true) : os.MkdirAll fs name = .ok fs := by
  unfold os.MkdirAll
  rw [os.mkdirAllC]
  have h2 : os.statC fs true (comps name) = .ok info := h
  simp only [h2, hd, if_true]

/-! ### The launcher -/

theorem Split_ne_nil (sep : Char) (s : Str) : strings.Split sep s ≠ [] := by
  induction s with
  | nil => simp [strings.Split]
  | cons c s ih =>
    unfold strings.Split
    split
    · simp
    · split
      · simp
      · simp

theorem Join_Split (sep : Char) (s : Str) : strings.Join sep (strings.Split sep s) = s := by
  induction s with
  | nil => simp [strings.Split, strings.Join]
  | cons c s ih =>
    unfold strings.Split
    split
    · rename_i hc
      subst hc
      cases hsp : strings.Split c s with
      | nil => exact absurd hsp (Split_ne_nil _ _)
      | cons h t =>
        rw [hsp] at ih
        simp [strings.Join, ih]
    · cases hsp : strings.Split sep s with
      | nil => exact absurd hsp (Split_ne_nil _ _)
      | cons h t =>
        rw [hsp] at ih
        cases t with
        | nil => simpa [strings.Join] using ih
        | cons h2 t2 =>
          simp only [strings.Join] at ih ⊢
          simp [ih]

theorem not_mem_of_mem_Split (sep : Char) (s : Str) :
    ∀ t ∈ strings.Split sep s, sep ∉ t := by
  induction s with
  | nil => simp [strings.Split]
  | cons c s ih =>
    unfold strings.Split
    split
    · intro t ht
      rcases List.mem_cons.1 ht with h | h
      · subst h; simp
      · exact ih t h
    · rename_i hc
      cases hsp : strings.Split sep s with
      | nil => exact absurd hsp (Split_ne_nil _ _)
      | cons h t =>
        rw [hsp] at ih
        intro u hu
        rcases List.mem_cons.1 hu with h1 | h1
        · subst h1
          intro hmem
          rcases List.mem_cons.1 hmem with h2 | h2
          · exact hc h2.symm
          · exact ih h (List.mem_cons_self _ _) h2
        · exact ih u (List.mem_cons_of_mem _ h1)

theorem argv_command (Command applicationDirectory : Str) (args : List Str) :
    (command Command applicationDirectory args).argv =
      expandedCommand Command applicationDirectory ++ args := by
  unfold command Cmd.argv expandedCommand
  cases hsp : strings.Split ' ' Command with
  | nil => exact absurd hsp (Split_ne_nil _ _)
  | cons h t => simp

/-- C6 (as amended): the template is split at every single space character, so
the tokens joined by single spaces give the template back and no token holds a
space (a token can be empty or hold another whitespace character); the argument
vector is the expanded tokens, in order, followed by the forwarded arguments
unchanged.  For the two-token template of the specification and the forwarded
argument `--flag` the vector is `<appdir>/bin/run`, `<appdir>/data`, `--flag`. -/
theorem launcher_argv_split_on_space (Command applicationDirectory : Str) (args : List Str) :
    strings.Split ' ' Command ≠ [] ∧
    strings.Join ' ' (strings.Split ' ' Command) = Command ∧
    (∀ t ∈ strings.Split ' ' Command, ' ' ∉ t) ∧
    (command Command applicationDirectory args).argv =
      (strings.Split ' ' Command).map
        (fun t =>
          applicationDirectoryPlaceholderRegexp.ReplaceAllLiteralString t applicationDirectory)
        ++ args ∧
    (command "\x7b\x7bcaxa\x7d\x7d/bin/run \x7b\x7bcaxa\x7d\x7d/data".toList applicationDirectory
        ["--flag".toList]).argv =
      [applicationDirectory ++ "/bin/run".toList, applicationDirectory ++ "/data".toList,
        "--flag".toList] := by
  refine ⟨Split_ne_nil _ _, Join_Split _ _, not_mem_of_mem_Split _ _, ?_, ?_⟩
  · rw [argv_command]; rfl
  · rw [argv_command]; rfl

/-- C6, counterexample: two adjacent spaces in the template give an empty
token, and a tab does not separate tokens. -/
theorem launcher_split_counterexample :
    (command "run  x".toList "/app".toList []).argv = ["run".toList, [], "x".toList] ∧
    (command "run\tx".toList "/app".toList []).argv = ["run\tx".toList] := by
  constructor <;> decide

/-- C8 (as amended): the stub ends according to how the child ends: with the
child's exit code `c` when the child exits (zero included), with `ExitCode()`
of the exit error, `-1`, and no diagnostic when the child is terminated by a
signal, and with the fatal run error when the child cannot be started. -/
theorem launch_exit_code (Command applicationDirectory : Str) (args : List Str)
    (child : Cmd → ChildOutcome) :
    launch Command applicationDirectory args child =
      match child (command Command applicationDirectory args) with
      | .exited c => StubExit.exit (Int.ofNat c)
      | .signaled _ => StubExit.exit (-1)
      | .notStarted => StubExit.fatalRun := by
  unfold launch
  cases child (command Command applicationDirectory args) with
  | exited c => cases c <;> rfl
  | signaled sig => rfl
  | notStarted => rfl

/-- C8, counterexample: a child terminated by signal 9 does not make the stub
report a fatal error; the stub exits with code `-1`. -/
theorem launch_signal_counterexample :
    launch "run".toList "/app".toList [] (fun _ => ChildOutcome.signaled 9) = StubExit.exit (-1) ∧
    launch "run".toList "/app".toList [] (fun _ => ChildOutcome.signaled 9) ≠ StubExit.fatalRun := by
  constructor <;> decide


/-! ### The placeholder expression -/

theorem dropWhile_allSpace_append {w : Str} (hw : allSpace w) {c : Char} (hc : isSpace c = false)
    (r : Str) : (w ++ c :: r).dropWhile isSpace = c :: r := by
  induction w with
  | nil => simp [List.dropWhile, hc]
  | cons x w ih =>
    have hx : isSpace x = true := hw x (List.mem_cons_self _ _)
    have hw2 : allSpace w := fun y hy => hw y (List.mem_cons_of_mem _ hy)
    simp [List.dropWhile, hx, ih hw2]

theorem takeWhile_allSpace_append {w : Str} (hw : allSpace w) {c : Char} (hc : isSpace c = false)
    (r : Str) : (w ++ c :: r).takeWhile isSpace = w := by
  induction w with
  | nil => simp [List.takeWhile, hc]
  | cons x w ih =>
    have hx : isSpace x = true := hw x (List.mem_cons_self _ _)
    have hw2 : allSpace w := fun y hy => hw y (List.mem_cons_of_mem _ hy)
    simp [List.takeWhile, hx, ih hw2]

theorem allSpace_takeWhile (s : Str) : allSpace (s.takeWhile isSpace) := by
  intro c hc
  exact List.mem_takeWhile_imp hc

theorem length_marker (w1 w2 : Str) : (marker w1 w2).length = 2 + w1.length + 4 + w2.length + 2 := by
  simp [marker]; omega

theorem matchLen_marker {w1 w2 : Str} (h1 : allSpace w1) (h2 : allSpace w2) (r : Str) :
    applicationDirectoryPlaceholderRegexp.matchLen (marker w1 w2 ++ r)
      = some (marker w1 w2).length := by
  have e : marker w1 w2 ++ r
      = '{' :: '{' :: (w1 ++ 'c' :: ('a' :: 'x' :: 'a' :: (w2 ++ '}' :: ('}' :: r)))) := by
    simp [marker]
  rw [e, length_marker]
  unfold applicationDirectoryPlaceholderRegexp.matchLen
  simp only []
  rw [dropWhile_allSpace_append h1 (by decide), takeWhile_allSpace_append h1 (by decide)]
  simp only []
  rw [dropWhile_allSpace_append h2 (by decide), takeWhile_allSpace_append h2 (by decide)]
  rfl

theorem matchLen_some {s : Str} {n : Nat}
    (h : applicationDirectoryPlaceholderRegexp.matchLen s = some n) :
    ∃ w1 w2 r, allSpace w1 ∧ allSpace w2 ∧ s = marker w1 w2 ++ r ∧ n = (marker w1 w2).length := by
  unfold applicationDirectoryPlaceholderRegexp.matchLen at h
  split at h
  · rename_i r1
    split at h
    · rename_i r2 hr1
      split at h
      · rename_i r3 hr2
        refine ⟨r1.takeWhile isSpace, r2.takeWhile isSpace, r3, allSpace_takeWhile _,
          allSpace_takeWhile _, ?_, ?_⟩
        · have e1 := List.takeWhile_append_dropWhile isSpace r1
          have e2 := List.takeWhile_append_dropWhile isSpace r2
          rw [hr1] at e1
          rw [hr2] at e2
          conv_lhs => rw [← e1, ← e2]
          simp [marker]
        · rw [length_marker]
          injection h with h
          exact h.symm
      · cases h
    · cases h
  · cases h

theorem brace_not_mem_marker_tail (w1 w2 : Str) (h1 : allSpace w1) (h2 : allSpace w2) :
    '{' ∉ w1 ++ ['c', 'a', 'x', 'a'] ++ w2 ++ ['}', '}'] := by
  intro h
  simp only [List.mem_append, List.mem_cons, List.mem_singleton, List.not_mem_nil] at h
  rcases h with ((h | h) | h) | h
  · have := h1 _ h; revert this; decide
  · revert h; decide
  · have := h2 _ h; revert this; decide
  · revert h; decide

theorem prefix_of_append_eq {u v t r : Str} {x : Char} (h : u ++ x :: v = t ++ r) (hx : x ∉ t) :
    ∃ u1, u = t ++ u1 := by
  rcases List.append_eq_append_iff.1 h with ⟨a, ha, hb⟩ | ⟨c, hc, _⟩
  · cases a with
    | nil => exact ⟨[], by simp [ha]⟩
    | cons y a =>
      exfalso
      simp only [List.cons_append, List.cons.injEq] at hb
      apply hx
      rw [ha, hb.1]
      simp
  · exact ⟨c, hc⟩

theorem matchLen_append_of_some {a : Str} {n : Nat}
    (h : applicationDirectoryPlaceholderRegexp.matchLen a = some n) (y : Str) :
    applicationDirectoryPlaceholderRegexp.matchLen (a ++ y) = some n ∧
      ∃ a1, a = a.take n ++ a1 ∧ (a.take n).length = n ∧ a.drop n = a1 := by
  obtain ⟨w1, w2, r, h1, h2, hs, hn⟩ := matchLen_some h
  subst hs
  refine ⟨?_, r, ?_, ?_, ?_⟩
  · rw [List.append_assoc, matchLen_marker h1 h2, hn]
  · rw [hn, List.take_left]
  · rw [hn, List.take_left]
  · rw [hn, List.drop_left]

theorem matchLen_before_marker {a : Str} (ha : a ≠ []) (w1 w2 b : Str) {n : Nat}
    (h : applicationDirectoryPlaceholderRegexp.matchLen (a ++ marker w1 w2 ++ b) = some n) :
    applicationDirectoryPlaceholderRegexp.matchLen a = some n := by
  obtain ⟨v1, v2, r, hv1, hv2, hs, hn⟩ := matchLen_some h
  have hnot := brace_not_mem_marker_tail v1 v2 hv1 hv2
  have em : ∀ u1 u2 : Str, marker u1 u2
      = '{' :: '{' :: (u1 ++ ['c', 'a', 'x', 'a'] ++ u2 ++ ['}', '}']) := by
    intro u1 u2; simp [marker]
  rw [em v1 v2, em w1 w2] at hs
  match a, ha with
  | [c], _ =>
    exfalso
    simp only [List.cons_append, List.nil_append, List.cons.injEq] at hs
    obtain ⟨-, hs3⟩ := hs
    have hs4 : ([] : Str) ++ '{' :: (w1 ++ ['c', 'a', 'x', 'a'] ++ w2 ++ ['}', '}'] ++ b)
        = (v1 ++ ['c', 'a', 'x', 'a'] ++ v2 ++ ['}', '}']) ++ r := by
      simpa using hs3
    obtain ⟨u1, hu1⟩ := prefix_of_append_eq hs4 hnot
    simp at hu1
  | c1 :: c2 :: a2, _ =>
    simp only [List.cons_append, List.cons.injEq] at hs
    obtain ⟨hc1, hc2, hs3⟩ := hs
    subst hc1 hc2
    rw [List.append_assoc] at hs3
    obtain ⟨u1, hu1⟩ := prefix_of_append_eq (x := '{') hs3 hnot
    subst hu1
    have := matchLen_marker hv1 hv2 u1
    rw [em v1 v2] at this
    simp only [List.cons_append] at this
    rw [hn, em v1 v2]
    exact this

theorem replaceGo_skip (repl : Str) :
    ∀ (s : Str) (k : Nat), applicationDirectoryPlaceholderRegexp.replaceGo repl k s
      = applicationDirectoryPlaceholderRegexp.replaceGo repl 0 (s.drop k) := by
  intro s
  induction s with
  | nil => intro k; cases k <;> simp [applicationDirectoryPlaceholderRegexp.replaceGo]
  | cons c s ih =>
    intro k
    cases k with
    | zero => simp
    | succ k =>
      simp only [applicationDirectoryPlaceholderRegexp.replaceGo, List.drop_succ_cons]
      exact ih k

theorem replaceGo_of_match (repl : Str) {s : Str} {n : Nat}
    (h : applicationDirectoryPlaceholderRegexp.matchLen s = some n) :
    applicationDirectoryPlaceholderRegexp.replaceGo repl 0 s
      = repl ++ applicationDirectoryPlaceholderRegexp.replaceGo repl 0 (s.drop n) := by
  obtain ⟨w1, w2, r, -, -, hs, hn⟩ := matchLen_some h
  have hpos : 0 < n := by rw [hn, length_marker]; omega
  cases s with
  | nil => simp [marker] at hs
  | cons c s =>
    simp only [applicationDirectoryPlaceholderRegexp.replaceGo, h]
    rw [replaceGo_skip repl s (n - 1)]
    obtain ⟨m, rfl⟩ : ∃ m, n = m + 1 := ⟨n - 1, by omega⟩
    simp

theorem replaceGo_of_no_match (repl : Str) {c : Char} {s : Str}
    (h : applicationDirectoryPlaceholderRegexp.matchLen (c :: s) = none) :
    applicationDirectoryPlaceholderRegexp.replaceGo repl 0 (c :: s)
      = c :: applicationDirectoryPlaceholderRegexp.replaceGo repl 0 s := by
  simp only [applicationDirectoryPlaceholderRegexp.replaceGo, h]

theorem replace_marker_append (repl : Str) {w1 w2 : Str} (h1 : allSpace w1) (h2 : allSpace w2)
    (b : Str) :
    applicationDirectoryPlaceholderRegexp.replaceGo repl 0 (marker w1 w2 ++ b)
      = repl ++ applicationDirectoryPlaceholderRegexp.replaceGo repl 0 b := by
  rw [replaceGo_of_match repl (matchLen_marker h1 h2 b), List.drop_left]

theorem replace_append_marker (repl : Str) {w1 w2 : Str} (h1 : allSpace w1) (h2 : allSpace w2)
    (b : Str) :
    ∀ (n : Nat) (a : Str), a.length ≤ n →
      applicationDirectoryPlaceholderRegexp.replaceGo repl 0 (a ++ marker w1 w2 ++ b)
        = applicationDirectoryPlaceholderRegexp.replaceGo repl 0 a ++ repl
          ++ applicationDirectoryPlaceholderRegexp.replaceGo repl 0 b := by
  intro n
  induction n with
  | zero =>
    intro a ha
    have : a = [] := List.length_eq_zero.1 (Nat.le_zero.1 ha)
    subst this
    rw [List.nil_append, replace_marker_append repl h1 h2 b]
    rfl
  | succ n ih =>
    intro a ha
    cases a with
    | nil =>
      rw [List.nil_append, replace_marker_append repl h1 h2 b]
      rfl
    | cons c a =>
      cases hm : applicationDirectoryPlaceholderRegexp.matchLen (c :: a ++ marker w1 w2 ++ b) with
      | none =>
        have hm2 : applicationDirectoryPlaceholderRegexp.matchLen (c :: a) = none := by
          cases hm3 : applicationDirectoryPlaceholderRegexp.matchLen (c :: a) with
          | none => rfl
          | some k =>
            have := (matchLen_append_of_some hm3 (marker w1 w2 ++ b)).1
            rw [← List.append_assoc, hm] at this
            cases this
        have e : c :: a ++ marker w1 w2 ++ b = c :: (a ++ marker w1 w2 ++ b) := by simp
        rw [e] at hm ⊢
        rw [replaceGo_of_no_match repl hm, replaceGo_of_no_match repl hm2,
          ih a (by simpa using ha)]
        simp
      | some k =>
        have hm2 := matchLen_before_marker (List.cons_ne_nil c a) w1 w2 b hm
        obtain ⟨-, a1, ha1, hlen, hdrop⟩ := matchLen_append_of_some hm2 []
        have hk : 0 < k := by
          obtain ⟨v1, v2, r, -, -, -, hn⟩ := matchLen_some hm2
          rw [hn, length_marker]; omega
        have hle : k ≤ (c :: a).length := by
          have h3 := hlen
          rw [List.length_take] at h3
          omega
        rw [replaceGo_of_match repl hm, replaceGo_of_match repl hm2]
        have e : (c :: a ++ marker w1 w2 ++ b).drop k = (c :: a).drop k ++ marker w1 w2 ++ b := by
          rw [List.append_assoc, List.drop_append_of_le_length hle, List.append_assoc]
        rw [e, ih ((c :: a).drop k) (by
          rw [List.length_drop]
          simp only [List.length_cons] at ha hle ⊢
          omega)]
        simp

theorem replace_of_not_hasMarker (repl : Str) :
    ∀ t : Str, ¬ hasMarker t → applicationDirectoryPlaceholderRegexp.replaceGo repl 0 t = t := by
  intro t
  induction t with
  | nil => intro _; rfl
  | cons c t ih =>
    intro h
    have hm : applicationDirectoryPlaceholderRegexp.matchLen (c :: t) = none := by
      cases hm3 : applicationDirectoryPlaceholderRegexp.matchLen (c :: t) with
      | none => rfl
      | some k =>
        exfalso
        obtain ⟨w1, w2, r, h1, h2, hs, -⟩ := matchLen_some hm3
        exact h ⟨[], w1, w2, r, h1, h2, by simpa using hs⟩
    rw [replaceGo_of_no_match repl hm, ih]
    rintro ⟨a, w1, w2, b, h1, h2, hs⟩
    exact h ⟨c :: a, w1, w2, b, h1, h2, by simp [hs]⟩

/-- C7 (as amended): in a token, every occurrence of the placeholder, spelled
with the lower-case word `caxa` and with any run of `\s` characters inside the
braces, is replaced by the application directory path verbatim, whatever
characters the path holds, and a token without an occurrence is unchanged; the
expanded command applies this to each token of the space-split template. -/
theorem placeholder_replaced_literally (applicationDirectory : Str) :
    (∀ a w1 w2 b, allSpace w1 → allSpace w2 →
      applicationDirectoryPlaceholderRegexp.ReplaceAllLiteralString (a ++ marker w1 w2 ++ b)
          applicationDirectory
        = applicationDirectoryPlaceholderRegexp.ReplaceAllLiteralString a applicationDirectory
          ++ applicationDirectory
          ++ applicationDirectoryPlaceholderRegexp.ReplaceAllLiteralString b applicationDirectory) ∧
    (∀ t, ¬ hasMarker t →
      applicationDirectoryPlaceholderRegexp.ReplaceAllLiteralString t applicationDirectory = t) ∧
    (∀ Command, expandedCommand Command applicationDirectory
      = (strings.Split ' ' Command).map (fun t =>
          applicationDirectoryPlaceholderRegexp.ReplaceAllLiteralString t applicationDirectory)) := by
  refine ⟨fun a w1 w2 b h1 h2 => ?_, fun t ht => ?_, fun _ => rfl⟩
  · exact replace_append_marker applicationDirectory h1 h2 b a.length a (le_refl _)
  · exact replace_of_not_hasMarker applicationDirectory t ht

/-- C7, worked example: the token `x={{\tcaxa}}/bin` expands to `x=$1/bin` for
the path `$1`, and the placeholder alone expands to a path that is itself
spelled like the placeholder, without a second expansion. -/
theorem placeholder_replaced_literally_witness :
    allSpace ['\t'] ∧ allSpace [] ∧ ¬ hasMarker [] ∧
    applicationDirectoryPlaceholderRegexp.ReplaceAllLiteralString
        ("x=".toList ++ marker ['\t'] [] ++ "/bin".toList) "$1".toList
      = applicationDirectoryPlaceholderRegexp.ReplaceAllLiteralString "x=".toList "$1".toList
        ++ "$1".toList
        ++ applicationDirectoryPlaceholderRegexp.ReplaceAllLiteralString "/bin".toList
            "$1".toList ∧
    applicationDirectoryPlaceholderRegexp.ReplaceAllLiteralString [] (marker [] []) = [] ∧
    applicationDirectoryPlaceholderRegexp.ReplaceAllLiteralString (marker [] []) (marker [] [])
      = marker [] [] := by
  have h1 : allSpace ['\t'] := by intro c hc; simp at hc; subst hc; decide
  have h2 : allSpace [] := by intro c hc; cases hc
  have h3 : ¬ hasMarker [] := by
    rintro ⟨a, w1, w2, b, -, -, hs⟩
    simp [marker] at hs
  refine ⟨h1, h2, h3, ?_, ?_, ?_⟩
  · exact (placeholder_replaced_literally "$1".toList).1 _ _ _ _ h1 h2
  · exact (placeholder_replaced_literally (marker [] [])).2.1 [] h3
  · have := (placeholder_replaced_literally (marker [] [])).1 [] [] [] [] h2 h2
    simpa [applicationDirectoryPlaceholderRegexp.ReplaceAllLiteralString,
      applicationDirectoryPlaceholderRegexp.replaceGo] using this

/-- C7, counterexample: the upper-case spelling is not replaced, and a
placeholder written with spaces inside the braces is split into three tokens
and never replaced. -/
theorem placeholder_case_and_space_counterexample :
    expandedCommand "\x7b\x7bCAXA\x7d\x7d/bin".toList "/app".toList
      = ["\x7b\x7bCAXA\x7d\x7d/bin".toList] ∧
    expandedCommand "\x7b\x7b caxa \x7d\x7d/bin".toList "/app".toList
      = ["\x7b\x7b".toList, "caxa".toList, "\x7d\x7d/bin".toList] ∧
    expandedCommand "\x7b\x7bcaxa\x7d\x7d/bin".toList "/app".toList = ["/app/bin".toList] := by
  refine ⟨by decide, by decide, by decide⟩


/-! ### Path algebra -/

theorem Split_cons_sep (sep : Char) (s : Str) :
    strings.Split sep (sep :: s) = [] :: strings.Split sep s := by
  simp [strings.Split]

theorem Split_cons_ne {sep c : Char} (h : c ≠ sep) (s : Str) :
    strings.Split sep (c :: s)
      = (c :: (strings.Split sep s).headD []) :: (strings.Split sep s).tail := by
  rw [strings.Split]
  simp only [h, if_false]
  cases hsp : strings.Split sep s with
  | nil => exact absurd hsp (Split_ne_nil _ _)
  | cons h t => rfl

theorem Split_append_sep (sep : Char) (a b : Str) :
    strings.Split sep (a ++ sep :: b) = strings.Split sep a ++ strings.Split sep b := by
  induction a with
  | nil => simp [Split_cons_sep, strings.Split]
  | cons c a ih =>
    simp only [List.cons_append]
    by_cases hc : c = sep
    · subst hc
      rw [Split_cons_sep, Split_cons_sep, ih]
      rfl
    · rw [Split_cons_ne hc, Split_cons_ne hc, ih]
      cases hsp : strings.Split sep a with
      | nil => exact absurd hsp (Split_ne_nil _ _)
      | cons h t => simp

theorem Split_of_not_mem {sep : Char} {x : Str} (h : sep ∉ x) : strings.Split sep x = [x] := by
  induction x with
  | nil => rfl
  | cons c x ih =>
    have hc : c ≠ sep := fun e => h (by simp [e])
    have hx : sep ∉ x := fun e => h (List.mem_cons_of_mem _ e)
    unfold strings.Split
    simp [hc, ih hx]

theorem Split_Join {sep : Char} :
    ∀ xs : List Str, (∀ x ∈ xs, sep ∉ x) → xs ≠ [] →
      strings.Split sep (strings.Join sep xs) = xs
  | [], _, h => absurd rfl h
  | [a], h, _ => by
    simpa [strings.Join] using Split_of_not_mem (h a (List.mem_singleton_self a))
  | a :: b :: rest, h, _ => by
    have ha := Split_of_not_mem (h a (List.mem_cons_self _ _))
    have ih := Split_Join (b :: rest) (fun x hx => h x (List.mem_cons_of_mem _ hx))
      (List.cons_ne_nil _ _)
    simp only [strings.Join]
    rw [Split_append_sep, ha, ih]
    rfl

theorem hasPrefix_slash_iff (s : Str) : strings.HasPrefix s ['/'] = true ↔ ∃ r, s = '/' :: r := by
  cases s with
  | nil => simp [strings.HasPrefix]
  | cons c s =>
    simp only [strings.HasPrefix, Bool.and_true, beq_iff_eq, List.cons.injEq, exists_eq_right']

theorem cleanStep_true_normal {acc : List Str} {seg : Str} (hseg : '/' ∉ seg)
    (hacc : ∀ x ∈ acc, normal x) : ∀ x ∈ path.cleanStep true acc seg, normal x := by
  unfold path.cleanStep
  split
  · exact hacc
  · rename_i h1
    split
    · cases acc with
      | nil => simp
      | cons top acc1 =>
        have htop : top ≠ ['.', '.'] := (hacc top (List.mem_cons_self _ _)).2.2.1
        simp only [htop, if_false]
        exact fun x hx => hacc x (List.mem_cons_of_mem _ hx)
    · rename_i h2
      intro x hx
      rcases List.mem_cons.1 hx with h | h
      · subst h
        exact ⟨fun e => h1 (Or.inl e), fun e => h1 (Or.inr e), h2, hseg⟩
      · exact hacc x h

theorem foldl_cleanStep_true_normal :
    ∀ (segs : List Str) (acc : List Str), (∀ x ∈ segs, '/' ∉ x) → (∀ x ∈ acc, normal x) →
      ∀ x ∈ segs.foldl (path.cleanStep true) acc, normal x
  | [], acc, _, hacc => by simpa using hacc
  | seg :: segs, acc, hs, hacc => by
    simp only [List.foldl_cons]
    exact foldl_cleanStep_true_normal segs _ (fun x hx => hs x (List.mem_cons_of_mem _ hx))
      (cleanStep_true_normal (hs seg (List.mem_cons_self _ _)) hacc)

theorem cleanSegs_true_normal (s : Str) :
    ∀ x ∈ path.cleanSegs true (strings.Split '/' s), normal x := by
  intro x hx
  unfold path.cleanSegs at hx
  rw [List.mem_reverse] at hx
  exact foldl_cleanStep_true_normal _ [] (not_mem_of_mem_Split '/' s) (by simp) x hx

theorem comps_of_normal {segs : List Str} (h : ∀ x ∈ segs, normal x) :
    comps ('/' :: strings.Join '/' segs) = segs := by
  unfold comps
  have e : strings.Split '/' ('/' :: strings.Join '/' segs)
      = [] :: strings.Split '/' (strings.Join '/' segs) := by
    simp [strings.Split]
  rw [e]
  cases hs : segs with
  | nil => simp [strings.Join, strings.Split]
  | cons a rest =>
    rw [← hs, Split_Join segs (fun x hx => (h x hx).2.2.2) (by simp [hs])]
    simp only [List.filter_cons]
    simp only [ne_eq, not_true_eq_false, false_and, decide_False, Bool.false_eq_true, if_false]
    rw [List.filter_eq_self]
    intro x hx
    have := h x hx
    simp [this.1, this.2.1]

theorem Clean_rooted {s : Str} (h : strings.HasPrefix s ['/'] = true) :
    path.Clean s = '/' :: strings.Join '/' (path.cleanSegs true (strings.Split '/' s)) := by
  simp [path.Clean, h]

theorem comps_Clean_rooted {s : Str} (h : strings.HasPrefix s ['/'] = true) :
    comps (path.Clean s) = path.cleanSegs true (strings.Split '/' s) := by
  rw [Clean_rooted h, comps_of_normal (cleanSegs_true_normal s)]


/-! ### The file-system table -/

theorem FS.get_erase (fs : FS) (p q : Loc) :
    (fs.erase p).get q = if q = p then none else fs.get q := by
  induction fs with
  | nil => simp [FS.erase, FS.get]
  | cons e fs ih =>
    obtain ⟨k, n⟩ := e
    unfold FS.erase at ih ⊢
    by_cases hk : k = p
    · subst hk
      simp only [List.filter_cons, ne_eq, not_true_eq_false, decide_False, Bool.false_eq_true,
        if_false, ih, FS.get]
      by_cases hq : q = k
      · simp [hq]
      · have : ¬ k = q := fun e => hq e.symm
        simp [hq, this]
    · simp only [List.filter_cons, ne_eq, hk, not_false_eq_true, decide_True, if_true, FS.get, ih]
      by_cases hq : k = q
      · subst hq; simp [hk]
      · simp [hq]

theorem FS.get_set (fs : FS) (p q : Loc) (n : Node) :
    (fs.set p n).get q = if q = p then some n else fs.get q := by
  unfold FS.set
  simp only [FS.get, FS.get_erase]
  by_cases hq : q = p
  · subst hq; simp
  · have : ¬ p = q := fun e => hq e.symm
    simp [hq, this]

theorem FS.node_set (fs : FS) {p : Loc} (hp : p ≠ []) (q : Loc) (n : Node) :
    (fs.set p n).node q = if q = p then some n else fs.node q := by
  unfold FS.node
  rw [FS.get_set]
  by_cases hq : q = []
  · subst hq
    have : ¬ ([] : Loc) = p := fun e => hp e.symm
    simp [this]
  · simp [hq]

theorem FS.node_erase (fs : FS) {p : Loc} (hp : p ≠ []) (q : Loc) :
    (fs.erase p).node q = if q = p then none else fs.node q := by
  unfold FS.node
  rw [FS.get_erase]
  by_cases hq : q = []
  · subst hq
    have : ¬ ([] : Loc) = p := fun e => hp e.symm
    simp [this]
  · simp [hq]

theorem FS.get_of_mem {fs : FS} {e : Loc × Node} (h : e ∈ fs) : fs.get e.1 ≠ none := by
  induction fs with
  | nil => cases h
  | cons x fs ih =>
    obtain ⟨k, n⟩ := x
    unfold FS.get
    by_cases hk : k = e.1
    · simp [hk]
    · simp only [hk, if_false]
      rcases List.mem_cons.1 h with h1 | h1
      · exact absurd (by rw [h1]) hk
      · exact ih h1

theorem FS.mem_of_get {fs : FS} {q : Loc} (h : fs.get q ≠ none) : ∃ n, (q, n) ∈ fs := by
  induction fs with
  | nil => simp [FS.get] at h
  | cons x fs ih =>
    obtain ⟨k, n⟩ := x
    unfold FS.get at h
    by_cases hk : k = q
    · exact ⟨n, by simp [hk]⟩
    · simp only [hk, if_false] at h
      obtain ⟨m, hm⟩ := ih h
      exact ⟨m, List.mem_cons_of_mem _ hm⟩

theorem FS.hasChild_eq_false_iff (fs : FS) (p : Loc) :
    fs.hasChild p = false ↔ ∀ c, fs.get (p ++ [c]) = none := by
  unfold FS.hasChild
  rw [List.any_eq_false]
  constructor
  · intro h c
    by_contra hne
    obtain ⟨n, hn⟩ := FS.mem_of_get hne
    have := h _ hn
    simp at this
  · intro h e he
    have hget := FS.get_of_mem he
    simp only [Bool.and_eq_true, decide_eq_true_eq, not_and]
    intro hne hdl
    apply hget
    have := List.dropLast_append_getLast hne
    rw [hdl] at this
    rw [← this]
    exact h _

theorem node_ne_nil_eq_get (fs : FS) {q : Loc} (h : q ≠ []) : fs.node q = fs.get q := by
  simp [FS.node, h]

theorem changesWithin_refl (R : Loc → Prop) (fs : FS) : changesWithin R fs fs :=
  fun _ => Or.inl rfl

theorem changesWithin.trans {R : Loc → Prop} {a b c : FS} (h1 : changesWithin R a b)
    (h2 : changesWithin R b c) : changesWithin R a c := by
  intro q
  rcases h2 q with e2 | ⟨r2, nd2, ns2, nn2⟩
  · rcases h1 q with e1 | ⟨r1, nd1, ns1, nn1⟩
    · exact Or.inl (e2.trans e1)
    · exact Or.inr ⟨r1, nd1, fun t => by rw [e2]; exact ns1 t, by rw [e2]; exact nn1⟩
  · refine Or.inr ⟨r2, ?_, ns2, nn2⟩
    intro hd
    rcases h1 q with e1 | ⟨_, nd1, _, _⟩
    · exact nd2 (e1.trans hd)
    · exact nd1 hd

theorem changesWithin.mono {R S : Loc → Prop} {a b : FS} (h : changesWithin R a b)
    (hRS : ∀ q, R q → S q) : changesWithin S a b := by
  intro q
  rcases h q with e | ⟨r, nd, ns, nn⟩
  · exact Or.inl e
  · exact Or.inr ⟨hRS q r, nd, ns, nn⟩

theorem changesWithin.outside {R : Loc → Prop} {a b : FS} (h : changesWithin R a b) {q : Loc}
    (hq : ¬ R q) : b.node q = a.node q := by
  rcases h q with e | ⟨r, _, _, _⟩
  · exact e
  · exact absurd r hq


/-! ### Path resolution without symbolic links on the way -/

theorem walkStep_of_chain (fs : FS) (f : Bool)
    (k : Loc → List Str → Except Errno (Loc × Option Node)) :
    ∀ (rest : List Str) (cur : Loc), ['.', '.'] ∉ rest →
      (∀ q, q <+: rest → q ≠ [] → q ≠ rest → fs.node (cur ++ q) = some Node.dir) →
      (f = false ∨ ∀ t, fs.node (cur ++ rest) ≠ some (Node.symlink t)) →
      walkStep fs f k cur rest = .ok (cur ++ rest, fs.node (cur ++ rest)) := by
  intro rest
  induction rest with
  | nil => intro cur _ _ _; simp [walkStep]
  | cons c rest ih =>
    intro cur hdd hch hfin
    have hc : c ≠ ['.', '.'] := fun e => hdd (by simp [e])
    have hdd2 : ['.', '.'] ∉ rest := fun e => hdd (List.mem_cons_of_mem _ e)
    rw [walkStep]
    simp only [hc, if_false]
    by_cases hr : rest = []
    · subst hr
      cases hn : fs.node (cur ++ [c]) with
      | none => simp
      | some n =>
        cases n with
        | dir => simp [walkStep, hn]
        | file perm content modTime => simp
        | symlink t =>
          rcases hfin with h | h
          · simp [h]
          · exact absurd hn (h t)
    · have hd : fs.node (cur ++ [c]) = some Node.dir :=
        hch [c] (by simp) (by simp) (by simp [hr])
      simp only [hd]
      have := ih (cur ++ [c]) hdd2
        (fun q hq hq1 hq2 => by
          have := hch (c :: q) (by simpa using hq) (by simp) (by simpa using hq2)
          simpa using this)
        (by simpa using hfin)
      simpa using this

theorem walkStep_ok_inv (fs : FS) (f : Bool)
    (k : Loc → List Str → Except Errno (Loc × Option Node)) :
    ∀ (rest : List Str) (cur p : Loc) (o : Option Node), ['.', '.'] ∉ rest →
      (∀ q, q <+: rest → q ≠ [] → q ≠ rest → ∀ t, fs.node (cur ++ q) ≠ some (Node.symlink t)) →
      (f = false ∨ ∀ t, fs.node (cur ++ rest) ≠ some (Node.symlink t)) →
      walkStep fs f k cur rest = .ok (p, o) →
      p = cur ++ rest ∧ o = fs.node (cur ++ rest) ∧
        ∀ q, q <+: rest → q ≠ [] → q ≠ rest → fs.node (cur ++ q) = some Node.dir := by
  intro rest
  induction rest with
  | nil =>
    intro cur p o _ _ _ h
    simp only [walkStep, Except.ok.injEq, Prod.mk.injEq] at h
    refine ⟨by simp [h.1], by simp [h.2], ?_⟩
    intro q hq hq1
    exact absurd (List.prefix_nil.1 hq) hq1
  | cons c rest ih =>
    intro cur p o hdd hnl hfin h
    have hc : c ≠ ['.', '.'] := fun e => hdd (by simp [e])
    have hdd2 : ['.', '.'] ∉ rest := fun e => hdd (List.mem_cons_of_mem _ e)
    rw [walkStep] at h
    simp only [hc, if_false] at h
    by_cases hr : rest = []
    · subst hr
      have hpre : ∀ q : List Str, q <+: [c] → q ≠ [] → q ≠ [c] → fs.node (cur ++ q) = some Node.dir := by
        intro q hq hq1 hq2
        rcases List.prefix_cons_iff.1 hq with h0 | ⟨t, ht, ht2⟩
        · exact absurd h0 hq1
        · rw [List.prefix_nil.1 ht2] at ht
          exact absurd ht hq2
      cases hn : fs.node (cur ++ [c]) with
      | none =>
        simp only [hn, if_true, Except.ok.injEq, Prod.mk.injEq] at h
        exact ⟨h.1.symm, h.2.symm, hpre⟩
      | some n =>
        cases n with
        | dir =>
          simp only [hn, walkStep, Except.ok.injEq, Prod.mk.injEq] at h
          exact ⟨h.1.symm, h.2.symm, hpre⟩
        | file perm content modTime =>
          simp only [hn, if_true, Except.ok.injEq, Prod.mk.injEq] at h
          exact ⟨h.1.symm, h.2.symm, hpre⟩
        | symlink t =>
          rcases hfin with hf | hf
          · simp only [hn, hf, and_self, if_true, Except.ok.injEq, Prod.mk.injEq] at h
            exact ⟨h.1.symm, h.2.symm, hpre⟩
          · exact absurd hn (hf t)
    · cases hn : fs.node (cur ++ [c]) with
      | none => simp [hn, hr] at h
      | some n =>
        cases n with
        | dir =>
          simp only [hn] at h
          obtain ⟨h1, h2, h3⟩ := ih (cur ++ [c]) p o hdd2
            (fun q hq hq1 hq2 t => by
              have := hnl (c :: q) (by simpa using hq) (by simp) (by simpa using hq2) t
              simpa using this)
            (by simpa using hfin) h
          refine ⟨by simpa using h1, by simpa using h2, ?_⟩
          intro q hq hq1 hq2
          rcases List.prefix_cons_iff.1 hq with h0 | ⟨t, ht, ht2⟩
          · exact absurd h0 hq1
          · subst ht
            by_cases ht0 : t = []
            · subst ht0; exact hn
            · have := h3 t ht2 ht0 (by simpa using hq2)
              simpa using this
        | file perm content modTime => simp [hn, hr] at h
        | symlink t =>
          exact absurd hn (hnl [c] (by simp) (by simp) (by simp [hr]) t)

theorem resolve_of_chain {fs : FS} {cs : Loc} (f : Bool) (hdd : ['.', '.'] ∉ cs)
    (hch : dirChain fs cs) (hfin : f = false ∨ ∀ t, fs.node cs ≠ some (Node.symlink t)) :
    resolve fs f cs = .ok (cs, fs.node cs) := by
  have := walkStep_of_chain fs f (walkN fs f maxSymlinks) cs [] hdd
    (fun q hq _ hq2 => by simpa using hch q hq hq2) (by simpa using hfin)
  simpa [resolve, walkN] using this

theorem resolve_ok_inv {fs : FS} {cs p : Loc} {o : Option Node} {f : Bool}
    (hdd : ['.', '.'] ∉ cs) (hnl : noLinkWay fs cs) (h : resolve fs f cs = .ok (p, o)) :
    p = cs ∧ o = fs.node cs ∧ dirChain fs cs := by
  have h2 : walkStep fs f (walkN fs f maxSymlinks) [] cs = .ok (p, o) := by
    simpa [resolve, walkN] using h
  obtain ⟨h1, h2, h3⟩ := walkStep_ok_inv fs f _ cs [] p o hdd
    (fun q hq _ _ t => by simpa using hnl q hq t)
    (Or.inr (by simpa using hnl cs (List.prefix_refl _))) h2
  refine ⟨by simpa using h1, by simpa using h2, ?_⟩
  intro q hq hq2
  by_cases hq0 : q = []
  · subst hq0; simp [FS.node]
  · simpa using h3 q hq hq0 hq2

theorem statC_of_chain {fs : FS} {cs : Loc} (f : Bool) (hdd : ['.', '.'] ∉ cs)
    (hch : dirChain fs cs) (hfin : f = false ∨ ∀ t, fs.node cs ≠ some (Node.symlink t)) :
    os.statC fs f cs = match fs.node cs with
      | some n => .ok n
      | none => .error .ENOENT := by
  unfold os.statC
  rw [resolve_of_chain f hdd hch hfin]
  cases fs.node cs <;> rfl

theorem statC_ok_inv {fs : FS} {cs : Loc} {f : Bool} {n : Node} (hdd : ['.', '.'] ∉ cs)
    (hnl : noLinkWay fs cs) (h : os.statC fs f cs = .ok n) :
    fs.node cs = some n ∧ dirChain fs cs := by
  unfold os.statC at h
  split at h
  · rename_i p m hres
    obtain ⟨_, h2, h3⟩ := resolve_ok_inv hdd hnl hres
    injection h with h
    subst h
    exact ⟨h2.symm, h3⟩
  · cases h
  · cases h

theorem dirPath_of_statC {fs : FS} {cs : Loc} {f : Bool} {n : Node} (hdd : ['.', '.'] ∉ cs)
    (hnl : noLinkWay fs cs) (h : os.statC fs f cs = .ok n) (hd : n.IsDir = true) :
    dirPath fs cs := by
  obtain ⟨h1, h2⟩ := statC_ok_inv hdd hnl h
  intro q hq
  by_cases hqc : q = cs
  · subst hqc
    rw [h1]
    cases n <;> simp [Node.IsDir] at hd ⊢
  · exact h2 q hq hqc

theorem node_nil (fs : FS) : fs.node [] = some Node.dir := by simp [FS.node]

theorem mkdirC_ok_inv {fs fs1 : FS} {cs : Loc} (hdd : ['.', '.'] ∉ cs) (hnl : noLinkWay fs cs)
    (h : os.mkdirC fs cs = .ok fs1) :
    dirChain fs cs ∧ fs.node cs = none ∧ fs1 = fs.set cs Node.dir ∧ cs ≠ [] := by
  unfold os.mkdirC at h
  split at h
  · rename_i p hres
    obtain ⟨h1, h2, h3⟩ := resolve_ok_inv hdd hnl hres
    subst h1
    injection h with h
    refine ⟨h3, h2.symm, h.symm, ?_⟩
    intro e
    subst e
    rw [node_nil] at h2
    cases h2
  · cases h
  · cases h

theorem mkdirC_of_chain {fs : FS} {cs : Loc} (hdd : ['.', '.'] ∉ cs) (hch : dirChain fs cs)
    (hn : fs.node cs = none) : os.mkdirC fs cs = .ok (fs.set cs Node.dir) := by
  unfold os.mkdirC
  rw [resolve_of_chain false hdd hch (Or.inl rfl), hn]

theorem changesWithin_set {fs : FS} {cs : Loc} {n : Node} (hcs : cs ≠ [])
    (hold : fs.node cs ≠ some Node.dir) (hnew : ∀ t, n ≠ Node.symlink t) :
    changesWithin (fun q => q <+: cs) fs (fs.set cs n) := by
  intro q
  rw [FS.node_set fs hcs]
  by_cases hq : q = cs
  · subst hq
    refine Or.inr ⟨List.prefix_refl _, hold, fun t => ?_, by simp⟩
    simp only [if_true, ne_eq, Option.some.injEq]
    exact hnew t
  · exact Or.inl (by simp [hq])

theorem noLinkWay_of_changesWithin {R : Loc → Prop} {fs fs1 : FS} {cs : Loc}
    (h : changesWithin R fs fs1) (hnl : noLinkWay fs cs) : noLinkWay fs1 cs := by
  intro q hq t hn
  rcases h q with e | ⟨_, _, ns, _⟩
  · rw [e] at hn
    exact hnl q hq t hn
  · exact ns t hn

theorem prefix_dropLast_of_ne {q cs : Loc} (hq : q <+: cs) (hne : q ≠ cs) : q <+: cs.dropLast := by
  rcases List.eq_nil_or_concat cs with h | ⟨ps, c, h⟩
  · subst h
    exact absurd (List.prefix_nil.1 hq) hne
  · rw [List.concat_eq_append] at h
    subst h
    rw [List.dropLast_concat]
    rcases List.prefix_concat_iff.1 hq with h1 | h1
    · exact absurd h1 hne
    · exact h1

theorem mkdirAllC_finish {fs1 fs2 : FS} {cs : Loc} (hdd : ['.', '.'] ∉ cs)
    (hch : dirChain fs1 cs) (hnl : noLinkWay fs1 cs)
    (h : (match os.mkdirC fs1 cs with
      | .ok fs2 => Except.ok fs2
      | .error e =>
        match os.statC fs1 false cs with
        | .ok n => if n.IsDir then .ok fs1 else .error e
        | .error _ => .error e) = Except.ok fs2) :
    dirPath fs2 cs ∧ changesWithin (fun q => q <+: cs) fs1 fs2 := by
  split at h
  · rename_i fs3 hmk
    injection h with h
    subst h
    obtain ⟨_, h2, h3, h4⟩ := mkdirC_ok_inv hdd hnl hmk
    subst h3
    refine ⟨?_, changesWithin_set h4 (by rw [h2]; simp) (by intro t; simp)⟩
    intro q hq
    rw [FS.node_set fs1 h4]
    by_cases hqc : q = cs
    · simp [hqc]
    · simp only [hqc, if_false]
      exact hch q hq hqc
  · split at h
    · rename_i n hst
      split at h
      · rename_i hd
        injection h with h
        subst h
        exact ⟨dirPath_of_statC hdd hnl hst hd, changesWithin_refl _ _⟩
      · cases h
    · cases h

theorem mkdirAllC_post :
    ∀ (fuel : Nat) (cs : Loc) (fs fs2 : FS), ['.', '.'] ∉ cs → noLinkWay fs cs →
      os.mkdirAllC fs fuel cs = .ok fs2 →
      dirPath fs2 cs ∧ changesWithin (fun q => q <+: cs) fs fs2 := by
  intro fuel
  induction fuel with
  | zero => intro cs fs fs2 _ _ h; simp [os.mkdirAllC] at h
  | succ fuel ih =>
    intro cs fs fs2 hdd hnl h
    rw [os.mkdirAllC] at h
    split at h
    · rename_i n hst
      split at h
      · rename_i hd
        injection h with h
        subst h
        exact ⟨dirPath_of_statC hdd hnl hst hd, changesWithin_refl _ _⟩
      · cases h
    · split at h
      · cases h
      · rename_i fs1 hpar
        have key : dirChain fs1 cs ∧ changesWithin (fun q => q <+: cs) fs fs1 := by
          by_cases hlen : 1 < cs.length
          · simp only [hlen, if_true] at hpar
            obtain ⟨h1, h2⟩ := ih cs.dropLast fs fs1
              (fun e => hdd (List.mem_of_mem_dropLast e))
              (fun q hq t => hnl q (hq.trans (List.dropLast_prefix cs)) t) hpar
            exact ⟨fun q hq hne => h1 q (prefix_dropLast_of_ne hq hne),
              h2.mono (fun q hq => hq.trans (List.dropLast_prefix cs))⟩
          · simp only [hlen, if_false] at hpar
            injection hpar with hpar
            subst hpar
            refine ⟨?_, changesWithin_refl _ _⟩
            intro q hq hne
            have hq2 := prefix_dropLast_of_ne hq hne
            have hdl : cs.dropLast = [] := by
              apply List.length_eq_zero.1
              rw [List.length_dropLast]
              omega
            rw [hdl] at hq2
            rw [List.prefix_nil.1 hq2]
            exact node_nil fs
        obtain ⟨hch1, hcw1⟩ := key
        obtain ⟨h3, h4⟩ := mkdirAllC_finish hdd hch1 (noLinkWay_of_changesWithin hcw1 hnl) h
        exact ⟨h3, hcw1.trans h4⟩

/-! ### Rooted paths -/

theorem hasPrefix_Join_cons {d : Str} (hd : strings.HasPrefix d ['/'] = true) (rest : List Str) :
    strings.HasPrefix (strings.Join '/' (d :: rest)) ['/'] = true := by
  obtain ⟨r, rfl⟩ := (hasPrefix_slash_iff d).1 hd
  cases rest with
  | nil => simpa [strings.Join] using hd
  | cons b rest => simp [strings.Join, strings.HasPrefix]

theorem path_Join_rooted {d : Str} (hd : strings.HasPrefix d ['/'] = true) (rest : List Str) :
    ∃ s, strings.HasPrefix s ['/'] = true ∧ path.Join (d :: rest) = path.Clean s := by
  obtain ⟨r, hr⟩ := (hasPrefix_slash_iff d).1 hd
  have hne : d ≠ [] := by rw [hr]; simp
  refine ⟨strings.Join '/' (d :: rest.filter (fun e => e ≠ [])), hasPrefix_Join_cons hd _, ?_⟩
  unfold path.Join
  simp [List.filter_cons, hne]

theorem normal_comps_Clean {s : Str} (h : strings.HasPrefix s ['/'] = true) :
    ∀ x ∈ comps (path.Clean s), normal x := by
  rw [comps_Clean_rooted h]
  exact cleanSegs_true_normal s

theorem not_dotdot_of_normal {cs : List Str} (h : ∀ x ∈ cs, normal x) : ['.', '.'] ∉ cs :=
  fun e => (h _ e).2.2.1 rfl

theorem normal_comps_path_Join {d : Str} (hd : strings.HasPrefix d ['/'] = true)
    (rest : List Str) : ∀ x ∈ comps (path.Join (d :: rest)), normal x := by
  obtain ⟨s, hs, e⟩ := path_Join_rooted hd rest
  rw [e]
  exact normal_comps_Clean hs

theorem dropWhile_concat_neg {p : Char → Bool} {a : Char} (ha : p a = false) :
    ∀ l : Str, ∃ u, (l ++ [a]).dropWhile p = u ++ [a]
  | [] => ⟨[], by simp [List.dropWhile, ha]⟩
  | c :: l => by
    obtain ⟨u, hu⟩ := dropWhile_concat_neg ha l
    by_cases hc : p c = true
    · exact ⟨u, by simp [List.dropWhile, hc, hu]⟩
    · exact ⟨c :: l, by simp [List.dropWhile, hc]⟩

theorem hasPrefix_Dir_arg {s : Str} (h : strings.HasPrefix s ['/'] = true) :
    strings.HasPrefix ((s.reverse.dropWhile (fun c => c ≠ '/')).reverse) ['/'] = true := by
  obtain ⟨r, rfl⟩ := (hasPrefix_slash_iff s).1 h
  obtain ⟨u, hu⟩ := dropWhile_concat_neg (p := fun c => decide (c ≠ '/')) (a := '/')
    (by simp) r.reverse
  simp only [List.reverse_cons]
  rw [hu]
  simp [strings.HasPrefix]

/-! ### The parent of a rooted path -/

theorem Join_concat (sep : Char) :
    ∀ (xs : List Str) (y : Str), xs ≠ [] →
      strings.Join sep (xs ++ [y]) = strings.Join sep xs ++ sep :: y
  | [], _, h => absurd rfl h
  | [a], y, _ => by simp [strings.Join]
  | a :: b :: rest, y, _ => by
    have ih := Join_concat sep (b :: rest) y (List.cons_ne_nil _ _)
    have e : a :: b :: rest ++ [y] = a :: b :: (rest ++ [y]) := rfl
    have e2 : b :: rest ++ [y] = b :: (rest ++ [y]) := rfl
    rw [e, strings.Join, ← e2, ih, strings.Join]
    simp

theorem dropWhile_append_of_all {p : Char → Bool} :
    ∀ (l r : Str), (∀ x ∈ l, p x = true) → (l ++ r).dropWhile p = r.dropWhile p
  | [], _, _ => rfl
  | c :: l, r, h => by
    have hc : p c = true := h c (List.mem_cons_self _ _)
    simp only [List.cons_append, List.dropWhile, hc]
    exact dropWhile_append_of_all l r (fun x hx => h x (List.mem_cons_of_mem _ hx))

theorem rdrop_append_sep (u y : Str) (hy : '/' ∉ y) :
    (((u ++ '/' :: y).reverse).dropWhile (fun c => c ≠ '/')).reverse = u ++ ['/'] := by
  have e : (u ++ '/' :: y).reverse = y.reverse ++ '/' :: u.reverse := by simp
  rw [e, dropWhile_append_of_all]
  · simp [List.dropWhile]
  · intro x hx
    have : x ≠ '/' := fun e => hy (by rw [← e]; exact List.mem_reverse.1 hx)
    simp [this]

theorem foldl_cleanStep_keep (rooted : Bool) :
    ∀ (ys acc : List Str), ['.', '.'] ∉ ys →
      ys.foldl (path.cleanStep rooted) acc
        = (ys.filter (fun c => c ≠ [] ∧ c ≠ ['.'])).reverse ++ acc
  | [], acc, _ => by simp
  | y :: ys, acc, h => by
    have hy : y ≠ ['.', '.'] := fun e => h (by simp [e])
    have ih := foldl_cleanStep_keep rooted ys (path.cleanStep rooted acc y)
      (fun e => h (List.mem_cons_of_mem _ e))
    simp only [List.foldl_cons, ih]
    unfold path.cleanStep
    by_cases h1 : y = [] ∨ y = ['.']
    · have h2 : ¬ (y ≠ [] ∧ y ≠ ['.']) := by
        rcases h1 with h | h <;> simp [h]
      simp [h1, List.filter_cons, h2]
    · have h2 : y ≠ [] ∧ y ≠ ['.'] := by
        constructor
        · exact fun e => h1 (Or.inl e)
        · exact fun e => h1 (Or.inr e)
      simp [h1, hy, List.filter_cons, h2]

theorem cleanSegs_of_no_dotdot (rooted : Bool) {ys : List Str} (h : ['.', '.'] ∉ ys) :
    path.cleanSegs rooted ys = ys.filter (fun c => c ≠ [] ∧ c ≠ ['.']) := by
  unfold path.cleanSegs
  rw [foldl_cleanStep_keep rooted ys [] h]
  simp

theorem filter_keep_of_normal {xs : List Str} (h : ∀ x ∈ xs, normal x) :
    xs.filter (fun c => c ≠ [] ∧ c ≠ ['.']) = xs := by
  rw [List.filter_eq_self]
  intro x hx
  have := h x hx
  simp [this.1, this.2.1]

theorem comps_Dir_of_normal {segs : List Str} (h : ∀ x ∈ segs, normal x) :
    comps (filepath.Dir ('/' :: strings.Join '/' segs)) = segs.dropLast := by
  have hroot : strings.HasPrefix ('/' :: strings.Join '/' segs) ['/'] = true := by
    simp [strings.HasPrefix]
  unfold filepath.Dir
  rw [comps_Clean_rooted (hasPrefix_Dir_arg hroot)]
  rcases List.eq_nil_or_concat segs with h0 | ⟨xs, y, h0⟩
  · subst h0
    decide
  · rw [List.concat_eq_append] at h0
    subst h0
    have hy : '/' ∉ y := (h y (by simp)).2.2.2
    have hxs : ∀ x ∈ xs, normal x := fun x hx => h x (by simp [hx])
    rw [List.dropLast_concat]
    by_cases hx0 : xs = []
    · subst hx0
      have e : ('/' :: strings.Join '/' ([] ++ [y])) = [] ++ '/' :: y := by simp [strings.Join]
      rw [e, rdrop_append_sep [] y hy]
      decide
    · have e : ('/' :: strings.Join '/' (xs ++ [y])) = ('/' :: strings.Join '/' xs) ++ '/' :: y := by
        rw [Join_concat '/' xs y hx0]; simp
      rw [e, rdrop_append_sep _ y hy]
      have e2 : strings.Split '/' (('/' :: strings.Join '/' xs) ++ ['/'])
          = [] :: xs ++ [[]] := by
        rw [Split_append_sep, Split_cons_sep,
          Split_Join xs (fun x hx => (hxs x hx).2.2.2) hx0]
        rfl
      rw [e2, cleanSegs_of_no_dotdot]
      · have e3 : ([] :: xs ++ [[]] : List Str) = [[]] ++ xs ++ [[]] := rfl
        rw [e3, List.filter_append, List.filter_append, filter_keep_of_normal hxs]
        simp
      · intro hm
        have e3 : ([] :: xs ++ [[]] : List Str) = [[]] ++ xs ++ [[]] := rfl
        rw [e3] at hm
        rcases List.mem_append.1 hm with hm | hm
        · rcases List.mem_append.1 hm with hm | hm
          · simp at hm
          · exact (hxs _ hm).2.2.1 rfl
        · simp at hm

theorem path_Join_eq_render {d : Str} (hd : strings.HasPrefix d ['/'] = true) (rest : List Str) :
    path.Join (d :: rest) = '/' :: strings.Join '/' (comps (path.Join (d :: rest))) := by
  obtain ⟨s, hs, e⟩ := path_Join_rooted hd rest
  rw [e, comps_Clean_rooted hs, Clean_rooted hs]

theorem comps_Dir_path_Join {d : Str} (hd : strings.HasPrefix d ['/'] = true) (rest : List Str) :
    comps (filepath.Dir (path.Join (d :: rest))) = (comps (path.Join (d :: rest))).dropLast := by
  conv_lhs => rw [path_Join_eq_render hd rest]
  exact comps_Dir_of_normal (normal_comps_path_Join hd rest)


/-! ### Making directories where only directories are in the way -/

theorem mkdirAllC_ok :
    ∀ (fuel : Nat) (cs : Loc) (fs : FS), ['.', '.'] ∉ cs →
      (∀ q, q <+: cs → fs.node q = none ∨ fs.node q = some Node.dir) → cs.length < fuel →
      ∃ fs2, os.mkdirAllC fs fuel cs = .ok fs2 := by
  intro fuel
  induction fuel with
  | zero => intro cs fs _ _ h; omega
  | succ fuel ih =>
    intro cs fs hdd hway hlen
    have hnl : noLinkWay fs cs := by
      intro q hq t hn
      rcases hway q hq with h | h <;> rw [h] at hn <;> cases hn
    rw [os.mkdirAllC]
    cases hst : os.statC fs true cs with
    | ok n =>
      obtain ⟨h1, _⟩ := statC_ok_inv hdd hnl hst
      rcases hway cs (List.prefix_refl _) with h | h
      · rw [h] at h1; cases h1
      · rw [h] at h1
        injection h1 with h1
        subst h1
        exact ⟨fs, by simp [Node.IsDir]⟩
    | error e =>
      simp only []
      have key : ∃ fs1, (if 1 < cs.length then os.mkdirAllC fs fuel cs.dropLast else .ok fs)
          = Except.ok fs1 ∧ dirChain fs1 cs ∧ changesWithin (fun q => q <+: cs.dropLast) fs fs1 := by
        by_cases h1 : 1 < cs.length
        · obtain ⟨fs1, hfs1⟩ := ih cs.dropLast fs (fun e => hdd (List.mem_of_mem_dropLast e))
            (fun q hq => hway q (hq.trans (List.dropLast_prefix cs)))
            (by rw [List.length_dropLast]; omega)
          obtain ⟨hp, hc⟩ := mkdirAllC_post fuel cs.dropLast fs fs1
            (fun e => hdd (List.mem_of_mem_dropLast e))
            (fun q hq t => hnl q (hq.trans (List.dropLast_prefix cs)) t) hfs1
          exact ⟨fs1, by simp [h1, hfs1], fun q hq hne => hp q (prefix_dropLast_of_ne hq hne), hc⟩
        · refine ⟨fs, by simp [h1], ?_, changesWithin_refl _ _⟩
          intro q hq hne
          have hq2 := prefix_dropLast_of_ne hq hne
          have hdl : cs.dropLast = [] := by
            apply List.length_eq_zero.1
            rw [List.length_dropLast]
            omega
          rw [hdl] at hq2
          rw [List.prefix_nil.1 hq2]
          exact node_nil fs
      obtain ⟨fs1, hpar, hch, hcw⟩ := key
      rw [hpar]
      simp only []
      have hsame : fs1.node cs = fs.node cs := by
        by_cases hcs : cs = []
        · subst hcs; rw [node_nil, node_nil]
        · apply hcw.outside
          intro hp
          have := hp.length_le
          rw [List.length_dropLast] at this
          have : 0 < cs.length := List.length_pos.2 hcs
          omega
      rcases hway cs (List.prefix_refl _) with h | h
      · rw [mkdirC_of_chain hdd hch (by rw [hsame, h])]
        exact ⟨_, rfl⟩
      · have hn : fs1.node cs = some Node.dir := by rw [hsame, h]
        have hmk : os.mkdirC fs1 cs = .error .EEXIST := by
          unfold os.mkdirC
          rw [resolve_of_chain false hdd hch (Or.inl rfl), hn]
        have hst2 : os.statC fs1 false cs = .ok Node.dir := by
          rw [statC_of_chain false hdd hch (Or.inl rfl), hn]
        rw [hmk, hst2]
        exact ⟨fs1, by simp [Node.IsDir]⟩


/-! ### Path resolution on a file system that only grows -/

theorem keeps_refl (fs : FS) : keeps fs fs := fun _ _ => rfl

theorem keeps_trans {a b c : FS} (h1 : keeps a b) (h2 : keeps b c) : keeps a c := by
  intro q hq
  have e1 := h1 q hq
  rw [h2 q (by rw [e1]; exact hq), e1]

theorem keeps_set {fs : FS} {p : Loc} (n : Node) (hp : p ≠ []) (h : fs.node p = none) :
    keeps fs (fs.set p n) := by
  intro q hq
  rw [FS.node_set fs hp]
  by_cases hqp : q = p
  · subst hqp; exact absurd h hq
  · simp [hqp]

theorem walkStep_node (fs : FS) (f : Bool)
    {k : Loc → List Str → Except Errno (Loc × Option Node)}
    (hk : ∀ cur cs p o, k cur cs = .ok (p, o) → o = fs.node p) :
    ∀ (cs : List Str) (cur p : Loc) (o : Option Node),
      walkStep fs f k cur cs = .ok (p, o) → o = fs.node p := by
  intro cs
  induction cs with
  | nil =>
    intro cur p o h
    simp only [walkStep, Except.ok.injEq, Prod.mk.injEq] at h
    rw [← h.1, ← h.2]
  | cons c rest ih =>
    intro cur p o h
    rw [walkStep] at h
    split at h
    · exact ih _ _ _ h
    · split at h
      · rename_i hn
        split at h
        · simp only [Except.ok.injEq, Prod.mk.injEq] at h
          rw [← h.1, ← h.2, hn]
        · cases h
      · exact ih _ _ _ h
      · rename_i perm content modTime hn
        split at h
        · simp only [Except.ok.injEq, Prod.mk.injEq] at h
          rw [← h.1, ← h.2, hn]
        · cases h
      · rename_i t hn
        split at h
        · simp only [Except.ok.injEq, Prod.mk.injEq] at h
          rw [← h.1, ← h.2, hn]
        · exact hk _ _ _ _ h

theorem walkN_node (fs : FS) (f : Bool) :
    ∀ (n : Nat) (cur : Loc) (cs : List Str) (p : Loc) (o : Option Node),
      walkN fs f n cur cs = .ok (p, o) → o = fs.node p := by
  intro n
  induction n with
  | zero => intro cur cs p o h; simp [walkN] at h
  | succ n ih =>
    intro cur cs p o h
    exact walkStep_node fs f (fun cur cs p o h => ih cur cs p o h) cs cur p o h

theorem resolve_node {fs : FS} {f : Bool} {cs p : Loc} {o : Option Node}
    (h : resolve fs f cs = .ok (p, o)) : o = fs.node p :=
  walkN_node fs f _ _ _ _ _ h

theorem walkStep_keeps {fs fs1 : FS} (hk : keeps fs fs1) (f : Bool)
    {k k1 : Loc → List Str → Except Errno (Loc × Option Node)}
    (hkk : ∀ cur cs p n, k cur cs = .ok (p, some n) → k1 cur cs = .ok (p, some n)) :
    ∀ (cs : List Str) (cur p : Loc) (n : Node),
      walkStep fs f k cur cs = .ok (p, some n) → walkStep fs1 f k1 cur cs = .ok (p, some n) := by
  intro cs
  induction cs with
  | nil =>
    intro cur p n h
    simp only [walkStep, Except.ok.injEq, Prod.mk.injEq] at h ⊢
    obtain ⟨h1, h2⟩ := h
    refine ⟨h1, ?_⟩
    rw [hk cur (by rw [h2]; simp), h2]
  | cons c rest ih =>
    intro cur p n h
    rw [walkStep] at h ⊢
    by_cases hc : c = ['.', '.']
    · simp only [hc, if_true] at h ⊢
      exact ih _ _ _ h
    · simp only [hc, if_false] at h ⊢
      cases hn : fs.node (cur ++ [c]) with
      | none =>
        rw [hn] at h
        simp only [] at h
        split at h
        · simp at h
        · cases h
      | some x =>
        have hn1 : fs1.node (cur ++ [c]) = some x := by
          rw [hk _ (by rw [hn]; simp), hn]
        rw [hn] at h
        rw [hn1]
        cases x with
        | dir => exact ih _ _ _ h
        | file perm content modTime => exact h
        | symlink t =>
          simp only [] at h ⊢
          split
          · rename_i hcond
            simp only [hcond, and_self, if_true] at h
            exact h
          · rename_i hcond
            simp only [hcond, if_false] at h
            exact hkk _ _ _ _ h

theorem walkN_keeps {fs fs1 : FS} (hk : keeps fs fs1) (f : Bool) :
    ∀ (m : Nat) (cur : Loc) (cs : List Str) (p : Loc) (n : Node),
      walkN fs f m cur cs = .ok (p, some n) → walkN fs1 f m cur cs = .ok (p, some n) := by
  intro m
  induction m with
  | zero => intro cur cs p n h; simp [walkN] at h
  | succ m ih =>
    intro cur cs p n h
    exact walkStep_keeps hk f (fun cur cs p n h => ih cur cs p n h) cs cur p n h

/-- What a `Stat` finds it still finds when the file system has only grown. -/
theorem statC_keeps {fs fs1 : FS} (hk : keeps fs fs1) {f : Bool} {cs : List Str} {n : Node}
    (h : os.statC fs f cs = .ok n) : os.statC fs1 f cs = .ok n := by
  unfold os.statC at h ⊢
  split at h
  · rename_i p m hres
    injection h with h
    subst h
    have := walkN_keeps hk f _ _ _ _ _ hres
    unfold resolve
    rw [this]
  · cases h
  · cases h

theorem walkStep_follow (fs : FS)
    {k k1 : Loc → List Str → Except Errno (Loc × Option Node)}
    (hkk : ∀ cur cs p o, k cur cs = .ok (p, o) → (∀ t, o ≠ some (Node.symlink t)) →
      k1 cur cs = .ok (p, o)) :
    ∀ (cs : List Str) (cur p : Loc) (o : Option Node),
      walkStep fs false k cur cs = .ok (p, o) → (∀ t, o ≠ some (Node.symlink t)) →
      walkStep fs true k1 cur cs = .ok (p, o) := by
  intro cs
  induction cs with
  | nil =>
    intro cur p o h _
    simpa only [walkStep] using h
  | cons c rest ih =>
    intro cur p o h ho
    rw [walkStep] at h ⊢
    by_cases hc : c = ['.', '.']
    · simp only [hc, if_true] at h ⊢
      exact ih _ _ _ h ho
    · simp only [hc, if_false] at h ⊢
      cases hn : fs.node (cur ++ [c]) with
      | none => rw [hn] at h; exact h
      | some x =>
        rw [hn] at h
        cases x with
        | dir => exact ih _ _ _ h ho
        | file perm content modTime => exact h
        | symlink t =>
          simp only [] at h ⊢
          by_cases hr : rest = []
          · simp only [hr, and_self, if_true, Except.ok.injEq, Prod.mk.injEq] at h
            exact absurd h.2.symm (ho t)
          · simp only [hr, false_and, if_false] at h ⊢
            exact hkk _ _ _ _ h ho

theorem walkN_follow (fs : FS) :
    ∀ (m : Nat) (cur : Loc) (cs : List Str) (p : Loc) (o : Option Node),
      walkN fs false m cur cs = .ok (p, o) → (∀ t, o ≠ some (Node.symlink t)) →
      walkN fs true m cur cs = .ok (p, o) := by
  intro m
  induction m with
  | zero => intro cur cs p o h; simp [walkN] at h
  | succ m ih =>
    intro cur cs p o h ho
    exact walkStep_follow fs (fun cur cs p o h ho => ih cur cs p o h ho) cs cur p o h ho

/-- A directory that `Lstat` finds, `Stat` finds as well. -/
theorem statC_follow {fs : FS} {cs : List Str} {n : Node}
    (h : os.statC fs false cs = .ok n) (hd : n.IsDir = true) : os.statC fs true cs = .ok n := by
  unfold os.statC at h ⊢
  split at h
  · rename_i p m hres
    injection h with h
    subst h
    have := walkN_follow fs _ _ _ _ _ hres (by
      intro t e
      injection e with e
      subst e
      cases hd)
    unfold resolve
    rw [this]
  · cases h
  · cases h

theorem walkStep_set_dir {fs : FS} {p : Loc} (hp0 : p ≠ []) (hp : fs.node p = none) (f : Bool)
    {k k1 : Loc → List Str → Except Errno (Loc × Option Node)}
    (hkk : ∀ cur cs, k cur cs = .ok (p, none) → k1 cur cs = .ok (p, some Node.dir)) :
    ∀ (cs : List Str) (cur : Loc),
      walkStep fs f k cur cs = .ok (p, none) →
      walkStep (fs.set p Node.dir) f k1 cur cs = .ok (p, some Node.dir) := by
  have hnp : (fs.set p Node.dir).node p = some Node.dir := by
    rw [FS.node_set fs hp0]; simp
  have hother : ∀ q x, fs.node q = some x → (fs.set p Node.dir).node q = some x := by
    intro q x hq
    rw [FS.node_set fs hp0]
    by_cases hqp : q = p
    · subst hqp; rw [hp] at hq; cases hq
    · simp [hqp, hq]
  intro cs
  induction cs with
  | nil =>
    intro cur h
    simp only [walkStep, Except.ok.injEq, Prod.mk.injEq] at h ⊢
    obtain ⟨h1, _⟩ := h
    subst h1
    exact ⟨rfl, hnp⟩
  | cons c rest ih =>
    intro cur h
    rw [walkStep] at h ⊢
    by_cases hc : c = ['.', '.']
    · simp only [hc, if_true] at h ⊢
      exact ih _ h
    · simp only [hc, if_false] at h ⊢
      cases hn : fs.node (cur ++ [c]) with
      | none =>
        rw [hn] at h
        simp only [] at h
        by_cases hr : rest = []
        · simp only [hr, if_true, Except.ok.injEq, Prod.mk.injEq, and_true] at h
          subst hr
          rw [h, hnp]
          simp only [walkStep, hnp]
        · simp only [hr, if_false] at h
          cases h
      | some x =>
        rw [hn] at h
        rw [hother _ _ hn]
        cases x with
        | dir => exact ih _ h
        | file perm content modTime =>
          simp only [] at h
          split at h
          · simp at h
          · cases h
        | symlink t =>
          simp only [] at h ⊢
          split
          · rename_i hcond
            simp only [hcond, and_self, if_true] at h
            simp at h
          · rename_i hcond
            simp only [hcond, if_false] at h
            exact hkk _ _ h

theorem walkN_set_dir {fs : FS} {p : Loc} (hp0 : p ≠ []) (hp : fs.node p = none) (f : Bool) :
    ∀ (m : Nat) (cur : Loc) (cs : List Str),
      walkN fs f m cur cs = .ok (p, none) →
      walkN (fs.set p Node.dir) f m cur cs = .ok (p, some Node.dir) := by
  intro m
  induction m with
  | zero => intro cur cs h; simp [walkN] at h
  | succ m ih =>
    intro cur cs h
    exact walkStep_set_dir hp0 hp f (fun cur cs h => ih cur cs h) cs cur h

/-- A successful `Mkdir` adds one directory, at a location that was free, and
the path then names a directory. -/
theorem mkdirC_keeps {fs fs1 : FS} {cs : List Str} (h : os.mkdirC fs cs = .ok fs1) :
    keeps fs fs1 ∧ os.statC fs1 true cs = .ok Node.dir := by
  unfold os.mkdirC at h
  split at h
  · rename_i p hres
    injection h with h
    subst h
    have hnone : fs.node p = none := (resolve_node hres).symm
    have hp0 : p ≠ [] := by
      intro e
      subst e
      rw [node_nil] at hnone
      cases hnone
    refine ⟨keeps_set _ hp0 hnone, ?_⟩
    have h1 := walkN_set_dir hp0 hnone false _ _ _ hres
    have h2 := walkN_follow _ _ _ _ _ _ h1 (by intro t e; cases e)
    unfold os.statC resolve
    rw [h2]
  · cases h
  · cases h

/-- A successful `MkdirAll` only adds to the file system, and the path then
names a directory; no assumption on symbolic links is needed. -/
theorem mkdirAllC_keeps :
    ∀ (fuel : Nat) (cs : List Str) (fs fs2 : FS), os.mkdirAllC fs fuel cs = .ok fs2 →
      keeps fs fs2 ∧ os.statC fs2 true cs = .ok Node.dir := by
  intro fuel
  induction fuel with
  | zero => intro cs fs fs2 h; simp [os.mkdirAllC] at h
  | succ fuel ih =>
    intro cs fs fs2 h
    rw [os.mkdirAllC] at h
    split at h
    · rename_i n hst
      split at h
      · rename_i hd
        injection h with h
        subst h
        refine ⟨keeps_refl _, ?_⟩
        cases n with
        | dir => exact hst
        | file perm content modTime => cases hd
        | symlink t => cases hd
      · cases h
    · split at h
      · cases h
      · rename_i fs1 hpar
        have hk1 : keeps fs fs1 := by
          by_cases hlen : 1 < cs.length
          · simp only [hlen, if_true] at hpar
            exact (ih _ _ _ hpar).1
          · simp only [hlen, if_false] at hpar
            injection hpar with hpar
            subst hpar
            exact keeps_refl _
        split at h
        · rename_i fs3 hmk
          injection h with h
          subst h
          obtain ⟨h1, h2⟩ := mkdirC_keeps hmk
          exact ⟨keeps_trans hk1 h1, h2⟩
        · split at h
          · rename_i n hst
            split at h
            · rename_i hd
              injection h with h
              subst h
              refine ⟨hk1, ?_⟩
              have := statC_follow hst hd
              cases n with
              | dir => exact this
              | file perm content modTime => cases hd
              | symlink t => cases hd
            · cases h
          · cases h

theorem MkdirAll_keeps {fs fs1 : FS} {name : Str} (h : os.MkdirAll fs name = .ok fs1) :
    keeps fs fs1 ∧ os.Stat fs1 name = .ok Node.dir :=
  mkdirAllC_keeps _ _ _ _ h

theorem appIsDir_keeps {s : Stub} {fs fs1 : FS} {i : Nat} (hk : keeps fs fs1)
    (h : appIsDir s fs i) : appIsDir s fs1 i := by
  obtain ⟨info, h1, h2⟩ := h
  exact ⟨info, statC_keeps hk h1, h2⟩

theorem lockIsDir_keeps {s : Stub} {fs fs1 : FS} {i : Nat} (hk : keeps fs fs1)
    (h : lockIsDir s fs i) : lockIsDir s fs1 i := by
  obtain ⟨info, h1, h2⟩ := h
  exact ⟨info, statC_keeps hk h1, h2⟩

theorem occupied_keeps {s : Stub} {fs fs1 : FS} {i : Nat} (hk : keeps fs fs1)
    (h : occupied s fs i) : occupied s fs1 i :=
  ⟨appIsDir_keeps hk h.1, lockIsDir_keeps hk h.2⟩

theorem lockIsDir_of_MkdirAll {s : Stub} {fs fs1 : FS} {n : Nat}
    (h : os.MkdirAll fs (lockPath s n) = .ok fs1) : lockIsDir s fs1 n :=
  ⟨Node.dir, (MkdirAll_keeps h).2, rfl⟩

/-! ### The attempt loop of the stub as built -/

theorem attemptStep_data_appAbsent {s : Stub} {b : Reader} (hb : s.embedded = data b)
    {fs : FS} {m : Nat} (h : appAbsent s fs m) :
    attemptStep s m fs = some
      (match os.MkdirAll fs (lockPath s m) with
        | .error e => .fatal (.createLock e) m fs
        | .ok fsL => .fatal .openEmbedded m fsL) := by
  rw [attemptStep_of_appAbsent h, extractAttempt_data hb]

theorem attemptLoop_data_appAbsent {s : Stub} {b : Reader} (hb : s.embedded = data b)
    {fs : FS} {m fuel : Nat} (hocc : ∀ i, i < m → occupied s fs i) (h : appAbsent s fs m)
    (hf : m < fuel) :
    (∀ fsL, os.MkdirAll fs (lockPath s m) = .ok fsL →
      attemptLoop s fuel 0 fs = .fatal .openEmbedded m fsL) ∧
    (∀ e, os.MkdirAll fs (lockPath s m) = .error e →
      attemptLoop s fuel 0 fs = .fatal (.createLock e) m fs) := by
  have hstep := attemptStep_data_appAbsent hb h
  constructor
  · intro fsL hmk
    rw [hmk] at hstep
    exact attemptLoop_at hocc hf hstep
  · intro e hmk
    rw [hmk] at hstep
    exact attemptLoop_at hocc hf hstep

/-- After the loop has died at attempt `n` with the lock directory made, a
later run does not reuse attempt `n` or a lower one. -/
theorem no_reuse_up_to {s : Stub} {fs0 fs1 : FS} {n : Nat}
    (hocc : ∀ i, i < n → occupied s fs0 i) (hk : keeps fs0 fs1) (hlock : lockIsDir s fs1 n)
    {fuel2 m : Nat} {app : Str} {fs2 : FS}
    (h : attemptLoop s fuel2 0 fs1 = .reused m app fs2) : n < m := by
  obtain ⟨_, hl, _, _, _⟩ := attemptLoop_reused_inv h
  by_contra hle
  rcases Nat.lt_or_eq_of_le (Nat.le_of_not_lt hle) with hlt | heq
  · exact not_lockIsDir_of_lockAbsent hl (lockIsDir_keeps hk (hocc m hlt).2)
  · subst heq
    exact not_lockIsDir_of_lockAbsent hl hlock

/-- C2: in the stub as built the attempt loop does settle on the least
resolvable attempt, but it never extracts there.  When attempt `m` is
resolvable and every attempt below it has both directories, `m` is the least
resolvable attempt and a loop of more than `m` iterations ends at `m`: with the
cache hit when the application directory exists, and otherwise, after
`MkdirAll` of the lock, with the fatal error of the open of the embedded
archive (or with the fatal error of the lock creation).  Conversely a run that
ends with the cache hit or with the open error at `n` found `n` resolvable and
every lower attempt occupied.  A lock directory at attempt 0 without an
application directory ends in the open error at attempt 0 with the file system
unchanged; both directories at attempt 0 and nothing at attempt 1 end in a
fatal error at attempt 1. -/
theorem attemptLoop_least_resolvable (s : Stub) (b : Reader) (hb : s.embedded = data b)
    (fs : FS) :
    (∀ m, resolvable s fs m → (∀ i, i < m → occupied s fs i) →
      (∀ i, i < m → ¬ resolvable s fs i) ∧
      ∀ fuel, m < fuel →
        (appIsDir s fs m →
          attemptLoop s fuel 0 fs = .reused m (applicationDirectoryPath s m) fs) ∧
        (appAbsent s fs m →
          (∀ fsL, os.MkdirAll fs (lockPath s m) = .ok fsL →
            attemptLoop s fuel 0 fs = .fatal .openEmbedded m fsL) ∧
          (∀ e, os.MkdirAll fs (lockPath s m) = .error e →
            attemptLoop s fuel 0 fs = .fatal (.createLock e) m fs))) ∧
    (∀ fuel n app fs1, attemptLoop s fuel 0 fs = .reused n app fs1 →
      appIsDir s fs n ∧ lockAbsent s fs n ∧ (∀ i, i < n → occupied s fs i) ∧
        app = applicationDirectoryPath s n ∧ fs1 = fs) ∧
    (∀ fuel n fs1, attemptLoop s fuel 0 fs = .fatal .openEmbedded n fs1 →
      appAbsent s fs n ∧ (∀ i, i < n → occupied s fs i) ∧
        os.MkdirAll fs (lockPath s n) = .ok fs1) ∧
    (lockIsDir s fs 0 → appAbsent s fs 0 →
      ∀ fuel, 0 < fuel → attemptLoop s fuel 0 fs = .fatal .openEmbedded 0 fs) ∧
    (occupied s fs 0 → appAbsent s fs 1 → lockAbsent s fs 1 →
      ∀ fuel, 1 < fuel →
        (∃ fsL, os.MkdirAll fs (lockPath s 1) = .ok fsL ∧
          attemptLoop s fuel 0 fs = .fatal .openEmbedded 1 fsL) ∨
        (∃ e, os.MkdirAll fs (lockPath s 1) = .error e ∧
          attemptLoop s fuel 0 fs = .fatal (.createLock e) 1 fs)) := by
  refine ⟨?_, ?_, ?_, ?_, ?_⟩
  · intro m hres hocc
    refine ⟨fun i hi => not_resolvable_of_occupied (hocc i hi), fun fuel hf => ⟨?_, ?_⟩⟩
    · intro ha
      rcases hres with h | ⟨_, hl⟩
      · exact absurd ha (not_appIsDir_of_appAbsent h)
      · exact attemptLoop_at hocc hf (attemptStep_reused ha hl)
    · intro habs
      exact attemptLoop_data_appAbsent hb hocc habs hf
  · intro fuel n app fs1 h
    exact attemptLoop_reused_inv h
  · intro fuel n fs1 h
    exact attemptLoop_openEmbedded_inv h
  · rintro ⟨info, h1, h2⟩ habs fuel hf
    exact (attemptLoop_data_appAbsent hb (fun i hi => absurd hi (Nat.not_lt_zero i)) habs hf).1 fs
      (MkdirAll_of_isDir h1 h2)
  · intro hocc habs _ fuel hf
    have hocc1 : ∀ i, i < 1 → occupied s fs i := by
      intro i hi
      have : i = 0 := by omega
      subst this
      exact hocc
    obtain ⟨k1, k2⟩ := attemptLoop_data_appAbsent hb hocc1 habs hf
    cases hmk : os.MkdirAll fs (lockPath s 1) with
    | ok fsL => exact Or.inl ⟨fsL, rfl, k1 fsL hmk⟩
    | error e => exact Or.inr ⟨e, rfl, k2 e hmk⟩

/-- C2, worked example: for identity `app-v1` under `/tmp`, the stub as built
with a lock directory alone at attempt 0 ends at attempt 0 with the fatal open
error and extracts nothing; with both directories at attempt 0 it ends at
attempt 1 in the same way, the lock directory of attempt 1 made. -/
theorem attemptLoop_least_resolvable_witness :
    (lockIsDir (exampleStub (data builtArchive)) fsLockOnly 0 ∧
      appAbsent (exampleStub (data builtArchive)) fsLockOnly 0 ∧
      attemptLoop (exampleStub (data builtArchive)) 1 0 fsLockOnly =
        .fatal .openEmbedded 0 fsLockOnly) ∧
    (occupied (exampleStub (data builtArchive)) fsLockAndApp 0 ∧
      resolvable (exampleStub (data builtArchive)) fsLockAndApp 1 ∧
      ¬ resolvable (exampleStub (data builtArchive)) fsLockAndApp 0 ∧
      attemptLoop (exampleStub (data builtArchive)) 2 0 fsLockAndApp =
        .fatal .openEmbedded 1
          ((["tmp", "caxa", "locks", "app-v1", "1"].map String.toList, Node.dir) ::
            fsLockAndApp)) := by
  have hl : lockIsDir (exampleStub (data builtArchive)) fsLockOnly 0 :=
    ⟨Node.dir, by decide, rfl⟩
  have ha : appAbsent (exampleStub (data builtArchive)) fsLockOnly 0 := by
    unfold appAbsent; decide
  have ho : occupied (exampleStub (data builtArchive)) fsLockAndApp 0 :=
    ⟨⟨Node.dir, by decide, rfl⟩, ⟨Node.dir, by decide, rfl⟩⟩
  have ha1 : appAbsent (exampleStub (data builtArchive)) fsLockAndApp 1 := by
    unfold appAbsent; decide
  have hocc : ∀ i, i < 1 → occupied (exampleStub (data builtArchive)) fsLockAndApp i := by
    intro i hi
    have : i = 0 := by omega
    subst this; exact ho
  have hmk : os.MkdirAll fsLockAndApp (lockPath (exampleStub (data builtArchive)) 1) =
      .ok ((["tmp", "caxa", "locks", "app-v1", "1"].map String.toList, Node.dir) ::
        fsLockAndApp) := by decide
  have h1 := attemptLoop_least_resolvable (exampleStub (data builtArchive)) builtArchive rfl
    fsLockOnly
  have h2 := attemptLoop_least_resolvable (exampleStub (data builtArchive)) builtArchive rfl
    fsLockAndApp
  refine ⟨⟨hl, ha, h1.2.2.2.1 hl ha 1 (by decide)⟩, ho, Or.inl ha1, ?_, ?_⟩
  · exact (h2.1 1 (Or.inl ha1) hocc).1 0 (by decide)
  · exact (((h2.1 1 (Or.inl ha1) hocc).2 2 (by decide)).2 ha1).1 _ hmk

/-- C3: the stub as built has no first resolution that extracts successfully,
so there is no freshly extracted directory for a second run to reuse.  No run
ends with a completed extraction.  A run that takes the extraction branch at
attempt `n` found no application directory there, made the lock directory and
died at the open of the embedded archive with the lock directory left in
place; a run on the file system it leaves does not reuse attempt `n` or a
lower one, and dies at `n` again when the application directory of `n` still
does not exist.  The reuse itself works: a run that ends with the cache hit at
`n` returns the application directory of `n`, leaves the file system as it
was, and a second run on it ends with the same cache hit. -/
theorem first_extraction_then_reuse (s : Stub) (b : Reader) (hb : s.embedded = data b)
    (fs0 : FS) (fuel : Nat) :
    (∀ n app fs1, attemptLoop s fuel 0 fs0 ≠ .extracted n app fs1) ∧
    (∀ n fs1, attemptLoop s fuel 0 fs0 = .fatal .openEmbedded n fs1 →
      appAbsent s fs0 n ∧ lockIsDir s fs1 n ∧
      (∀ fuel2 m app fs2, attemptLoop s fuel2 0 fs1 = .reused m app fs2 → n < m) ∧
      (appAbsent s fs1 n →
        ∀ fuel2, n < fuel2 → attemptLoop s fuel2 0 fs1 = .fatal .openEmbedded n fs1)) ∧
    (∀ n app fs1, attemptLoop s fuel 0 fs0 = .reused n app fs1 →
      app = applicationDirectoryPath s n ∧ fs1 = fs0 ∧ appIsDir s fs0 n ∧ lockAbsent s fs0 n ∧
      ∀ fuel2, n < fuel2 → attemptLoop s fuel2 0 fs1 = .reused n app fs1) := by
  refine ⟨?_, ?_, ?_⟩
  · intro n app fs1
    exact attemptLoop_data_ne_extracted s b hb n app fs1 fuel 0 fs0
  · intro n fs1 h
    obtain ⟨habs, hocc, hmk⟩ := attemptLoop_openEmbedded_inv h
    have hk := (MkdirAll_keeps hmk).1
    have hlock := lockIsDir_of_MkdirAll hmk
    refine ⟨habs, hlock, ?_, ?_⟩
    · intro fuel2 m app fs2 h2
      exact no_reuse_up_to hocc hk hlock h2
    · intro habs1 fuel2 hf
      obtain ⟨info, h1, h2⟩ := hlock
      exact (attemptLoop_data_appAbsent hb (fun i hi => occupied_keeps hk (hocc i hi)) habs1 hf).1
        fs1 (MkdirAll_of_isDir h1 h2)
  · intro n app fs1 h
    obtain ⟨ha, hl, hocc, happ, hfs⟩ := attemptLoop_reused_inv h
    subst hfs
    refine ⟨happ, rfl, ha, hl, fun fuel2 hf => ?_⟩
    rw [happ]
    exact attemptLoop_at hocc hf (attemptStep_reused ha hl)

/-- C3, worked example: on an empty file system the stub as built for
`app-v1` dies at attempt 0 and leaves only the lock directory; the second run
dies in the same way; and on a host that holds the application directory of
attempt 0 without its lock, two runs in a row end with the cache hit. -/
theorem first_extraction_then_reuse_witness :
    attemptLoop (exampleStub (data builtArchive)) 1 0 [] =
      .fatal .openEmbedded 0 fsLockOnly.reverse ∧
    os.Stat fsLockOnly.reverse "/tmp/caxa/applications/app-v1/0".toList = .error .ENOENT ∧
    lockIsDir (exampleStub (data builtArchive)) fsLockOnly.reverse 0 ∧
    attemptLoop (exampleStub (data builtArchive)) 3 0 fsLockOnly.reverse =
      .fatal .openEmbedded 0 fsLockOnly.reverse ∧
    attemptLoop (exampleStub (data builtArchive)) 1 0 fsAfterBuilt =
      .reused 0 "/tmp/caxa/applications/app-v1/0".toList fsAfterBuilt ∧
    attemptLoop (exampleStub (data builtArchive)) 3 0 fsAfterBuilt =
      .reused 0 "/tmp/caxa/applications/app-v1/0".toList fsAfterBuilt := by
  have hrun : attemptLoop (exampleStub (data builtArchive)) 1 0 [] =
      .fatal .openEmbedded 0 fsLockOnly.reverse := by decide
  have habs : appAbsent (exampleStub (data builtArchive)) fsLockOnly.reverse 0 := by
    unfold appAbsent; decide
  have hreuse : attemptLoop (exampleStub (data builtArchive)) 1 0 fsAfterBuilt =
      .reused 0 "/tmp/caxa/applications/app-v1/0".toList fsAfterBuilt := by decide
  have h1 := (first_extraction_then_reuse (exampleStub (data builtArchive)) builtArchive rfl
    [] 1).2.1 0 fsLockOnly.reverse hrun
  have h2 := (first_extraction_then_reuse (exampleStub (data builtArchive)) builtArchive rfl
    fsAfterBuilt 1).2.2 0 _ fsAfterBuilt hreuse
  exact ⟨hrun, habs, h1.2.1, h1.2.2.2 habs 3 (by decide), hreuse, h2.2.2.2.2 3 (by decide)⟩

/-! ### What a failing `Untar` leaves behind -/

theorem untarLoop_append (dir : Str) (t0 : Time) :
    ∀ (pre rest : List tar.Next) (st st1 : UntarState),
      untarLoop dir t0 pre st = (st1, none) →
      untarLoop dir t0 (pre ++ rest) st = untarLoop dir t0 rest st1 := by
  intro pre
  induction pre with
  | nil =>
    intro rest st st1 h
    simp only [untarLoop, Prod.mk.injEq, and_true] at h
    subst h
    rfl
  | cons it pre ih =>
    intro rest st st1 h
    cases it with
    | err => simp [untarLoop] at h
    | entry f body copyErr =>
      simp only [List.cons_append]
      rw [untarLoop] at h ⊢
      cases hent : untarEntry dir t0 f body copyErr st with
      | mk st2 oe =>
        rw [hent] at h
        cases oe with
        | some e => simp at h
        | none => exact ih rest st2 st1 h

theorem Untar_append {dir : Str} {t0 : Time} {pre : List tar.Next} {fs fsP : FS}
    (h : Untar (.gzip pre) dir t0 fs = (fsP, none)) (rest : List tar.Next) :
    ∃ stP : UntarState, stP.fs = fsP ∧
      Untar (.gzip (pre ++ rest)) dir t0 fs =
        ((untarLoop dir t0 rest stP).1.fs, (untarLoop dir t0 rest stP).2) := by
  unfold Untar untar at h ⊢
  simp only [Prod.mk.injEq] at h
  cases hl : untarLoop dir t0 pre { fs := fs, madeDir := [] } with
  | mk stP oe =>
    rw [hl] at h
    simp only [] at h
    obtain ⟨h1, h2⟩ := h
    subst h2
    refine ⟨stP, h1, ?_⟩
    simp only []
    rw [untarLoop_append dir t0 pre rest _ stP hl]

theorem untarEntry_unsupported (dir : Str) (t0 : Time) (f : tar.Header) (body : List Nat)
    (copyErr : Bool) (st : UntarState) (hv : validRelPath f.Name = true)
    (hm : f.modeType = tar.ModeType.other) (ht : f.Typeflag ≠ tar.TypeSymlink) :
    untarEntry dir t0 f body copyErr st = (st, some (.unsupported f.Name)) := by
  unfold untarEntry
  simp only [hv, Bool.not_true, Bool.false_eq_true, if_false, hm, ht]

theorem untarRegular_failed_copy (t0 : Time) (abs : Str) (f : tar.Header) (body : List Nat)
    (copyErr : Bool) (st : UntarState) {fs2 : FS}
    (hmk : os.MkdirAll st.fs (filepath.Dir abs) = .ok st.fs)
    (hopen : os.OpenFile st.fs abs f.perm body t0 = .ok fs2) :
    (copyErr = true →
      ((untarRegular t0 abs f body copyErr st).1.fs, (untarRegular t0 abs f body copyErr st).2)
        = (fs2, some (.writing abs))) ∧
    (copyErr = false → (body.length : Int) ≠ f.Size →
      ((untarRegular t0 abs f body copyErr st).1.fs, (untarRegular t0 abs f body copyErr st).2)
        = (fs2, some (.onlyWrote body.length abs f.Size))) := by
  have hmade : ∃ st1 : UntarState, st1.fs = st.fs ∧
      (if st.madeDir.contains (filepath.Dir abs) = true then Except.ok st
        else
          match os.MkdirAll st.fs (filepath.Dir abs) with
          | .error e => .error e
          | .ok fs1 => .ok { fs := fs1, madeDir := filepath.Dir abs :: st.madeDir }) = .ok st1 := by
    by_cases hc : st.madeDir.contains (filepath.Dir abs) = true
    · exact ⟨st, rfl, by simp only [hc, if_true]⟩
    · exact ⟨{ fs := st.fs, madeDir := filepath.Dir abs :: st.madeDir }, rfl, by
        simp only [hc, if_false, hmk, Bool.false_eq_true]⟩
  obtain ⟨st1, hfs1, hst1⟩ := hmade
  constructor
  · intro hce
    unfold untarRegular
    simp only []
    rw [hst1]
    simp only [hfs1, hopen, hce, if_true]
  · intro hce hlen
    unfold untarRegular
    simp only []
    rw [hst1]
    simp only [hfs1, hopen, hce, hlen, Bool.false_eq_true, if_false, ne_eq, not_false_eq_true,
      if_true]

/-- C4 (as amended): in the stub as built every extraction fails, at the open
of the embedded archive.  When the run has died there at attempt `n`, the lock
directory of `n` is a directory afterwards, the file system is exactly the one
`MkdirAll` of the lock left and every earlier object is still in it unchanged,
and the next run ends at `n` again when the application directory of `n` still
does not exist, while it passes over `n` exactly when that directory exists.
`Untar`
itself rolls nothing back, whatever reader it is given: when the entries `pre`
extract without error, an archive that continues after them with a tar error,
an invalid name or an unsupported type ends with exactly the file system the
entries `pre` left, and one that continues with a regular file whose copy fails
or falls short ends with that file written as far as the copy went; a stream
that is not gzip leaves the file system as it was. -/
theorem failed_extraction_keeps_lock (s : Stub) (b : Reader) (hb : s.embedded = data b)
    (fs0 fs1 : FS) (fuel n : Nat)
    (hrun : attemptLoop s fuel 0 fs0 = .fatal .openEmbedded n fs1) :
    lockIsDir s fs1 n ∧ os.MkdirAll fs0 (lockPath s n) = .ok fs1 ∧ keeps fs0 fs1 ∧
    (appAbsent s fs1 n →
      ∀ fuel2, n < fuel2 → attemptLoop s fuel2 0 fs1 = .fatal .openEmbedded n fs1) ∧
    (appIsDir s fs1 n →
      ∀ fuel2, attemptLoop s (fuel2 + (n + 1)) 0 fs1 = attemptLoop s fuel2 (n + 1) fs1) ∧
    (attemptStep s n fs1 = none ↔ appIsDir s fs1 n) ∧
    (∀ (dir : Str) (t0 : Time) (pre rest : List tar.Next) (fs fsP : FS),
      Untar (.gzip pre) dir t0 fs = (fsP, none) →
      Untar (.gzip (pre ++ .err :: rest)) dir t0 fs = (fsP, some .tarError) ∧
      (∀ f body copyErr, validRelPath f.Name = false →
        Untar (.gzip (pre ++ .entry f body copyErr :: rest)) dir t0 fs =
          (fsP, some (.invalidName f.Name))) ∧
      (∀ f body copyErr, validRelPath f.Name = true → f.modeType = tar.ModeType.other →
        f.Typeflag ≠ tar.TypeSymlink →
        Untar (.gzip (pre ++ .entry f body copyErr :: rest)) dir t0 fs =
          (fsP, some (.unsupported f.Name))) ∧
      (∀ f body copyErr fs2, validRelPath f.Name = true →
        f.modeType = tar.ModeType.regular →
        os.MkdirAll fsP (filepath.Dir (filepath.Join [dir, f.Name])) = .ok fsP →
        os.OpenFile fsP (filepath.Join [dir, f.Name]) f.perm body t0 = .ok fs2 →
        (copyErr = true →
          Untar (.gzip (pre ++ .entry f body copyErr :: rest)) dir t0 fs =
            (fs2, some (.writing (filepath.Join [dir, f.Name])))) ∧
        (copyErr = false → (body.length : Int) ≠ f.Size →
          Untar (.gzip (pre ++ .entry f body copyErr :: rest)) dir t0 fs =
            (fs2, some (.onlyWrote body.length (filepath.Join [dir, f.Name]) f.Size))))) ∧
    (∀ (dir : Str) (t0 : Time) (fs : FS),
      Untar .notGzip dir t0 fs = (fs, some .requiresGzip)) := by
  obtain ⟨-, hocc, hmk⟩ := attemptLoop_openEmbedded_inv hrun
  have hk := (MkdirAll_keeps hmk).1
  have hlock := lockIsDir_of_MkdirAll hmk
  have hocc1 : ∀ i, i < n → occupied s fs1 i := fun i hi => occupied_keeps hk (hocc i hi)
  refine ⟨hlock, hmk, hk, ?_, ?_,
    ⟨fun h => (attemptStep_none h).1, fun h => attemptStep_of_occupied ⟨h, hlock⟩⟩, ?_, ?_⟩
  · intro habs1 fuel2 hf
    obtain ⟨info, h1, h2⟩ := hlock
    exact (attemptLoop_data_appAbsent hb hocc1 habs1 hf).1 fs1 (MkdirAll_of_isDir h1 h2)
  · intro happ fuel2
    have hall : ∀ i, i < n + 1 → occupied s fs1 i := by
      intro i hi
      rcases Nat.lt_or_eq_of_le (Nat.lt_succ_iff.1 hi) with h | h
      · exact hocc1 i h
      · subst h; exact ⟨happ, hlock⟩
    have := @attemptLoop_skip s fs1 fuel2 (n + 1) 0 (fun i _ hi => hall i (by omega))
    simpa using this
  · intro dir t0 pre rest fs fsP hpre
    refine ⟨?_, ?_, ?_, ?_⟩
    · obtain ⟨stP, h1, h2⟩ := Untar_append hpre (.err :: rest)
      rw [h2]
      simp only [untarLoop, h1]
    · intro f body copyErr hv
      obtain ⟨stP, h1, h2⟩ := Untar_append hpre (.entry f body copyErr :: rest)
      rw [h2, untarLoop_invalid_name dir t0 f body copyErr rest stP hv]
      simp only [h1]
    · intro f body copyErr hv hm ht
      obtain ⟨stP, h1, h2⟩ := Untar_append hpre (.entry f body copyErr :: rest)
      rw [h2]
      simp only [untarLoop, untarEntry_unsupported dir t0 f body copyErr stP hv hm ht, h1]
    · intro f body copyErr fs2 hv hm hmkP hopen
      obtain ⟨stP, h1, h2⟩ := Untar_append hpre (.entry f body copyErr :: rest)
      subst h1
      have hent : untarEntry dir t0 f body copyErr stP =
          untarRegular t0 (filepath.Join [dir, f.Name]) f body copyErr stP := by
        unfold untarEntry
        simp only [hv, Bool.not_true, Bool.false_eq_true, if_false, hm, filepath.FromSlash]
      obtain ⟨k1, k2⟩ := untarRegular_failed_copy t0 (filepath.Join [dir, f.Name]) f body copyErr
        stP hmkP hopen
      constructor
      · intro hce
        have := k1 hce
        simp only [Prod.mk.injEq] at this
        rw [h2, untarLoop, hent]
        cases hr : untarRegular t0 (filepath.Join [dir, f.Name]) f body copyErr stP with
        | mk st2 oe =>
          rw [hr] at this
          simp only [] at this
          obtain ⟨t1, t2⟩ := this
          subst t2
          simp only [t1]
      · intro hce hlen
        have := k2 hce hlen
        simp only [Prod.mk.injEq] at this
        rw [h2, untarLoop, hent]
        cases hr : untarRegular t0 (filepath.Join [dir, f.Name]) f body copyErr stP with
        | mk st2 oe =>
          rw [hr] at this
          simp only [] at this
          obtain ⟨t1, t2⟩ := this
          subst t2
          simp only [t1]
  · intro dir t0 fs
    rfl

/-- C4, worked example: the stub as built dies at attempt 0 on an empty file
system, the lock directory is there afterwards and the next run dies at
attempt 0 again.  `Untar` into `/dest` keeps the two directories the first
entries made when the archive goes on with a tar error, and keeps them and the
fifty bytes written when it goes on with a file of 100 bytes whose stream ends
after fifty, or the empty file when it goes on with a hard link that states a
size; the entry after the failing one is never reached. -/
theorem failed_extraction_keeps_lock_witness :
    attemptLoop (exampleStub (data builtArchive)) 1 0 [] =
      .fatal .openEmbedded 0 fsLockOnly.reverse ∧
    lockIsDir (exampleStub (data builtArchive)) fsLockOnly.reverse 0 ∧
    attemptLoop (exampleStub (data builtArchive)) 4 0 fsLockOnly.reverse =
      .fatal .openEmbedded 0 fsLockOnly.reverse ∧
    Untar (.gzip dirEntries) "/dest".toList 7 [] = (fsDest, none) ∧
    Untar (.gzip (dirEntries ++ .err :: [linkEntry])) "/dest".toList 7 [] =
      (fsDest, some .tarError) ∧
    shortFile.deliverable = true ∧
    Untar (.gzip (dirEntries ++ shortFile :: [linkEntry])) "/dest".toList 7 [] =
      ((["dest", "bin", "run"].map String.toList, Node.file 0o755 (List.replicate 50 0) 7) ::
        fsDest, some (.writing "/dest/bin/run".toList)) ∧
    sizedHardLink.deliverable = true ∧
    Untar (.gzip (dirEntries ++ sizedHardLink :: [linkEntry])) "/dest".toList 7 [] =
      ((["dest", "bin", "h"].map String.toList, Node.file 0o644 [] 7) :: fsDest,
        some (.onlyWrote 0 "/dest/bin/h".toList 100)) := by
  have hrun : attemptLoop (exampleStub (data builtArchive)) 1 0 [] =
      .fatal .openEmbedded 0 fsLockOnly.reverse := by decide
  have habs : appAbsent (exampleStub (data builtArchive)) fsLockOnly.reverse 0 := by
    unfold appAbsent; decide
  have hpre : Untar (.gzip dirEntries) "/dest".toList 7 [] = (fsDest, none) := by decide
  have h := failed_extraction_keeps_lock (exampleStub (data builtArchive)) builtArchive rfl []
    fsLockOnly.reverse 1 0 hrun
  have hu := h.2.2.2.2.2.2.1 "/dest".toList 7 dirEntries [linkEntry] [] fsDest hpre
  refine ⟨hrun, h.1, h.2.2.2.1 habs 4 (by decide), hpre, hu.1, by decide, ?_, by decide, ?_⟩
  · exact (hu.2.2.2 _ (List.replicate 50 0) true _ (by decide) (by decide) (by decide)
      (by decide)).1 rfl
  · exact (hu.2.2.2 _ [] false _ (by decide) (by decide) (by decide) (by decide)).2 rfl
      (by decide)

/-- C4, counterexample: the extraction of the stub as built fails at attempt 0
on an empty file system, and the next run, on the file system the failure
left, ends at attempt 0 again and not at a greater attempt, because the
application directory of attempt 0 does not exist.  A reader that is not gzip
makes `Untar` fail in that same state without a write, so a decompression
failure leaves attempt 0 to the next run in the same way. -/
theorem failed_extraction_same_attempt_counterexample :
    attemptLoop (exampleStub (data builtArchive)) 1 0 [] =
      .fatal .openEmbedded 0 fsLockOnly.reverse ∧
    os.Stat fsLockOnly.reverse "/tmp/caxa/locks/app-v1/0".toList = .ok Node.dir ∧
    os.Stat fsLockOnly.reverse "/tmp/caxa/applications/app-v1/0".toList = .error .ENOENT ∧
    attemptLoop (exampleStub (data builtArchive)) 5 0 fsLockOnly.reverse =
      .fatal .openEmbedded 0 fsLockOnly.reverse ∧
    Untar Reader.notGzip "/tmp/caxa/applications/app-v1/0".toList 1000 fsLockOnly.reverse =
      (fsLockOnly.reverse, some .requiresGzip) := by
  refine ⟨by decide, by decide, by decide, by decide, by decide⟩

/-! ### Archives with several entries -/

theorem entryLoc_not_dotdot {dir : Str} (hdir : strings.HasPrefix dir ['/'] = true)
    (f : tar.Header) : ['.', '.'] ∉ entryLoc dir f :=
  not_dotdot_of_normal (normal_comps_path_Join hdir _)

theorem entryLoc_parent {dir : Str} (hdir : strings.HasPrefix dir ['/'] = true)
    (f : tar.Header) :
    comps (filepath.Dir (filepath.Join [dir, f.Name])) = (entryLoc dir f).dropLast :=
  comps_Dir_path_Join hdir _

theorem compatible_iff (dir : Str) (f g : tar.Header) :
    compatible dir f g = true ↔
      (f.modeType = .other → ¬ entryLoc dir f <+: entryLoc dir g) ∧
      (f.modeType = .regular → entryLoc dir f <+: entryLoc dir g →
        entryLoc dir f = entryLoc dir g ∧ g.modeType = .regular) := by
  unfold compatible
  simp only [Bool.and_eq_true, Bool.or_eq_true, decide_eq_true_eq, Bool.not_eq_true',
    ← Bool.not_eq_true, List.isPrefixOf_iff_prefix, ne_eq]
  constructor
  · rintro ⟨h1, h2⟩
    refine ⟨fun hm hp => ?_, fun hm hp => ?_⟩
    · rcases h1 with h | h
      · exact h hm
      · exact h hp
    · rcases h2 with (h | h) | h
      · exact absurd hm h
      · exact absurd hp h
      · exact h
  · rintro ⟨h1, h2⟩
    refine ⟨?_, ?_⟩
    · by_cases hm : f.modeType = .other
      · exact Or.inr (h1 hm)
      · exact Or.inl hm
    · by_cases hm : f.modeType = .regular
      · by_cases hp : entryLoc dir f <+: entryLoc dir g
        · exact Or.inr (h2 hm hp)
        · exact Or.inl (Or.inr hp)
      · exact Or.inl (Or.inl hm)

theorem mem_headers {items : List tar.Next} {f : tar.Header} {body : List Nat} {copyErr : Bool}
    (h : tar.Next.entry f body copyErr ∈ items) : f ∈ headers items := by
  induction items with
  | nil => cases h
  | cons it items ih =>
    rcases List.mem_cons.1 h with h1 | h1
    · subst h1
      simp [headers]
    · cases it with
      | err => simpa [headers] using ih h1
      | entry g b c => simp [headers, ih h1]

theorem extractable_unfold {dir : Str} {items : List tar.Next}
    (h : extractable dir items = true) :
    (∀ it ∈ items, soundEntry it = true) ∧
    ∀ f ∈ headers items, ∀ g ∈ headers items,
      f = g ∨ (compatible dir f g = true ∧ compatible dir g f = true) := by
  unfold extractable at h
  simp only [Bool.and_eq_true, List.all_eq_true, Bool.or_eq_true, decide_eq_true_eq] at h
  refine ⟨h.1, fun f hf g hg => ?_⟩
  rcases h.2 f hf g hg with h1 | h1
  · exact Or.inl h1
  · rcases h.2 g hg f hf with h2 | h2
    · exact Or.inl h2.symm
    · exact Or.inr ⟨h1, h2⟩

theorem mkdirAllC_effect {cs : Loc} {fs : FS} (hdd : ['.', '.'] ∉ cs)
    (hway : ∀ q, q <+: cs → fs.node q = none ∨ fs.node q = some Node.dir) :
    ∃ fs2, os.mkdirAllC fs (cs.length + 1) cs = .ok fs2 ∧ dirPath fs2 cs ∧
      ∀ q, ¬ q <+: cs → fs2.node q = fs.node q := by
  obtain ⟨fs2, h⟩ := mkdirAllC_ok (cs.length + 1) cs fs hdd hway (Nat.lt_succ_self _)
  have hnl : noLinkWay fs cs := by
    intro q hq t hn
    rcases hway q hq with h | h <;> rw [h] at hn <;> cases hn
  obtain ⟨h1, h2⟩ := mkdirAllC_post _ _ _ _ hdd hnl h
  exact ⟨fs2, h, h1, fun q hq => h2.outside hq⟩

theorem not_prefix_dropLast {L : Loc} (hne : L ≠ []) : ¬ L <+: L.dropLast := by
  intro hp
  have := hp.length_le
  rw [List.length_dropLast] at this
  have : 0 < L.length := List.length_pos.2 hne
  omega

theorem prefix_of_prefix_dropLast {q L : Loc} (h : q <+: L.dropLast) : q <+: L :=
  h.trans (List.dropLast_prefix L)

theorem ne_of_prefix_dropLast {q L : Loc} (hne : L ≠ []) (h : q <+: L.dropLast) : q ≠ L := by
  intro e
  subst e
  exact not_prefix_dropLast hne h

/-- The parent directory of an entry is made, or is known to be there. -/
theorem parent_made {abs : Str} {st : UntarState} (hdd : ['.', '.'] ∉ comps abs)
    (hpar : comps (filepath.Dir abs) = (comps abs).dropLast) (hne : comps abs ≠ [])
    (hclear : clearAbove st.fs (comps abs))
    (hmemo : ∀ d ∈ st.madeDir, dirPath st.fs (comps d)) :
    ∃ stA : UntarState,
      (if st.madeDir.contains (filepath.Dir abs) = true then Except.ok st
        else
          match os.MkdirAll st.fs (filepath.Dir abs) with
          | .error e => .error e
          | .ok fs1 => .ok { fs := fs1, madeDir := filepath.Dir abs :: st.madeDir }) = .ok stA ∧
      dirPath stA.fs (comps abs).dropLast ∧
      (∀ q, ¬ q <+: (comps abs).dropLast → stA.fs.node q = st.fs.node q) ∧
      (stA.madeDir = st.madeDir ∨ stA.madeDir = filepath.Dir abs :: st.madeDir) := by
  by_cases hc : st.madeDir.contains (filepath.Dir abs) = true
  · refine ⟨st, by simp only [hc, if_true], ?_, fun _ _ => rfl, Or.inl rfl⟩
    have hm : filepath.Dir abs ∈ st.madeDir := by simpa using hc
    have := hmemo _ hm
    rwa [hpar] at this
  · have hddP : ['.', '.'] ∉ (comps abs).dropLast := fun e => hdd (List.mem_of_mem_dropLast e)
    have hwayP : ∀ q, q <+: (comps abs).dropLast →
        st.fs.node q = none ∨ st.fs.node q = some Node.dir :=
      fun q hq => hclear q (prefix_of_prefix_dropLast hq) (ne_of_prefix_dropLast hne hq)
    obtain ⟨fsA, hmkA, hpA, houtA⟩ := mkdirAllC_effect hddP hwayP
    have hmk : os.MkdirAll st.fs (filepath.Dir abs) = .ok fsA := by
      unfold os.MkdirAll
      rw [hpar]
      exact hmkA
    exact ⟨{ fs := fsA, madeDir := filepath.Dir abs :: st.madeDir }, by
      simp only [hc, hmk, Bool.false_eq_true, if_false], hpA, houtA, Or.inr rfl⟩

theorem writesAt_of_set {L : Loc} {fs fsA fs1 : FS} {n : Node}
    (hpA : dirPath fsA L.dropLast) (houtA : ∀ q, ¬ q <+: L.dropLast → fsA.node q = fs.node q)
    (h1 : ∀ q, fs1.node q = if q = L then some n else fsA.node q) : writesAt L fs fs1 := by
  constructor
  · intro q hq hqn
    rw [h1, if_neg hqn]
    exact hpA q (prefix_dropLast_of_ne hq hqn)
  · intro q hq
    have hqn : q ≠ L := fun e => hq (by rw [e])
    rw [h1, if_neg hqn]
    exact houtA q (fun hp => hq (prefix_of_prefix_dropLast hp))

theorem untarRegular_ok {t0 : Time} {abs : Str} {f : tar.Header} {body : List Nat}
    {st : UntarState} (hdd : ['.', '.'] ∉ comps abs)
    (hpar : comps (filepath.Dir abs) = (comps abs).dropLast)
    (hclear : clearAbove st.fs (comps abs))
    (hnode : st.fs.node (comps abs) = none ∨
      ∃ p c m, st.fs.node (comps abs) = some (Node.file p c m))
    (hmemo : ∀ d ∈ st.madeDir, dirPath st.fs (comps d))
    (hlen : (body.length : Int) = f.Size) :
    ∃ st1, untarRegular t0 abs f body false st = (st1, none) ∧
      writesAt (comps abs) st.fs st1.fs ∧
      (∃ p c m, st1.fs.node (comps abs) = some (Node.file p c m)) ∧
      (st1.madeDir = st.madeDir ∨ st1.madeDir = filepath.Dir abs :: st.madeDir) := by
  have hne : comps abs ≠ [] := by
    intro e
    rw [e, node_nil] at hnode
    rcases hnode with h | ⟨p, c, m, h⟩ <;> cases h
  obtain ⟨stA, hmade, hpA, houtA, hmd⟩ := parent_made hdd hpar hne hclear hmemo
  have hchA : dirChain stA.fs (comps abs) := fun q hq hn => hpA q (prefix_dropLast_of_ne hq hn)
  have hnodeA : stA.fs.node (comps abs) = st.fs.node (comps abs) :=
    houtA _ (not_prefix_dropLast hne)
  have hnsym : ∀ t, stA.fs.node (comps abs) ≠ some (Node.symlink t) := by
    intro t e
    rw [hnodeA] at e
    rcases hnode with h | ⟨p, c, m, h⟩ <;> rw [h] at e <;> cases e
  have hres : resolve stA.fs true (comps abs) = .ok (comps abs, stA.fs.node (comps abs)) :=
    resolve_of_chain true hdd hchA (Or.inr hnsym)
  have hopen : ∃ p, os.OpenFile stA.fs abs f.perm body t0 =
      .ok (stA.fs.set (comps abs) (Node.file p body t0)) := by
    unfold os.OpenFile
    rw [hres, hnodeA]
    rcases hnode with h | ⟨p, c, m, h⟩
    · exact ⟨f.perm, by rw [h]⟩
    · exact ⟨p, by rw [h]⟩
  obtain ⟨p, hopen⟩ := hopen
  have hnode2 : ∀ (x : Node) (q : Loc), (stA.fs.set (comps abs) x).node q =
      if q = comps abs then some x else stA.fs.node q := fun x q => FS.node_set _ hne q x
  have hch2 : dirChain (stA.fs.set (comps abs) (Node.file p body t0)) (comps abs) := by
    intro q hq hqn
    rw [hnode2, if_neg hqn]
    exact hchA q hq hqn
  have hcht : ∀ m : Time, os.Chtimes (stA.fs.set (comps abs) (Node.file p body t0)) abs m =
      (stA.fs.set (comps abs) (Node.file p body t0)).set (comps abs) (Node.file p body m) := by
    intro m
    unfold os.Chtimes
    rw [resolve_of_chain true hdd hch2 (Or.inr (by
      intro t e
      rw [hnode2] at e
      simp at e)), hnode2]
    simp
  have hC : ∀ (m : Time) (q : Loc),
      (os.Chtimes (stA.fs.set (comps abs) (Node.file p body t0)) abs m).node q =
        if q = comps abs then some (Node.file p body m) else stA.fs.node q := by
    intro m q
    rw [hcht, FS.node_set _ hne, hnode2]
    by_cases hq : q = comps abs <;> simp [hq]
  unfold untarRegular
  simp only []
  rw [hmade]
  simp only [hopen, Bool.false_eq_true, if_false, hlen, ne_eq, not_true_eq_false]
  split <;> split
  all_goals refine ⟨_, rfl, ?_, ?_, hmd⟩
  all_goals dsimp only
  all_goals first
    | exact writesAt_of_set hpA houtA (hC _)
    | exact writesAt_of_set hpA houtA (hnode2 _)
    | exact ⟨_, _, _, (hC _ _).trans (if_pos rfl)⟩
    | exact ⟨_, _, _, (hnode2 _ _).trans (if_pos rfl)⟩

theorem untarSymlink_ok {fs : FS} {abs : Str} {f : tar.Header} (madeDir : List Str)
    (hdd : ['.', '.'] ∉ comps abs)
    (hpar : comps (filepath.Dir abs) = (comps abs).dropLast) (hlink : f.Linkname ≠ [])
    (hclear : clearAbove fs (comps abs)) (hrep : replaceable fs (comps abs)) :
    ∃ fs1, untarSymlink abs f { fs := fs, madeDir := madeDir }
        = ({ fs := fs1, madeDir := madeDir }, none) ∧
      dirChain fs1 (comps abs) ∧ fs1.node (comps abs) = some (Node.symlink f.Linkname) ∧
      os.Lstat fs1 abs = .ok (Node.symlink f.Linkname) ∧
      ∀ q, ¬ q <+: comps abs → fs1.node q = fs.node q := by
  obtain ⟨hne, hempty⟩ := hrep
  have hddP : ['.', '.'] ∉ (comps abs).dropLast := fun e => hdd (List.mem_of_mem_dropLast e)
  have hproper : ∀ q, q <+: (comps abs).dropLast → q ≠ comps abs :=
    fun q hq => ne_of_prefix_dropLast hne hq
  have hwayP : ∀ q, q <+: (comps abs).dropLast → fs.node q = none ∨ fs.node q = some Node.dir :=
    fun q hq => hclear q (hq.trans (List.dropLast_prefix _)) (hproper q hq)
  obtain ⟨fsA, hmkA, hpA, houtA⟩ := mkdirAllC_effect hddP hwayP
  have hmk : os.MkdirAll fs (filepath.Dir abs) = .ok fsA := by
    unfold os.MkdirAll
    rw [hpar]
    exact hmkA
  have hchA : dirChain fsA (comps abs) := fun q hq hn => hpA q (prefix_dropLast_of_ne hq hn)
  have hnodeA : fsA.node (comps abs) = fs.node (comps abs) :=
    houtA _ (fun hp => hproper _ hp rfl)
  -- the removal
  have hrem : ∃ fsB, (match os.Lstat fsA abs with
      | .ok _ => os.Remove fsA abs
      | .error _ => Except.ok fsA) = Except.ok fsB ∧ fsB.node (comps abs) = none ∧
      dirChain fsB (comps abs) ∧ ∀ q, q ≠ comps abs → fsB.node q = fsA.node q := by
    have hl : os.Lstat fsA abs = match fsA.node (comps abs) with
        | some n => .ok n
        | none => .error .ENOENT := statC_of_chain false hdd hchA (Or.inl rfl)
    cases hn : fsA.node (comps abs) with
    | none =>
      rw [hn] at hl
      rw [hl]
      exact ⟨fsA, rfl, hn, hchA, fun _ _ => rfl⟩
    | some n =>
      rw [hn] at hl
      rw [hl]
      simp only []
      have hres : resolve fsA false (comps abs) = .ok (comps abs, some n) := by
        rw [resolve_of_chain false hdd hchA (Or.inl rfl), hn]
      have hchB : dirChain (fsA.erase (comps abs)) (comps abs) := by
        intro q hq hqn
        rw [FS.node_erase fsA hne]
        simp only [hqn, if_false]
        exact hchA q hq hqn
      have hnB : (fsA.erase (comps abs)).node (comps abs) = none := by
        rw [FS.node_erase fsA hne]; simp
      have hoB : ∀ q, q ≠ comps abs → (fsA.erase (comps abs)).node q = fsA.node q := by
        intro q hq
        rw [FS.node_erase fsA hne]
        simp [hq]
      refine ⟨fsA.erase (comps abs), ?_, hnB, hchB, hoB⟩
      unfold os.Remove
      rw [hres]
      cases n with
      | dir =>
        have hc0 : fs.hasChild (comps abs) = false := hempty (by rw [← hnodeA, hn])
        have hc : fsA.hasChild (comps abs) = false := by
          rw [FS.hasChild_eq_false_iff] at hc0 ⊢
          intro c
          have h1 := houtA (comps abs ++ [c]) (fun hp => by
            have := hp.length_le
            rw [List.length_dropLast, List.length_append] at this
            simp at this
            omega)
          rw [node_ne_nil_eq_get _ (by simp), node_ne_nil_eq_get _ (by simp)] at h1
          rw [h1]
          exact hc0 c
        simp [hne, hc]
      | file perm content modTime => rfl
      | symlink t => rfl
  obtain ⟨fsB, hremB, hnB, hchB, hoB⟩ := hrem
  have hsym : os.Symlink fsB f.Linkname abs = .ok (fsB.set (comps abs) (Node.symlink f.Linkname)) := by
    unfold os.Symlink
    simp only [hlink, if_false]
    rw [resolve_of_chain false hdd hchB (Or.inl rfl), hnB]
  have hch1 : dirChain (fsB.set (comps abs) (Node.symlink f.Linkname)) (comps abs) := by
    intro q hq hqn
    rw [FS.node_set fsB hne]
    simp only [hqn, if_false]
    exact hchB q hq hqn
  have hn1 : (fsB.set (comps abs) (Node.symlink f.Linkname)).node (comps abs)
      = some (Node.symlink f.Linkname) := by
    rw [FS.node_set fsB hne]; simp
  refine ⟨fsB.set (comps abs) (Node.symlink f.Linkname), ?_, hch1, hn1, ?_, ?_⟩
  · unfold untarSymlink
    simp only [hmk]
    rw [hremB]
    simp only [hsym]
  · unfold os.Lstat
    rw [statC_of_chain false hdd hch1 (Or.inl rfl), hn1]
  · intro q hq
    have hqn : q ≠ comps abs := fun e => hq (by rw [e])
    rw [FS.node_set fsB hne, if_neg hqn, hoB q hqn]
    exact houtA q (fun hp => hq (prefix_of_prefix_dropLast hp))

/-- One sound entry, extracted into a file system that has room for it. -/
theorem untarEntry_ok {dir : Str} (hdir : strings.HasPrefix dir ['/'] = true) (t0 : Time)
    {f : tar.Header} {body : List Nat} {copyErr : Bool}
    (hs : soundEntry (.entry f body copyErr) = true) {st : UntarState}
    (hslot : slot st.fs dir f) (hmemo : ∀ d ∈ st.madeDir, dirPath st.fs (comps d)) :
    ∃ st1, untarEntry dir t0 f body copyErr st = (st1, none) ∧
      writesAt (entryLoc dir f) st.fs st1.fs ∧ written st1.fs dir f ∧
      (st1.madeDir = st.madeDir ∨
        ∃ d, st1.madeDir = d :: st.madeDir ∧ dirPath st1.fs (comps d) ∧
          comps d <+: entryLoc dir f ∧ f.modeType ≠ .other) := by
  have hdd := entryLoc_not_dotdot hdir f
  have hpar := entryLoc_parent hdir f
  obtain ⟨hclear, hsd, hsr, hso⟩ := hslot
  unfold soundEntry at hs
  simp only [Bool.and_eq_true] at hs
  obtain ⟨hv, hk⟩ := hs
  unfold entryLoc at hdd hpar hclear hsd hsr hso ⊢
  unfold written entryLoc
  simp only [filepath.FromSlash] at hdd hpar hclear hsd hsr hso ⊢
  unfold untarEntry
  simp only [hv, Bool.not_true, Bool.false_eq_true, if_false, filepath.FromSlash]
  cases hm : f.modeType with
  | regular =>
    rw [hm] at hk
    simp only [Bool.and_eq_true, Bool.not_eq_true', decide_eq_true_eq] at hk
    obtain ⟨hce, hlen⟩ := hk
    subst hce
    obtain ⟨st1, h1, h2, h3, h4⟩ := @untarRegular_ok t0 _ f _ _ hdd hpar hclear (hsr hm)
      hmemo hlen
    refine ⟨st1, h1, h2, h3, ?_⟩
    rcases h4 with h4 | h4
    · exact Or.inl h4
    · refine Or.inr ⟨_, h4, ?_, ?_, by simp⟩
      · rw [hpar]
        intro q hq
        have hne : comps (filepath.Join [dir, f.Name]) ≠ [] := by
          intro e
          obtain ⟨p, c, m, h3⟩ := h3
          rw [e, node_nil] at h3
          cases h3
        exact h2.1 q (prefix_of_prefix_dropLast hq) (ne_of_prefix_dropLast hne hq)
      · rw [hpar]
        exact List.dropLast_prefix _
  | dir =>
    simp only []
    have hway : ∀ q, q <+: comps (filepath.Join [dir, f.Name]) →
        st.fs.node q = none ∨ st.fs.node q = some Node.dir := by
      intro q hq
      by_cases hqn : q = comps (filepath.Join [dir, f.Name])
      · rw [hqn]; exact hsd hm
      · exact hclear q hq hqn
    obtain ⟨fs2, hmk, hp2, hout2⟩ := mkdirAllC_effect hdd hway
    have hmk2 : os.MkdirAll st.fs (filepath.Join [dir, f.Name]) = .ok fs2 := hmk
    rw [hmk2]
    refine ⟨_, rfl, ⟨fun q hq _ => hp2 q hq, hout2⟩, hp2 _ (List.prefix_refl _), ?_⟩
    exact Or.inr ⟨_, rfl, hp2, List.prefix_refl _, by simp⟩
  | other =>
    rw [hm] at hk
    simp only [Bool.and_eq_true, decide_eq_true_eq] at hk
    obtain ⟨ht, hl⟩ := hk
    simp only [ht, if_true]
    obtain ⟨fs1, h1, h2, h3, _, h5⟩ :=
      untarSymlink_ok (f := f) st.madeDir hdd hpar hl hclear (hso hm)
    exact ⟨_, h1, ⟨fun q hq hqn => h2 q hq hqn, h5⟩, h3, Or.inl rfl⟩

theorem written_node {fs : FS} {dir : Str} {e : tar.Header} (h : written fs dir e) :
    (e.modeType = .dir → fs.node (entryLoc dir e) = some Node.dir) ∧
    (e.modeType = .regular → ∃ p c m, fs.node (entryLoc dir e) = some (Node.file p c m)) ∧
    (e.modeType = .other → fs.node (entryLoc dir e) = some (Node.symlink e.Linkname)) := by
  unfold written at h
  refine ⟨fun hm => ?_, fun hm => ?_, fun hm => ?_⟩ <;> rw [hm] at h <;> exact h

/-- What an extracted entry at a proper place above another location is. -/
theorem above_is_dir {dir : Str} {fs1 : FS} {e g : tar.Header}
    (hc : compatible dir e g = true) (hwr : written fs1 dir e)
    (hp : entryLoc dir e <+: entryLoc dir g) (hne : entryLoc dir e ≠ entryLoc dir g) :
    fs1.node (entryLoc dir e) = some Node.dir := by
  obtain ⟨c1, c2⟩ := (compatible_iff dir e g).1 hc
  obtain ⟨w1, _, _⟩ := written_node hwr
  cases hm : e.modeType with
  | regular => exact absurd (c2 hm hp).1 hne
  | dir => exact w1 hm
  | other => exact absurd hp (c1 hm)

theorem slot_step {dir : Str} {fs fs1 : FS} {e g : tar.Header}
    (hce : e = g ∨ (compatible dir e g = true ∧ compatible dir g e = true))
    (hse : slot fs dir e) (hsg : slot fs dir g)
    (hw : writesAt (entryLoc dir e) fs fs1) (hwr : written fs1 dir e) : slot fs1 dir g := by
  obtain ⟨w1, w2, w3⟩ := written_node hwr
  by_cases heg : e = g
  · subst heg
    refine ⟨fun q hq hqn => Or.inr (hw.1 q hq hqn), fun hm => Or.inr (w1 hm),
      fun hm => Or.inr (w2 hm), fun hm => ⟨(hse.2.2.2 hm).1, fun hd => ?_⟩⟩
    rw [w3 hm] at hd
    cases hd
  · rcases hce with h | ⟨hc1, hc2⟩
    · exact absurd h heg
    · obtain ⟨ceg1, ceg2⟩ := (compatible_iff dir e g).1 hc1
      obtain ⟨cge1, cge2⟩ := (compatible_iff dir g e).1 hc2
      refine ⟨?_, ?_, ?_, ?_⟩
      · intro q hq hqn
        by_cases hqe : q <+: entryLoc dir e
        · by_cases hqe2 : q = entryLoc dir e
          · subst hqe2
            exact Or.inr (above_is_dir hc1 hwr hq hqn)
          · exact Or.inr (hw.1 q hqe hqe2)
        · rw [hw.2 q hqe]
          exact hsg.1 q hq hqn
      · intro hm
        by_cases hqe : entryLoc dir g <+: entryLoc dir e
        · by_cases hqe2 : entryLoc dir g = entryLoc dir e
          · right
            rw [hqe2]
            cases hme : e.modeType with
            | regular =>
              have := (ceg2 hme (by rw [hqe2])).2
              rw [hm] at this
              cases this
            | dir => exact w1 hme
            | other => exact absurd (by rw [hqe2]) (ceg1 hme)
          · exact Or.inr (hw.1 _ hqe hqe2)
        · rw [hw.2 _ hqe]
          exact hsg.2.1 hm
      · intro hm
        by_cases hqe : entryLoc dir g <+: entryLoc dir e
        · obtain ⟨h1, h2⟩ := cge2 hm hqe
          right
          rw [h1]
          exact w2 h2
        · rw [hw.2 _ hqe]
          exact hsg.2.2.1 hm
      · intro hm
        have hnp : ¬ entryLoc dir g <+: entryLoc dir e := cge1 hm
        obtain ⟨r1, r2⟩ := hsg.2.2.2 hm
        refine ⟨r1, fun hd => ?_⟩
        rw [hw.2 _ hnp] at hd
        have hc0 := r2 hd
        rw [FS.hasChild_eq_false_iff] at hc0 ⊢
        intro c
        have hnc : ¬ (entryLoc dir g ++ [c]) <+: entryLoc dir e :=
          fun hp => hnp ((List.prefix_append _ _).trans hp)
        have := hw.2 _ hnc
        rw [node_ne_nil_eq_get _ (by simp), node_ne_nil_eq_get _ (by simp)] at this
        rw [this]
        exact hc0 c

theorem linked_step {dir : Str} {fs fs1 : FS} {e g : tar.Header}
    (hce : e = g ∨ (compatible dir e g = true ∧ compatible dir g e = true))
    (hg : g.modeType = .other) (hw : writesAt (entryLoc dir e) fs fs1)
    (hwr : written fs1 dir e) (h : linked fs dir g ∨ e = g) : linked fs1 dir g := by
  by_cases heg : e = g
  · subst heg
    exact ⟨fun q hq hqn => hw.1 q hq hqn, (written_node hwr).2.2 hg⟩
  · rcases hce with h1 | ⟨hc1, hc2⟩
    · exact absurd h1 heg
    · rcases h with ⟨l1, l2⟩ | h
      · obtain ⟨cge1, _⟩ := (compatible_iff dir g e).1 hc2
        have hnp : ¬ entryLoc dir g <+: entryLoc dir e := cge1 hg
        refine ⟨?_, by rw [hw.2 _ hnp]; exact l2⟩
        intro q hq hqn
        by_cases hqe : q <+: entryLoc dir e
        · by_cases hqe2 : q = entryLoc dir e
          · subst hqe2
            exact above_is_dir hc1 hwr hq hqn
          · exact hw.1 q hqe hqe2
        · rw [hw.2 q hqe]
          exact l1 q hq hqn
      · exact absurd h heg

theorem memo_step {dir : Str} {fs fs1 : FS} {e g : tar.Header} {d : Str}
    (hce : e = g ∨ (compatible dir e g = true ∧ compatible dir g e = true))
    (hse : slot fs dir e) (hw : writesAt (entryLoc dir e) fs fs1) (hwr : written fs1 dir e)
    (hd : dirPath fs (comps d)) (hg : g.modeType ≠ .other)
    (hdg : comps d <+: entryLoc dir g) : dirPath fs1 (comps d) := by
  obtain ⟨w1, _, _⟩ := written_node hwr
  intro q hq
  by_cases hqe : q <+: entryLoc dir e
  · by_cases hqe2 : q = entryLoc dir e
    · subst hqe2
      cases hme : e.modeType with
      | dir => exact w1 hme
      | regular =>
        have := hd _ hq
        rcases hse.2.2.1 hme with h | ⟨p, c, m, h⟩ <;> rw [h] at this <;> cases this
      | other =>
        exfalso
        rcases hce with h | ⟨hc1, _⟩
        · subst h
          exact hg hme
        · exact ((compatible_iff dir e g).1 hc1).1 hme (hq.trans hdg)
    · exact hw.1 q hqe hqe2
  · rw [hw.2 q hqe]
    exact hd q hq

/-- The loop of `untar` over entries of an extractable archive, started on a
file system that has room for all of them: it ends without an error, the file
system still has room for all of them, and every symbolic link of the archive
that was in place before or is among the entries is in place afterwards. -/
theorem untarLoop_ok {dir : Str} (hdir : strings.HasPrefix dir ['/'] = true) (t0 : Time)
    (all : List tar.Next) (hs : ∀ it ∈ all, soundEntry it = true)
    (hc : ∀ f ∈ headers all, ∀ g ∈ headers all,
      f = g ∨ (compatible dir f g = true ∧ compatible dir g f = true)) :
    ∀ (rest : List tar.Next), (∀ it ∈ rest, it ∈ all) → ∀ (st : UntarState),
      fits st.fs dir all →
      (∀ d ∈ st.madeDir, dirPath st.fs (comps d) ∧
        ∃ g ∈ headers all, g.modeType ≠ .other ∧ comps d <+: entryLoc dir g) →
      ∃ st1, untarLoop dir t0 rest st = (st1, none) ∧ fits st1.fs dir all ∧
        ∀ g ∈ headers all, g.modeType = .other →
          (linked st.fs dir g ∨ g ∈ headers rest) → linked st1.fs dir g := by
  intro rest
  induction rest with
  | nil =>
    intro _ st hfit _
    refine ⟨st, rfl, hfit, fun g _ _ h => ?_⟩
    rcases h with h | h
    · exact h
    · simp [headers] at h
  | cons it rest ih =>
    intro hsub st hfit hmemo
    have hit : it ∈ all := hsub it (List.mem_cons_self _ _)
    have hsound := hs it hit
    cases it with
    | err => simp [soundEntry] at hsound
    | entry f body copyErr =>
      have hf : f ∈ headers all := mem_headers hit
      obtain ⟨st1, h1, hw, hwr, hmd⟩ := untarEntry_ok hdir t0 hsound (hfit f hf)
        (fun d hd => (hmemo d hd).1)
      have hfit1 : fits st1.fs dir all :=
        fun g hg => slot_step (hc f hf g hg) (hfit f hf) (hfit g hg) hw hwr
      have hmemo1 : ∀ d ∈ st1.madeDir, dirPath st1.fs (comps d) ∧
          ∃ g ∈ headers all, g.modeType ≠ .other ∧ comps d <+: entryLoc dir g := by
        have hold : ∀ d ∈ st.madeDir, dirPath st1.fs (comps d) ∧
            ∃ g ∈ headers all, g.modeType ≠ .other ∧ comps d <+: entryLoc dir g := by
          intro d hd
          obtain ⟨k1, g, hg, k2, k3⟩ := hmemo d hd
          exact ⟨memo_step (hc f hf g hg) (hfit f hf) hw hwr k1 k2 k3, g, hg, k2, k3⟩
        rcases hmd with h | ⟨d0, h, k1, k2, k3⟩
        · rw [h]; exact hold
        · rw [h]
          intro d hd
          rcases List.mem_cons.1 hd with e | e
          · subst e
            exact ⟨k1, f, hf, k3, k2⟩
          · exact hold d e
      obtain ⟨st2, h2, hfit2, hl2⟩ := ih (fun x hx => hsub x (List.mem_cons_of_mem _ hx)) st1
        hfit1 hmemo1
      refine ⟨st2, ?_, hfit2, ?_⟩
      · rw [untarLoop, h1]
        exact h2
      · intro g hg hgo h
        apply hl2 g hg hgo
        rcases h with h | h
        · exact Or.inl (linked_step (hc f hf g hg) hgo hw hwr (Or.inl h))
        · simp only [headers, List.mem_cons] at h
          rcases h with h | h
          · exact Or.inl (linked_step (hc f hf g hg) hgo hw hwr (Or.inr h.symm))
          · exact Or.inr h

theorem untar_ok {dir : Str} (hdir : strings.HasPrefix dir ['/'] = true) (t0 : Time)
    {items : List tar.Next} (hitems : extractable dir items = true) {fs : FS}
    (hfs : fits fs dir items) :
    ∃ fs1, untar (.gzip items) dir t0 fs = (fs1, none) ∧ fits fs1 dir items ∧
      ∀ f ∈ headers items, f.modeType = .other →
        os.Lstat fs1 (filepath.Join [dir, f.Name]) = .ok (Node.symlink f.Linkname) := by
  obtain ⟨hs, hc⟩ := extractable_unfold hitems
  obtain ⟨st1, h1, h2, h3⟩ := untarLoop_ok hdir t0 items hs hc items (fun _ h => h)
    { fs := fs, madeDir := [] } hfs (fun d hd => by cases hd)
  refine ⟨st1.fs, ?_, h2, ?_⟩
  · unfold untar
    simp only [h1]
  · intro f hf hm
    obtain ⟨l1, l2⟩ := h3 f hf hm (Or.inr hf)
    have hdd := entryLoc_not_dotdot hdir f
    unfold entryLoc at hdd l1 l2
    simp only [filepath.FromSlash] at hdd l1 l2
    unfold os.Lstat
    rw [statC_of_chain false hdd l1 (Or.inl rfl), l2]

/-- C9 (as amended): for an extractable archive (every entry has a name that
passes `validRelPath` and is a directory, a regular file whose copy is
complete, or a symbolic link with a target that is not empty; and no symbolic
link or regular file of the archive is in the way of a different entry), an
absolute destination directory and a file system that has room for every
entry, `untar` succeeds twice in a row, and after each run the object at the
path of every symbolic-link entry of the archive is a symbolic link with
exactly the declared target. -/
theorem symlink_entry_extracted_twice (dir : Str) (items : List tar.Next) (t0 t1 : Time)
    (fs : FS) (hdir : strings.HasPrefix dir ['/'] = true)
    (hitems : extractable dir items = true) (hfs : fits fs dir items) :
    ∃ fs1 fs2,
      untar (.gzip items) dir t0 fs = (fs1, none) ∧
      untar (.gzip items) dir t1 fs1 = (fs2, none) ∧
      ∀ f ∈ headers items, f.Typeflag = tar.TypeSymlink → f.modeType = .other →
        os.Lstat fs1 (filepath.Join [dir, f.Name]) = .ok (Node.symlink f.Linkname) ∧
        os.Lstat fs2 (filepath.Join [dir, f.Name]) = .ok (Node.symlink f.Linkname) := by
  obtain ⟨fs1, h1, hfit1, hl1⟩ := untar_ok hdir t0 hitems hfs
  obtain ⟨fs2, h2, _, hl2⟩ := untar_ok hdir t1 hitems hfit1
  exact ⟨fs1, fs2, h1, h2, fun f hf _ hm => ⟨hl1 f hf hm, hl2 f hf hm⟩⟩

theorem fits_nil {dir : Str} {items : List tar.Next}
    (h : ∀ f ∈ headers items, f.modeType ≠ .dir → entryLoc dir f ≠ []) :
    fits [] dir items := by
  have hnode : ∀ q : Loc, q ≠ [] → FS.node [] q = none := by
    intro q hq
    simp [FS.node, hq, FS.get]
  have hany : ∀ q : Loc, FS.node [] q = none ∨ FS.node [] q = some Node.dir := by
    intro q
    by_cases hq : q = []
    · subst hq; exact Or.inr (node_nil _)
    · exact Or.inl (hnode q hq)
  intro f hf
  refine ⟨fun q _ _ => hany q, fun _ => hany _, fun hm => ?_, fun hm => ⟨?_, fun hd => ?_⟩⟩
  · exact Or.inl (hnode _ (h f hf (by rw [hm]; simp)))
  · exact h f hf (by rw [hm]; simp)
  · rw [hnode _ (h f hf (by rw [hm]; simp))] at hd
    cases hd

/-- C9, worked example: the archive with the directories `.` and `bin`, the
file `bin/run` and the link `bin/l` with target `target`, extracted twice into
`/dest` starting from an empty file system. -/
theorem symlink_entry_extracted_twice_witness :
    extractable "/dest".toList linkArchive = true ∧
    ∃ fs1 fs2,
      untar (.gzip linkArchive) "/dest".toList 7 [] = (fs1, none) ∧
      untar (.gzip linkArchive) "/dest".toList 9 fs1 = (fs2, none) ∧
      os.Lstat fs1 "/dest/bin/l".toList = .ok (Node.symlink "target".toList) ∧
      os.Lstat fs2 "/dest/bin/l".toList = .ok (Node.symlink "target".toList) := by
  have hext : extractable "/dest".toList linkArchive = true := by decide
  have hfit : fits [] "/dest".toList linkArchive := by
    apply fits_nil
    intro f hf _
    simp only [linkArchive, dirEntries, headers, List.cons_append, List.nil_append, List.mem_cons,
      List.mem_singleton, List.not_mem_nil, or_false] at hf
    rcases hf with h | h | h | h <;> subst h <;> decide
  obtain ⟨fs1, fs2, h1, h2, h3⟩ :=
    symlink_entry_extracted_twice "/dest".toList linkArchive 7 9 [] (by decide) hext hfit
  have h4 := h3 (plainHeader "bin/l" "target" tar.TypeSymlink) (by decide) rfl (by decide)
  exact ⟨hext, fs1, fs2, h1, h2, h4.1, h4.2⟩

/-- C9, counterexample: an archive with the directory entry `d` followed by
the symbolic-link entry `d` with the relative target `t` extracts once into
`/dest` and fails the second time, when `MkdirAll` meets the link; the single
link entry `l` fails at the first run when `/dest/l` is a directory that is not
empty; of two link entries `l` with different targets the first is not in
place after a run; a link entry followed by an entry below it, and a file
entry followed by an entry below it or by a directory entry of the same name,
fail at the first run; so does a file entry at the path of a link whose target
is a directory, a link entry with an empty target, a link entry followed by an
entry of an unsupported type, and the link entry `bin/l` when `/dest/bin` is a
symbolic link to nowhere or a file. -/
theorem symlink_entry_counterexample :
    (untar dirThenLinkArchive "/dest".toList 7 []).2 = none ∧
    os.Lstat (untar dirThenLinkArchive "/dest".toList 7 []).1 "/dest/d".toList
      = .ok (Node.symlink "t".toList) ∧
    (untar dirThenLinkArchive "/dest".toList 9
        (untar dirThenLinkArchive "/dest".toList 7 []).1).2
      = some (UntarError.mkdirAll Errno.EEXIST) ∧
    (untar (.gzip [linkEntry]) "/dest".toList 7 fsOccupiedLink).2
      = some (UntarError.unlink "/dest/l".toList Errno.ENOTEMPTY) ∧
    (untar (.gzip [.entry (plainHeader "l" "a" tar.TypeSymlink) [] false,
        .entry (plainHeader "l" "b" tar.TypeSymlink) [] false]) "/dest".toList 7 []).2 = none ∧
    os.Lstat (untar (.gzip [.entry (plainHeader "l" "a" tar.TypeSymlink) [] false,
        .entry (plainHeader "l" "b" tar.TypeSymlink) [] false]) "/dest".toList 7 []).1
        "/dest/l".toList = .ok (Node.symlink "b".toList) ∧
    (untar (.gzip [linkEntry, .entry (plainHeader "l/x" "" tar.TypeDir) [] false])
        "/dest".toList 7 []).2 = some (UntarError.mkdirAll Errno.EEXIST) ∧
    (untar (.gzip [.entry (plainHeader "a" "" tar.TypeReg) [] false,
        .entry (plainHeader "a/b" "" tar.TypeReg) [] false]) "/dest".toList 7 []).2
      = some (UntarError.mkdirAll Errno.ENOTDIR) ∧
    (untar (.gzip [.entry (plainHeader "a" "" tar.TypeReg) [] false,
        .entry (plainHeader "a" "" tar.TypeDir) [] false]) "/dest".toList 7 []).2
      = some (UntarError.mkdirAll Errno.ENOTDIR) ∧
    (untar (.gzip [.entry (plainHeader "d" "" tar.TypeDir) [] false,
        .entry (plainHeader "l" "d" tar.TypeSymlink) [] false,
        .entry (plainHeader "l" "" tar.TypeReg) [] false]) "/dest".toList 7 []).2
      = some (UntarError.openFile Errno.EISDIR) ∧
    (untar (.gzip [.entry (plainHeader "l" "" tar.TypeSymlink) [] false]) "/dest".toList 7 []).2
      = some (UntarError.makingSymlink "/dest/l".toList Errno.ENOENT) ∧
    (untar (.gzip [linkEntry, .entry (plainHeader "p" "" '6') [] false]) "/dest".toList 7 []).2
      = some (UntarError.unsupported "p".toList) ∧
    (untar (.gzip [.entry (plainHeader "bin/l" "target" tar.TypeSymlink) [] false])
        "/dest".toList 7
        [(["dest".toList, "bin".toList], Node.symlink "nowhere".toList),
          (["dest".toList], Node.dir)]).2
      = some (UntarError.makingDirectory "/dest/bin/l".toList Errno.EEXIST) ∧
    (untar (.gzip [.entry (plainHeader "bin/l" "target" tar.TypeSymlink) [] false])
        "/dest".toList 7
        [(["dest".toList, "bin".toList], Node.file 0o644 [] 0), (["dest".toList], Node.dir)]).2
      = some (UntarError.makingDirectory "/dest/bin/l".toList Errno.ENOTDIR) := by
  refine ⟨by decide, by decide, by decide, by decide, by decide, by decide, by decide, by decide,
    by decide, by decide, by decide, by decide, by decide, by decide⟩

/-! ### Interleaved invocations -/

theorem runSolo_add (s : Stub) :
    ∀ (a b : Nat) (p : Proc) (fs : FS),
      runSolo s (a + b) p fs = runSolo s b (runSolo s a p fs).1 (runSolo s a p fs).2 := by
  intro a
  induction a with
  | zero => intro b p fs; simp [runSolo]
  | succ a ih =>
    intro b p fs
    have e : a + 1 + b = (a + b) + 1 := by omega
    rw [e, runSolo, ih, runSolo]

theorem runSolo_extracting (s : Stub) (n : Nat) :
    ∀ (items : List tar.Next) (st : UntarState),
      ∃ j, runSolo s j (.extracting n items st.madeDir) st.fs =
        match untarLoop (applicationDirectoryPath s n) s.now items st with
        | (st1, some e) => (Proc.done (.fatal (.uncompress e) n), st1.fs)
        | (st1, none) => (Proc.removeLock n, st1.fs) := by
  intro items
  induction items with
  | nil => intro st; exact ⟨1, by simp [runSolo, step, untarLoop]⟩
  | cons it items ih =>
    intro st
    cases it with
    | err => exact ⟨1, by simp [runSolo, step, untarLoop]⟩
    | entry f body copyErr =>
      cases hent : untarEntry (applicationDirectoryPath s n) s.now f body copyErr st with
      | mk st1 oe =>
        cases oe with
        | some e =>
          refine ⟨1, ?_⟩
          have hst : (⟨st.fs, st.madeDir⟩ : UntarState) = st := rfl
          simp [runSolo, step, untarLoop, hst, hent]
        | none =>
          obtain ⟨j, hj⟩ := ih st1
          refine ⟨j + 1, ?_⟩
          have hst : (⟨st.fs, st.madeDir⟩ : UntarState) = st := rfl
          have e1 : step s (.extracting n (.entry f body copyErr :: items) st.madeDir) st.fs
              = (.extracting n items st1.madeDir, st1.fs) := by
            simp [step, hst, hent]
          rw [runSolo, e1]
          simp only [untarLoop, hent]
          exact hj

theorem step_mkdirLock_ok {s : Stub} {n : Nat} {fs fsL : FS}
    (h : os.MkdirAll fs (lockPath s n) = .ok fsL) :
    step s (.mkdirLock n) fs = (.openData n, fsL) := by
  simp only [step, h]

theorem step_openData_gzip {s : Stub} {n : Nat} {fs : FS} {items : List tar.Next}
    (h : s.embedded.Open "nodejsdata.tar.gz".toList = some (.gzip items)) :
    step s (.openData n) fs = (.extracting n items [], fs) := by
  simp only [step, h]

theorem runSolo_extractAttempt (s : Stub) (n : Nat) (fs : FS) :
    ∃ j, some ((runSolo s j (.mkdirLock n) fs).1, (runSolo s j (.mkdirLock n) fs).2)
      = (extractAttempt s n fs).ending.map (fun x => (Proc.done x.1, x.2)) := by
  unfold extractAttempt
  simp only []
  cases hmk : os.MkdirAll fs (lockPath s n) with
  | error e => exact ⟨1, by simp only [runSolo, step, hmk, Resolution.ending, Option.map]⟩
  | ok fsL =>
    cases hopen : s.embedded.Open "nodejsdata.tar.gz".toList with
    | none =>
      exact ⟨2, by simp only [runSolo, step, hmk, hopen, Resolution.ending, Option.map]⟩
    | some r =>
      cases r with
      | notGzip =>
        exact ⟨2, by
          simp only [runSolo, step, hmk, hopen, Resolution.ending, Untar, untar, Option.map]⟩
      | gzip items =>
        obtain ⟨j, hj⟩ := runSolo_extracting s n items { fs := fsL, madeDir := [] }
        have hpre : runSolo s 2 (.mkdirLock n) fs = (.extracting n items [], fsL) := by
          simp only [runSolo, step_mkdirLock_ok hmk, step_openData_gzip hopen]
        simp only [Untar, untar]
        cases hloop : untarLoop (applicationDirectoryPath s n) s.now items
            { fs := fsL, madeDir := [] } with
        | mk st1 oe =>
          rw [hloop] at hj
          cases oe with
          | some e =>
            refine ⟨2 + j, ?_⟩
            rw [runSolo_add, hpre]
            simp only [] at hj ⊢
            rw [hj]
            simp only [Resolution.ending, Option.map]
          | none =>
            refine ⟨2 + (j + 1), ?_⟩
            rw [runSolo_add, hpre, runSolo_add]
            simp only [] at hj ⊢
            rw [hj]
            cases hrm : os.Remove st1.fs (lockPath s n) with
            | ok fs3 => simp only [runSolo, step, hrm, Resolution.ending, Option.map]
            | error e => simp only [runSolo, step, hrm, Resolution.ending, Option.map]

/-- The invocation cut into steps ends as the attempt loop does: whenever the
loop of `main` ends, the stepwise run started before the first `Stat` reaches
the same ending with the same file system. -/
theorem runSolo_attemptLoop (s : Stub) (fs : FS) :
    ∀ (fuel k : Nat) (e : Ending) (fs1 : FS),
      (attemptLoop s fuel k fs).ending = some (e, fs1) →
      ∃ j, runSolo s j (.statApp k) fs = (.done e, fs1) := by
  intro fuel
  induction fuel with
  | zero => intro k e fs1 h; simp [attemptLoop, Resolution.ending] at h
  | succ fuel ih =>
    intro k e fs1 h
    rw [attemptLoop_succ] at h
    unfold attemptStep at h
    simp only [] at h
    cases hst : os.Stat fs (applicationDirectoryPath s k) with
    | error er =>
      rw [hst] at h
      simp only [] at h
      by_cases hne : er ≠ .ENOENT
      · simp only [if_pos hne, Resolution.ending, Option.some.injEq, Prod.mk.injEq] at h
        refine ⟨1, ?_⟩
        simp only [runSolo, step, hst, if_pos hne]
        rw [← h.1, ← h.2]
      · simp only [if_neg hne] at h
        obtain ⟨j, hj⟩ := runSolo_extractAttempt s k fs
        rw [h] at hj
        simp only [Option.map, Option.some.injEq, Prod.mk.injEq] at hj
        refine ⟨1 + j, ?_⟩
        rw [runSolo_add]
        have e1 : runSolo s 1 (.statApp k) fs = (.mkdirLock k, fs) := by
          simp only [runSolo, step, hst, if_neg hne]
        rw [e1]
        exact Prod.ext hj.1 hj.2
    | ok info =>
      rw [hst] at h
      simp only [] at h
      by_cases hd : info.IsDir = true
      · simp only [hd, Bool.not_true, Bool.false_eq_true, if_false] at h
        have e1 : runSolo s 1 (.statApp k) fs = (.statLock k, fs) := by
          simp only [runSolo, step, hst, hd, Bool.not_true, Bool.false_eq_true, if_false]
        cases hl : os.Stat fs (lockPath s k) with
        | error er =>
          rw [hl] at h
          simp only [] at h
          by_cases hne : er ≠ .ENOENT
          · simp only [if_pos hne, Resolution.ending, Option.some.injEq, Prod.mk.injEq] at h
            refine ⟨1 + 1, ?_⟩
            rw [runSolo_add, e1]
            simp only [runSolo, step, hl, if_pos hne]
            rw [← h.1, ← h.2]
          · simp only [if_neg hne, Resolution.ending, Option.some.injEq, Prod.mk.injEq] at h
            refine ⟨1 + 1, ?_⟩
            rw [runSolo_add, e1]
            simp only [runSolo, step, hl, if_neg hne]
            rw [← h.1, ← h.2]
        | ok linfo =>
          rw [hl] at h
          simp only [] at h
          by_cases hld : linfo.IsDir = true
          · simp only [hld, Bool.not_true, Bool.false_eq_true, if_false] at h
            obtain ⟨j, hj⟩ := ih (k + 1) e fs1 h
            refine ⟨1 + (1 + j), ?_⟩
            rw [runSolo_add, e1, runSolo_add]
            have e2 : runSolo s 1 (.statLock k) fs = (.statApp (k + 1), fs) := by
              simp only [runSolo, step, hl, hld, Bool.not_true, Bool.false_eq_true, if_false]
            rw [e2]
            exact hj
          · have hld2 : linfo.IsDir = false := by simpa using hld
            simp only [hld2, Bool.not_false, if_true, Resolution.ending, Option.some.injEq,
              Prod.mk.injEq] at h
            refine ⟨1 + 1, ?_⟩
            rw [runSolo_add, e1]
            simp only [runSolo, step, hl, hld2, Bool.not_false, if_true]
            rw [← h.1, ← h.2]
      · have hd2 : info.IsDir = false := by simpa using hd
        simp only [hd2, Bool.not_false, if_true, Resolution.ending, Option.some.injEq,
          Prod.mk.injEq] at h
        refine ⟨1, ?_⟩
        simp only [runSolo, step, hst, hd2, Bool.not_false, if_true]
        rw [← h.1, ← h.2]

theorem step_statLock_of_lockIsDir {s : Stub} {fs : FS} {n : Nat} (h : lockIsDir s fs n) :
    step s (.statLock n) fs = (.statApp (n + 1), fs) := by
  obtain ⟨info, h1, h2⟩ := h
  simp only [step, h1, h2, Bool.not_true, Bool.false_eq_true, if_false]

/-- One step of an invocation of the stub as built that has not entered
`Untar`: it does not enter `Untar`, the file system only grows, and when the
invocation holds the lock of an attempt afterwards, the lock directory of that
attempt is there. -/
theorem step_data {s : Stub} {b : Reader} (hb : s.embedded = data b) {p : Proc} {fs : FS}
    (hp : p.extracts = false) (hl : ∀ n, p.holdsLock n = true → lockIsDir s fs n) :
    (step s p fs).1.extracts = false ∧ keeps fs (step s p fs).2 ∧
      ∀ n, (step s p fs).1.holdsLock n = true → lockIsDir s (step s p fs).2 n := by
  cases p with
  | statApp n =>
    simp only [step]
    split
    · split <;> exact ⟨rfl, keeps_refl _, fun m hm => by simp [Proc.holdsLock] at hm⟩
    · split <;> exact ⟨rfl, keeps_refl _, fun m hm => by simp [Proc.holdsLock] at hm⟩
  | statLock n =>
    simp only [step]
    split
    · split <;> exact ⟨rfl, keeps_refl _, fun m hm => by simp [Proc.holdsLock] at hm⟩
    · split <;> exact ⟨rfl, keeps_refl _, fun m hm => by simp [Proc.holdsLock] at hm⟩
  | mkdirLock n =>
    simp only [step]
    split
    · exact ⟨rfl, keeps_refl _, fun m hm => by simp [Proc.holdsLock] at hm⟩
    · rename_i fs1 hmk
      refine ⟨rfl, (MkdirAll_keeps hmk).1, fun m hm => ?_⟩
      simp only [Proc.holdsLock, decide_eq_true_eq] at hm
      subst hm
      exact lockIsDir_of_MkdirAll hmk
  | openData n =>
    simp only [step, hb, open_nodejsdata_data]
    refine ⟨rfl, keeps_refl _, fun m hm => ?_⟩
    simp only [Proc.holdsLock, decide_eq_true_eq] at hm
    subst hm
    exact hl n (by simp [Proc.holdsLock])
  | extracting n items madeDir => simp [Proc.extracts] at hp
  | removeLock n => simp [Proc.extracts] at hp
  | done e =>
    simp only [step]
    exact ⟨hp, keeps_refl _, hl⟩

/-- What holds of two invocations of the stub as built after any number of
interleaved steps. -/
theorem runPair_data {s : Stub} {b : Reader} (hb : s.embedded = data b) :
    ∀ (sched : List Bool) (c : Pair),
      c.first.extracts = false → c.second.extracts = false →
      (∀ n, c.first.holdsLock n = true → lockIsDir s c.fs n) →
      (∀ n, c.second.holdsLock n = true → lockIsDir s c.fs n) →
      (runPair s sched c).first.extracts = false ∧ (runPair s sched c).second.extracts = false ∧
      (∀ n, (runPair s sched c).first.holdsLock n = true → lockIsDir s (runPair s sched c).fs n) ∧
      (∀ n, (runPair s sched c).second.holdsLock n = true →
        lockIsDir s (runPair s sched c).fs n) ∧
      keeps c.fs (runPair s sched c).fs := by
  intro sched
  induction sched with
  | nil => intro c h1 h2 h3 h4; exact ⟨h1, h2, h3, h4, keeps_refl _⟩
  | cons x sched ih =>
    intro c h1 h2 h3 h4
    cases x with
    | false =>
      obtain ⟨k1, k2, k3⟩ := step_data hb h1 h3
      obtain ⟨r1, r2, r3, r4, r5⟩ := ih
        { c with first := (step s c.first c.fs).1, fs := (step s c.first c.fs).2 } k1 h2 k3
        (fun n hn => lockIsDir_keeps k2 (h4 n hn))
      exact ⟨r1, r2, r3, r4, keeps_trans k2 r5⟩
    | true =>
      obtain ⟨k1, k2, k3⟩ := step_data hb h2 h4
      obtain ⟨r1, r2, r3, r4, r5⟩ := ih
        { c with second := (step s c.second c.fs).1, fs := (step s c.second c.fs).2 } h1 k1
        (fun n hn => lockIsDir_keeps k2 (h3 n hn)) k3
      exact ⟨r1, r2, r3, r4, keeps_trans k2 r5⟩

theorem runPair_append (s : Stub) :
    ∀ (a b : List Bool) (c : Pair), runPair s (a ++ b) c = runPair s b (runPair s a c) := by
  intro a
  induction a with
  | nil => intro b c; rfl
  | cons x a ih =>
    intro b c
    cases x <;> (rw [List.cons_append, runPair, runPair]; exact ih b _)

/-- A step ends in the reuse of attempt `n` only from the `Stat` of the lock of
`n`, and only when that `Stat` finds no lock. -/
theorem step_reused_inv {s : Stub} {p : Proc} {fs : FS} {n : Nat} {app : Str}
    (h : (step s p fs).1 = .done (.reused n app)) :
    p = .done (.reused n app) ∨ (p = .statLock n ∧ lockAbsent s fs n) := by
  cases p with
  | statApp m =>
    simp only [step] at h
    split at h <;> split at h <;> cases h
  | statLock m =>
    simp only [step] at h
    split at h
    · rename_i e he
      split at h
      · cases h
      · rename_i hne
        have he2 : e = Errno.ENOENT := by simpa using hne
        subst he2
        simp only [Proc.done.injEq, Ending.reused.injEq] at h
        obtain ⟨h1, _⟩ := h
        subst h1
        exact Or.inr ⟨rfl, he⟩
    · split at h <;> cases h
  | mkdirLock m =>
    simp only [step] at h
    split at h <;> cases h
  | openData m =>
    simp only [step] at h
    split at h <;> cases h
  | extracting m items madeDir =>
    cases items with
    | nil => simp only [step] at h; cases h
    | cons it rest =>
      cases it with
      | err => simp only [step] at h; cases h
      | entry f body copyErr =>
        simp only [step] at h
        split at h <;> cases h
  | removeLock m =>
    simp only [step] at h
    split at h <;> cases h
  | done e =>
    simp only [step] at h
    exact Or.inl h

/-- C5 (as amended): creating the lock directory does not fail when it already
exists: `MkdirAll` succeeds and changes nothing, so two invocations of the stub
as built that both stand before the lock creation of attempt `n` both get past
it and hold the lock of `n` at the same time.  In every interleaving of two
invocations started on a file system `fs0`: neither invocation ever enters
`Untar`, so the two never extract into the same application directory; the
file system only grows; while an invocation holds the lock of attempt `n` the
lock directory is there and a `Stat` of that lock sends on to attempt `n + 1`;
and whenever a step brings an invocation to the reuse of attempt `n`, the other
invocation does not hold the lock of `n` at that moment. -/
theorem lock_creation_not_exclusive (s : Stub) (b : Reader) (hb : s.embedded = data b)
    (fs0 : FS) (sched : List Bool) :
    (∀ fs n, lockIsDir s fs n →
      os.MkdirAll fs (lockPath s n) = .ok fs ∧ step s (.mkdirLock n) fs = (.openData n, fs)) ∧
    (∀ fs fsL n, os.MkdirAll fs (lockPath s n) = .ok fsL →
      runPair s [false, true] { first := .mkdirLock n, second := .mkdirLock n, fs := fs } =
        { first := .openData n, second := .openData n, fs := fsL }) ∧
    (runPair s sched (Pair.start fs0)).first.extracts = false ∧
    (runPair s sched (Pair.start fs0)).second.extracts = false ∧
    keeps fs0 (runPair s sched (Pair.start fs0)).fs ∧
    (∀ n,
      ((runPair s sched (Pair.start fs0)).first.holdsLock n = true ∨
        (runPair s sched (Pair.start fs0)).second.holdsLock n = true) →
      lockIsDir s (runPair s sched (Pair.start fs0)).fs n ∧
      step s (.statLock n) (runPair s sched (Pair.start fs0)).fs
        = (.statApp (n + 1), (runPair s sched (Pair.start fs0)).fs)) ∧
    (∀ n app,
      (runPair s (sched ++ [false]) (Pair.start fs0)).first = .done (.reused n app) →
      (runPair s sched (Pair.start fs0)).first = .done (.reused n app) ∨
        (runPair s sched (Pair.start fs0)).second.holdsLock n = false) ∧
    (∀ n app,
      (runPair s (sched ++ [true]) (Pair.start fs0)).second = .done (.reused n app) →
      (runPair s sched (Pair.start fs0)).second = .done (.reused n app) ∨
        (runPair s sched (Pair.start fs0)).first.holdsLock n = false) := by
  obtain ⟨r1, r2, r3, r4, r5⟩ := runPair_data hb sched (Pair.start fs0) rfl rfl
    (fun n hn => by simp [Pair.start, Proc.holdsLock] at hn)
    (fun n hn => by simp [Pair.start, Proc.holdsLock] at hn)
  refine ⟨?_, ?_, r1, r2, r5, ?_, ?_, ?_⟩
  · rintro fs n ⟨info, h1, h2⟩
    have hmk := MkdirAll_of_isDir h1 h2
    exact ⟨hmk, step_mkdirLock_ok hmk⟩
  · intro fs fsL n hmk
    have hl := lockIsDir_of_MkdirAll hmk
    obtain ⟨info, h1, h2⟩ := hl
    have hmk2 := MkdirAll_of_isDir h1 h2
    simp only [runPair, step_mkdirLock_ok hmk, step_mkdirLock_ok hmk2]
  · intro n hn
    have hl : lockIsDir s (runPair s sched (Pair.start fs0)).fs n := by
      rcases hn with h | h
      · exact r3 n h
      · exact r4 n h
    exact ⟨hl, step_statLock_of_lockIsDir hl⟩
  · intro n app h
    rw [runPair_append] at h
    simp only [runPair] at h
    rcases step_reused_inv h with h1 | ⟨_, h2⟩
    · exact Or.inl h1
    · right
      cases hh : (runPair s sched (Pair.start fs0)).second.holdsLock n with
      | false => rfl
      | true => exact absurd (r4 n hh) (not_lockIsDir_of_lockAbsent h2)
  · intro n app h
    rw [runPair_append] at h
    simp only [runPair] at h
    rcases step_reused_inv h with h1 | ⟨_, h2⟩
    · exact Or.inl h1
    · right
      cases hh : (runPair s sched (Pair.start fs0)).first.holdsLock n with
      | false => rfl
      | true => exact absurd (r3 n hh) (not_lockIsDir_of_lockAbsent h2)

/-- C5, worked example: two invocations of the stub as built for `app-v1`
that take turns on an empty file system.  After four turns each both hold the
lock of attempt 0 and have died with it, neither has entered `Untar`, and a
`Stat` of the lock of attempt 0 sends on to attempt 1.  On a host that holds
the application directory of attempt 0 and no lock, the second step of the
first invocation brings it to the reuse of attempt 0, and the other invocation
does not hold the lock of attempt 0 then. -/
theorem lock_creation_not_exclusive_witness :
    runPair (exampleStub (data builtArchive)) [false, true, false, true, false, true, false, true]
        pairAtStart
      = { first := .done (.fatal .openEmbedded 0), second := .done (.fatal .openEmbedded 0),
          fs := fsLockOnly.reverse } ∧
    lockIsDir (exampleStub (data builtArchive)) fsLockOnly.reverse 0 ∧
    step (exampleStub (data builtArchive)) (.statLock 0) fsLockOnly.reverse
      = (.statApp 1, fsLockOnly.reverse) ∧
    os.MkdirAll fsLockOnly.reverse (lockPath (exampleStub (data builtArchive)) 0)
      = .ok fsLockOnly.reverse ∧
    (runPair (exampleStub (data builtArchive)) ([false] ++ [false]) (Pair.start fsAfterBuilt)).first
      = .done (.reused 0 "/tmp/caxa/applications/app-v1/0".toList) ∧
    (runPair (exampleStub (data builtArchive)) [false] (Pair.start fsAfterBuilt)).first
      = .statLock 0 ∧
    (runPair (exampleStub (data builtArchive)) [false] (Pair.start fsAfterBuilt)).second.holdsLock 0
      = false := by
  have hrun : runPair (exampleStub (data builtArchive))
      [false, true, false, true, false, true, false, true] (Pair.start [])
      = { first := .done (.fatal .openEmbedded 0), second := .done (.fatal .openEmbedded 0),
          fs := fsLockOnly.reverse } := by decide
  have h := lock_creation_not_exclusive (exampleStub (data builtArchive)) builtArchive rfl []
    [false, true, false, true, false, true, false, true]
  have h6 := h.2.2.2.2.2.1 0
  rw [hrun] at h6
  have h7 := h6 (Or.inl (by decide))
  have hreuse : (runPair (exampleStub (data builtArchive)) ([false] ++ [false])
      (Pair.start fsAfterBuilt)).first
      = .done (.reused 0 "/tmp/caxa/applications/app-v1/0".toList) := by decide
  have hat : (runPair (exampleStub (data builtArchive)) [false] (Pair.start fsAfterBuilt)).first
      = .statLock 0 := by decide
  have h8 := (lock_creation_not_exclusive (exampleStub (data builtArchive)) builtArchive rfl
    fsAfterBuilt [false]).2.2.2.2.2.2.1 0 _ hreuse
  refine ⟨hrun, h7.1, h7.2, (h.1 _ 0 h7.1).1, hreuse, hat, ?_⟩
  rcases h8 with h9 | h9
  · rw [hat] at h9
    cases h9
  · exact h9

/-- C5, counterexample: two invocations of the stub as built that take turns
from an empty file system both find no application directory at attempt 0;
the first makes the lock directory, and the lock creation of the second does
not fail although the directory exists: both stand past the lock creation of
attempt 0 at the same time, and both die there with the lock left behind. -/
theorem two_invocations_same_attempt_counterexample :
    runPair (exampleStub (data builtArchive)) [false, true, false] pairAtStart
      = { first := .openData 0, second := .mkdirLock 0, fs := fsLockOnly.reverse } ∧
    os.Stat fsLockOnly.reverse "/tmp/caxa/locks/app-v1/0".toList = .ok Node.dir ∧
    runPair (exampleStub (data builtArchive)) [false, true, false, true] pairAtStart
      = { first := .openData 0, second := .openData 0, fs := fsLockOnly.reverse } ∧
    runPair (exampleStub (data builtArchive)) [false, true, false, true, false, true] pairAtStart
      = { first := .done (.fatal .openEmbedded 0), second := .done (.fatal .openEmbedded 0),
          fs := fsLockOnly.reverse } := by
  refine ⟨by decide, by decide, by decide, by decide⟩

/-! ### End to end -/

/-- The end-to-end example: `Untar` extracts the archive of the builder into
the application directory of attempt 0; on a host that holds that directory
the stub as built launches `bin/run` from it with the forwarded argument and
ends with the exit code 3 of the child; on an empty host it ends in the fatal
error of the open of the embedded archive. -/
theorem main_end_to_end :
    Untar builtArchive "/tmp/caxa/applications/app-v1/0".toList 1000 [] = (fsAfterBuilt, none) ∧
    binary.main (exampleStub (data builtArchive)) 1 ["--flag".toList] exampleChild fsAfterBuilt =
      .launched (.exit 3) "/tmp/caxa/applications/app-v1/0".toList fsAfterBuilt ∧
    binary.main (exampleStub (data builtArchive)) 1 ["--flag".toList] exampleChild [] =
      .fatal .openEmbedded 0 fsLockOnly.reverse := by
  refine ⟨by decide, by decide, by decide⟩
